import Mathlib

/-!
# Compact list (MeerkatBoss/list): embedding of `list.h` / `list_impl.h`

A doubly linked list kept inside one array of nodes.  Node identity is an
array index (`list_iterator`), index `0` is the sentinel, unused nodes are
chained through their `next` field into a free list.

Modelling choices.

* `element_t` is `void*` in the source with `POISON = NULL`; an address is a
  natural number here and `POISON` is `0`.
* `size_t` values are natural numbers.  The arena of `capacity` nodes is one
  live allocation, so every index the code computes on it is far below
  `2^64`; the one operation that can wrap on a call the code accepts,
  `list->size--`, is modelled with its wrap-around.  Once `size` has wrapped,
  the sum `list_begin(list) + num` of `element_by_number` can exceed
  `SIZE_MAX` although `num < size`; `element_by_number_sz` takes that sum
  modulo `2^64`, as `size_t` arithmetic does.
* The node array is a `List node` whose length is the number of allocated
  nodes.  Reading or writing outside of it is undefined behaviour in C and is
  the result `Res.oob` here.  Loops whose trip count is not bounded by a
  counter get fuel equal to the number of allocated nodes plus one: a walk
  along `next` that has not stopped by then has visited some node twice and
  never stops, which is the result `Res.diverge`.
* `LOG_ASSERT(cond, action)` comes from `logger.h`, which is not part of the
  sources at hand; following the interface description it runs `action` when
  `cond` is false.  The checks `list != NULL` and `list->nodes != NULL` always
  pass on a list value of the model; allocation is assumed to succeed.
-/

namespace CompactList

/-! ## Results of running code -/

/-- Outcome of running a piece of the C code. -/
inductive Res (α : Type) where
  | ok : α → Res α
  | oob : Res α
  | diverge : Res α
deriving DecidableEq, Repr

/-- Sequencing of two pieces of code. -/
def Res.bind {α β : Type} : Res α → (α → Res β) → Res β
  | .ok a, f => f a
  | .oob, _ => .oob
  | .diverge, _ => .diverge

instance : Monad Res where
  pure := Res.ok
  bind := Res.bind

/-! ## Data model (`list.h`) -/

/-- Payload type: `typedef void* element_t`. -/
abbrev element_t := Nat

/-- Poison value: `const element_t POISON = NULL`. -/
def POISON : element_t := 0

/-- Iterator type: `typedef size_t list_iterator`. -/
abbrev list_iterator := Nat

/-- Largest `size_t` value. -/
def SIZE_MAX : Nat := 2 ^ 64 - 1

/-- Linked list node: `struct node`. -/
structure node where
  value : element_t
  next : list_iterator
  prev : list_iterator
  is_free : Bool
deriving DecidableEq, Repr

/-- Linked list: `struct compact_list`; `nodes` is the allocated array. -/
structure compact_list where
  nodes : List node
  free : list_iterator
  size : Nat
  capacity : Nat
  is_linear : Bool
deriving DecidableEq, Repr

/-- Constant `default_cap_`. -/
def default_cap_ : Nat := 16

/-- Constant `growth_coeff_`. -/
def growth_coeff_ : Nat := 2

/-! ## Memory access -/

/-- Read `nodes[i]`. -/
def rd (ns : List node) (i : Nat) : Res node :=
  match ns[i]? with
  | some n => .ok n
  | none => .oob

/-- Assignment `nodes[i] = n`. -/
def wr (ns : List node) (i : Nat) (n : node) : Res (List node) :=
  if i < ns.length then .ok (ns.set i n) else .oob

/-- Assignment `nodes[i].next = v`. -/
def set_next (ns : List node) (i v : Nat) : Res (List node) :=
  match ns[i]? with
  | some n => .ok (ns.set i { n with next := v })
  | none => .oob

/-- Assignment `nodes[i].prev = v`. -/
def set_prev (ns : List node) (i v : Nat) : Res (List node) :=
  match ns[i]? with
  | some n => .ok (ns.set i { n with prev := v })
  | none => .oob

/-- Counted loop `for (i = start; i < start + n; i++) s = body(i, s)`. -/
def for_range {σ : Type} (body : Nat → σ → Res σ) : Nat → Nat → σ → Res σ
  | _, 0, s => .ok s
  | i, n + 1, s => (body i s).bind (for_range body (i + 1) n)

/-- Contents of a block that `reallocarray` resized to `n` nodes: the old
nodes up to `n`, then nodes of indeterminate content (all of them are
assigned by `resize_list` before they are read). -/
def reallocarray (ns : List node) (n : Nat) : List node :=
  (ns ++ List.replicate (n - ns.length) (node.mk POISON 0 0 false)).take n

/-- Function `memswap` on two nodes of the array: the byte-wise XOR swap
exchanges the two nodes when they are distinct and zeroes the node when both
pointers are the same. -/
def memswap (ns : List node) (i j : Nat) : Res (List node) :=
  match ns[i]?, ns[j]? with
  | some a, some b =>
    if i = j then .ok (ns.set i ⟨0, 0, 0, false⟩) else .ok ((ns.set i b).set j a)
  | _, _ => .oob

/-! ## Operations (`list_impl.h`) -/

/-- Function `list_ctor`. -/
def list_ctor : compact_list :=
  { nodes := node.mk POISON 0 0 false ::
      (List.range' 1 (default_cap_ - 1)).map
        (fun i => node.mk POISON ((i + 1) % default_cap_) 0 true)
    free := 1
    size := 0
    capacity := default_cap_
    is_linear := true }

/-- Function `list_begin`: `list->nodes->next`. -/
def list_begin (l : compact_list) : Res list_iterator :=
  (rd l.nodes 0).bind fun n => .ok n.next

/-- Function `list_end`: `list->nodes->prev`. -/
def list_end (l : compact_list) : Res list_iterator :=
  (rd l.nodes 0).bind fun n => .ok n.prev

/-- Function `next_element`. -/
def next_element (l : compact_list) (iterator : list_iterator) : Res list_iterator :=
  (rd l.nodes iterator).bind fun n => .ok n.next

/-- Function `prev_element`. -/
def prev_element (l : compact_list) (iterator : list_iterator) : Res list_iterator :=
  (rd l.nodes iterator).bind fun n => .ok n.prev

/-- The loop `while((nxt = next_element(list, lst_free))) lst_free = nxt;` of
`resize_list`; the result is the final `lst_free`. -/
def tail_walk (ns : List node) : Nat → list_iterator → Res list_iterator
  | 0, _ => .diverge
  | fuel + 1, lst_free =>
    (rd ns lst_free).bind fun n =>
      if n.next = 0 then .ok lst_free else tail_walk ns fuel n.next

/-- Function `resize_list`. -/
def resize_list (l : compact_list) (new_size : Nat) : Res compact_list :=
  let old_size := l.capacity
  let nodes0 := reallocarray l.nodes new_size
  (for_range (fun i ns => wr ns i ⟨POISON, (i + 1) % new_size, 0, true⟩)
      old_size (new_size - old_size) nodes0).bind fun nodes1 =>
  let lst_free := l.free
  let free1 := if l.free = 0 then old_size else l.free
  (tail_walk nodes1 (nodes1.length + 1) lst_free).bind fun last =>
  (set_next nodes1 last 0).bind fun nodes2 =>
  .ok { l with nodes := nodes2, capacity := new_size, free := free1 }

/-- Function `try_grow_list`. -/
def try_grow_list (l : compact_list) : Res compact_list :=
  if l.free ≠ 0 then .ok l
  else resize_list l (l.capacity * growth_coeff_)

/-- The size that `try_shrink_list` passes to `resize_list`, or `none` when
one of its early returns is taken. -/
def shrink_size (l : compact_list) : Res (Option Nat) :=
  if l.is_linear = false then .ok none
  else if l.capacity ≤ default_cap_ then .ok none
  else if (l.size + 2) * growth_coeff_ ≤ default_cap_ then .ok none
  else if (l.size + 2) * growth_coeff_ * growth_coeff_ > l.capacity then .ok none
  else
    (list_begin l).bind fun b =>
      let new_size := (l.size + 2) * growth_coeff_
      if b + l.size + 1 < new_size then .ok (some (b + l.size + 1))
      else .ok (some new_size)

/-- Function `try_shrink_list`. -/
def try_shrink_list (l : compact_list) : Res compact_list :=
  (shrink_size l).bind fun r =>
    match r with
    | none => .ok l
    | some new_size => resize_list l new_size

/-- Body of `insert_after` up to and including `list->size++`. -/
def insert_after_core (l : compact_list) (iterator : list_iterator) (value : element_t) :
    Res (compact_list × list_iterator) :=
  let cur := iterator
  let added := l.free
  (next_element l iterator).bind fun nxt =>
  let lin := if ¬ (cur + 1 = added ∧ added + 1 = nxt) then false else l.is_linear
  (next_element l l.free).bind fun free1 =>
  (wr l.nodes added ⟨value, nxt, cur, false⟩).bind fun ns1 =>
  (set_next ns1 cur added).bind fun ns2 =>
  (set_prev ns2 nxt added).bind fun ns3 =>
  .ok ({ l with nodes := ns3, free := free1, is_linear := lin, size := l.size + 1 }, added)

/-- Function `insert_after`. -/
def insert_after (l : compact_list) (iterator : list_iterator) (value : element_t) :
    Res (compact_list × list_iterator) :=
  (insert_after_core l iterator value).bind fun r =>
  (try_grow_list r.1).bind fun l2 => .ok (l2, r.2)

/-- Body of `insert_before` up to and including `list->size++`. -/
def insert_before_core (l : compact_list) (iterator : list_iterator) (value : element_t) :
    Res (compact_list × list_iterator) :=
  let cur := iterator
  let added := l.free
  (prev_element l iterator).bind fun prv =>
  let lin := if ¬ (prv + 1 = added ∧ added + 1 = cur) then false else l.is_linear
  (next_element l l.free).bind fun free1 =>
  (wr l.nodes added ⟨value, cur, prv, false⟩).bind fun ns1 =>
  (set_prev ns1 cur added).bind fun ns2 =>
  (set_next ns2 prv added).bind fun ns3 =>
  .ok ({ l with nodes := ns3, free := free1, is_linear := lin, size := l.size + 1 }, added)

/-- Function `insert_before`. -/
def insert_before (l : compact_list) (iterator : list_iterator) (value : element_t) :
    Res (compact_list × list_iterator) :=
  (insert_before_core l iterator value).bind fun r =>
  (try_grow_list r.1).bind fun l2 => .ok (l2, r.2)

/-- Function `push_back`. -/
def push_back (l : compact_list) (value : element_t) : Res (compact_list × list_iterator) :=
  (list_end l).bind fun e => insert_after l e value

/-- Function `push_front`. -/
def push_front (l : compact_list) (value : element_t) : Res (compact_list × list_iterator) :=
  (list_begin l).bind fun b => insert_before l b value

/-- Function `get_element`. -/
def get_element (l : compact_list) (iterator : list_iterator) : Res element_t :=
  if iterator = 0 then .ok POISON
  else (rd l.nodes iterator).bind fun n => .ok n.value

/-- Body of `erase_element` after the assertions, up to and including
`list->size--`. -/
def erase_core (l : compact_list) (iterator : list_iterator) : Res compact_list :=
  (next_element l iterator).bind fun nxt =>
  (prev_element l iterator).bind fun prv =>
  (set_next l.nodes prv nxt).bind fun ns1 =>
  (set_prev ns1 nxt prv).bind fun ns2 =>
  (wr ns2 iterator ⟨POISON, l.free, 0, true⟩).bind fun ns3 =>
  let lin := if ¬ (nxt = 0 ∨ prv = 0) then false else l.is_linear
  .ok { l with nodes := ns3, free := iterator, is_linear := lin,
               size := if l.size = 0 then SIZE_MAX else l.size - 1 }

/-- Function `erase_element`. -/
def erase_element (l : compact_list) (iterator : list_iterator) : Res compact_list :=
  if iterator = 0 then .ok l
  else (erase_core l iterator).bind try_shrink_list

/-- Function `pop_back`. -/
def pop_back (l : compact_list) : Res compact_list :=
  (list_end l).bind fun e => erase_element l e

/-- Function `pop_front`. -/
def pop_front (l : compact_list) : Res compact_list :=
  (list_begin l).bind fun b => erase_element l b

/-- First loop of `linearize`: walk the list from `it`, storing the running
count `cnt` into the `prev` field of every node met. -/
def stamp (ns : List node) : Nat → list_iterator → Nat → Res (List node)
  | _, 0, _ => .ok ns
  | 0, _ + 1, _ => .diverge
  | fuel + 1, it + 1, cnt =>
    (set_prev ns (it + 1) cnt).bind fun ns1 =>
    (rd ns1 (it + 1)).bind fun n => stamp ns1 fuel n.next (cnt + 1)

/-- The `while` loop of `linearize` for one index `i`. -/
def place (ns : List node) : Nat → Nat → Res (List node)
  | 0, _ => .diverge
  | fuel + 1, i =>
    (rd ns i).bind fun n =>
      if n.is_free = false ∧ n.prev ≠ i then
        (memswap ns i n.prev).bind fun ns1 => place ns1 fuel i
      else .ok ns

/-- Body of the last loop of `linearize` for one index `i`. -/
def relink (size capacity : Nat) (i : Nat) (ns : List node) : Res (List node) :=
  (rd ns i).bind fun n =>
    if n.is_free then
      (set_next ns i ((i + 1) % capacity)).bind fun ns1 => set_prev ns1 i 0
    else
      (set_next ns i ((i + 1) % (size + 1))).bind fun ns1 => set_prev ns1 i (i - 1)

/-- Body of `linearize` for a list that is not linear, up to and including
`list->is_linear = 1`. -/
def linearize_core (l : compact_list) : Res compact_list :=
  (list_begin l).bind fun b =>
  (stamp l.nodes (l.nodes.length + 1) b 1).bind fun ns1 =>
  (for_range (fun i ns => place ns (ns.length + 1) i) 1 (l.capacity - 1) ns1).bind fun ns2 =>
  (set_next ns2 0 1).bind fun ns3 =>
  (set_prev ns3 0 l.size).bind fun ns4 =>
  (for_range (relink l.size l.capacity) 1 (l.capacity - 1) ns4).bind fun ns5 =>
  .ok { l with nodes := ns5, free := l.size + 1, is_linear := true }

/-- Function `linearize`. -/
def linearize (l : compact_list) : Res compact_list :=
  if l.is_linear then .ok l
  else (linearize_core l).bind try_shrink_list

/-- Function `element_by_number`, the sum `list_begin(list) + num` taken in the
natural numbers: the value the code returns whenever that sum is at most
`SIZE_MAX`, as it is on every well-formed list inside one allocation.  The sum
in `size_t` is `element_by_number_sz`. -/
def element_by_number (l : compact_list) (num : Nat) : Res list_iterator :=
  if l.is_linear = false then .ok 0
  else if ¬ num < l.size then .ok 0
  else (list_begin l).bind fun b => .ok (b + num)

/-! ## Field views of the node array -/

/-- Field `next` of `nodes[i]`, when `i` is inside the array. -/
def nx (ns : List node) (i : Nat) : Option Nat := (ns[i]?).map node.next

/-- Field `prev` of `nodes[i]`, when `i` is inside the array. -/
def pv (ns : List node) (i : Nat) : Option Nat := (ns[i]?).map node.prev

/-- Field `is_free` of `nodes[i]`, when `i` is inside the array. -/
def fl (ns : List node) (i : Nat) : Option Bool := (ns[i]?).map node.is_free

/-- Field `value` of `nodes[i]`, when `i` is inside the array. -/
def vl (ns : List node) (i : Nat) : Option element_t := (ns[i]?).map node.value

/-- First entry of `xs`, or `d` when `xs` is empty. -/
def hd : List Nat → Nat → Nat
  | [], d => d
  | x :: _, _ => x

/-- Last entry of `xs`, or `d` when `xs` is empty. -/
def lst : List Nat → Nat → Nat
  | [], d => d
  | x :: xs, _ => lst xs x

/-! ## Observations: walking the list -/

/-- Indices met when following `next` from `it` until the sentinel `0`. -/
def walk_next (ns : List node) : Nat → list_iterator → Res (List list_iterator)
  | _, 0 => .ok []
  | 0, _ + 1 => .diverge
  | fuel + 1, it + 1 =>
    (rd ns (it + 1)).bind fun n =>
    (walk_next ns fuel n.next).bind fun r => .ok ((it + 1) :: r)

/-- Indices met when following `prev` from `it` until the sentinel `0`. -/
def walk_prev (ns : List node) : Nat → list_iterator → Res (List list_iterator)
  | _, 0 => .ok []
  | 0, _ + 1 => .diverge
  | fuel + 1, it + 1 =>
    (rd ns (it + 1)).bind fun n =>
    (walk_prev ns fuel n.prev).bind fun r => .ok ((it + 1) :: r)

/-- Indices of the elements in list order: `list_begin`, then `next_element`
until `0`. -/
def indices (l : compact_list) : Res (List list_iterator) :=
  (list_begin l).bind fun b => walk_next l.nodes l.nodes.length b

/-- Indices of the elements in reverse order: `list_end`, then `prev_element`
until `0`. -/
def indices_rev (l : compact_list) : Res (List list_iterator) :=
  (list_end l).bind fun e => walk_prev l.nodes l.nodes.length e

/-- Results of `get_element` on each of the given iterators. -/
def get_all (l : compact_list) : List list_iterator → Res (List element_t)
  | [] => .ok []
  | i :: is =>
    (get_element l i).bind fun v => (get_all l is).bind fun vs => .ok (v :: vs)

/-- Logical value sequence: the values met walking `next` from `list_begin`. -/
def to_list (l : compact_list) : Res (List element_t) :=
  (indices l).bind (get_all l)

/-- Values met walking `prev` from `list_end`. -/
def to_list_rev (l : compact_list) : Res (List element_t) :=
  (indices_rev l).bind (get_all l)

/-! ## Well-formed lists -/

/-- Doubly linked segment: following `next` from `p` meets exactly `xs` and
then `q`, and `prev` of every node met is the node before it. -/
def seg (ns : List node) : Nat → List Nat → Nat → Prop
  | p, [], q => nx ns p = some q ∧ pv ns q = some p
  | p, x :: xs, q => nx ns p = some x ∧ pv ns x = some p ∧ seg ns x xs q

instance seg_dec (ns : List node) :
    (p : Nat) → (xs : List Nat) → (q : Nat) → Decidable (seg ns p xs q)
  | p, [], q => inferInstanceAs (Decidable (nx ns p = some q ∧ pv ns q = some p))
  | p, x :: xs, q =>
    have := seg_dec ns x xs q
    inferInstanceAs (Decidable (nx ns p = some x ∧ pv ns x = some p ∧ seg ns x xs q))

/-- Free chain: `h` is the first index of `xs`, `next` of every index of `xs`
is the following one, and the chain ends in `0`. -/
def fchain (ns : List node) : Nat → List Nat → Prop
  | h, [] => h = 0
  | h, x :: xs => h = x ∧ nx ns x = some (hd xs 0) ∧ fchain ns (hd xs 0) xs

instance fchain_dec (ns : List node) :
    (h : Nat) → (xs : List Nat) → Decidable (fchain ns h xs)
  | h, [] => inferInstanceAs (Decidable (h = 0))
  | h, x :: xs =>
    have := fchain_dec ns (hd xs 0) xs
    inferInstanceAs
      (Decidable (h = x ∧ nx ns x = some (hd xs 0) ∧ fchain ns (hd xs 0) xs))

/-- Structure of a list whose active chain is `act` (in list order) and whose
free chain is `fr`: the array has `capacity` nodes, `act` has `size` entries,
the sentinel, the active and the free indices together are exactly the
indices below `capacity`, each once; walking `next` from the sentinel meets
`act` and returns to `0` with matching `prev` links; the sentinel and the
active nodes are not marked free, the nodes of `fr` are, and `fr` is the chain
starting at `free`. -/
def Shape (l : compact_list) (act fr : List Nat) : Prop :=
  l.nodes.length = l.capacity ∧ act.length = l.size ∧
  (0 :: (act ++ fr)).Perm (List.range l.capacity) ∧
  seg l.nodes 0 act 0 ∧
  (∀ x ∈ 0 :: act, fl l.nodes x = some false) ∧
  (∀ x ∈ fr, fl l.nodes x = some true) ∧
  fchain l.nodes l.free fr

instance (l : compact_list) (act fr : List Nat) : Decidable (Shape l act fr) := by
  unfold Shape; infer_instance

/-- Well-formed list (the invariants of the data model): the structure above
with a free chain that is not empty and `size + 2 <= capacity`. -/
def WF (l : compact_list) (act fr : List Nat) : Prop :=
  Shape l act fr ∧ l.free ≠ 0 ∧ l.size + 2 ≤ l.capacity

instance (l : compact_list) (act fr : List Nat) : Decidable (WF l act fr) := by
  unfold WF; infer_instance

/-- Values stored at the given indices (`POISON` outside the array). -/
def vals (ns : List node) (is : List Nat) : List element_t :=
  is.map fun i => (vl ns i).getD POISON

/-- Indices met when following `next` from `free` until `0`: the free chain. -/
def free_indices (l : compact_list) : Res (List list_iterator) :=
  walk_next l.nodes l.nodes.length l.free

/-! ## Sample lists -/

/-- The list obtained from `list_ctor` by `push_back` of 10, 20 and 30. -/
def sample3 : compact_list :=
  { nodes := [⟨POISON, 1, 3, false⟩, ⟨10, 2, 0, false⟩, ⟨20, 3, 1, false⟩, ⟨30, 0, 2, false⟩] ++
      (List.range' 4 12).map (fun i => node.mk POISON ((i + 1) % 16) 0 true)
    free := 4
    size := 3
    capacity := 16
    is_linear := false }

/-- The list obtained from `list_ctor` by fourteen `push_back` of 7: one free
slot is left. -/
def sample14 : compact_list :=
  { nodes := node.mk POISON 1 14 false ::
      ((List.range' 1 14).map (fun i => node.mk 7 ((i + 1) % 15) (i - 1) false) ++
        [node.mk POISON 0 0 true])
    free := 15
    size := 14
    capacity := 16
    is_linear := false }

/-- The list 10, 30, 40 obtained from `sample3` by erasing index 2 and
`push_back` of 40: the elements sit at the indices 1, 3, 2. -/
def sample_mixed : compact_list :=
  { nodes := [⟨POISON, 1, 2, false⟩, ⟨10, 3, 0, false⟩, ⟨40, 0, 3, false⟩, ⟨30, 2, 1, false⟩] ++
      (List.range' 4 12).map (fun i => node.mk POISON ((i + 1) % 16) 0 true)
    free := 4
    size := 3
    capacity := 16
    is_linear := false }

/-! ## Sequences of public operations -/

/-- A call of one of the public operations that change the list. -/
inductive Op where
  | insert_after (i : list_iterator) (v : element_t)
  | insert_before (i : list_iterator) (v : element_t)
  | push_back (v : element_t)
  | push_front (v : element_t)
  | erase_element (i : list_iterator)
  | pop_back
  | pop_front
  | linearize
deriving DecidableEq, Repr

/-- Iterator of an element: a non-zero index inside the array whose node is
not marked free. -/
def is_active (l : compact_list) (i : list_iterator) : Prop :=
  i ≠ 0 ∧ fl l.nodes i = some false

instance (l : compact_list) (i : list_iterator) : Decidable (is_active l i) := by
  unfold is_active; infer_instance

/-- The iterator passed by the call is valid: `0` or the iterator of an
element. -/
def Op.valid (l : compact_list) : Op → Prop
  | .insert_after i _ => i = 0 ∨ is_active l i
  | .insert_before i _ => i = 0 ∨ is_active l i
  | .erase_element i => i = 0 ∨ is_active l i
  | _ => True

/-- The list after the call. -/
def Op.run (l : compact_list) : Op → Res compact_list
  | .insert_after i v => (CompactList.insert_after l i v).bind fun r => .ok r.1
  | .insert_before i v => (CompactList.insert_before l i v).bind fun r => .ok r.1
  | .push_back v => (CompactList.push_back l v).bind fun r => .ok r.1
  | .push_front v => (CompactList.push_front l v).bind fun r => .ok r.1
  | .erase_element i => CompactList.erase_element l i
  | .pop_back => CompactList.pop_back l
  | .pop_front => CompactList.pop_front l
  | .linearize => CompactList.linearize l

/-- The list after a sequence of calls. -/
def exec : compact_list → List Op → Res compact_list
  | l, [] => .ok l
  | l, op :: ops => (op.run l).bind fun l1 => exec l1 ops

/-- Lists reachable from `list_ctor ()` by calls of the operations allowed by
`allowed`, each with a valid iterator. -/
inductive Reachable (allowed : Op → Prop) : compact_list → Prop where
  | ctor : Reachable allowed list_ctor
  | step {l l1 : compact_list} (op : Op) : Reachable allowed l → allowed op → op.valid l →
      op.run l = .ok l1 → Reachable allowed l1

/-- Every public operation. -/
def any_op : Op → Prop := fun _ => True

/-- The insert and erase operations (everything but `linearize`). -/
def insert_or_erase : Op → Prop := fun op => op ≠ .linearize

/-! ## Invariants and further sample lists -/

/-- Invariant of the lists reachable without `linearize`: well-formed, and the
`is_linear` flag is set only while the list is empty. -/
def InvIE (l : compact_list) : Prop :=
  ∃ act fr, WF l act fr ∧ (l.is_linear = true → act = [])

/-- A list of capacity 64 whose `n` elements sit at the indices `1 .. n` in
list order, element `i` holding the value `i`, with the free chain
`n + 1, n + 2, .., 63`. -/
def arena (n : Nat) (lin : Bool) : compact_list :=
  { nodes := node.mk POISON (1 % (n + 1)) n false ::
      ((List.range' 1 n).map (fun i => node.mk i ((i + 1) % (n + 1)) (i - 1) false) ++
        (List.range' (n + 1) (63 - n)).map (fun i => node.mk POISON ((i + 1) % 64) 0 true))
    free := n + 1
    size := n
    capacity := 64
    is_linear := lin }

/-- A linear list of capacity 64 whose 15 elements sit at the indices
`46 .. 60`, element `i` holding the value `i`; the free chain is
`45, 44, .., 1, 61, 62, 63`. -/
def sample_tail : compact_list :=
  { nodes := node.mk POISON 46 60 false ::
      ((List.range' 1 45).map (fun i => node.mk POISON (if i = 1 then 61 else i - 1) 0 true) ++
        (List.range' 46 15).map
          (fun i => node.mk i ((i + 1) % 61) (if i = 46 then 0 else i - 1) false) ++
        (List.range' 61 3).map (fun i => node.mk POISON ((i + 1) % 64) 0 true))
    free := 45
    size := 15
    capacity := 64
    is_linear := true }

/-! ## Invariants of linearization -/

/-- State of the placing pass of `linearize` on a list of `n` elements:
`pos r` is the index of the node stamped with rank `r`; it is not marked free,
its `prev` field is `r`, it holds the `r`-th value `val r`; every other
non-sentinel node is marked free. -/
def Placing (n cap : Nat) (val : Nat → element_t) (ms : List node) (pos : Nat → Nat) : Prop :=
  ms.length = cap ∧
  (∀ r, 1 ≤ r → r ≤ n → 1 ≤ pos r ∧ pos r < cap ∧ fl ms (pos r) = some false ∧
    pv ms (pos r) = some r ∧ vl ms (pos r) = some (val r)) ∧
  (∀ j, 1 ≤ j → j < cap → (∀ r, 1 ≤ r → r ≤ n → pos r ≠ j) → fl ms j = some true)

/-- Number of ranks whose node is not yet at the index equal to the rank. -/
def misplaced (n : Nat) (pos : Nat → Nat) : Nat :=
  (List.range' 1 n).countP (fun r => decide (pos r ≠ r))

/-- The placing loop has nothing to do at index `j`: the node is marked free
or its stamped rank is `j`. -/
def Settled (ms : List node) (j : Nat) : Prop :=
  fl ms j = some true ∨ pv ms j = some j

/-! ## The integrity checker (`list_check`) -/

/-- Function `list_begin` called through a pointer that may be null:
`LOG_ASSERT(list != NULL, return 0)` returns `0` for the null pointer. -/
def list_begin_ptr : Option compact_list → Res list_iterator
  | none => .ok 0
  | some l => list_begin l

/-- First loop of `list_check`, `n` rounds from `last`, `cur`: the result is
`none` when one of the two assertions of the body fails (the function then
returns 0), else the final `cur`. -/
def check_active (ns : List node) : Nat → list_iterator → list_iterator →
    Res (Option list_iterator)
  | 0, _, cur => .ok (some cur)
  | n + 1, last, cur =>
    (rd ns cur).bind fun nd =>
      if ¬ (nd.prev = last) then .ok none
      else if ¬ (nd.is_free = false) then .ok none
      else check_active ns n cur nd.next

/-- Second loop of `list_check`, `n` rounds from `cur`: the result is `none`
when one of the two assertions of the body fails, else the final `cur`. -/
def check_free (ns : List node) : Nat → list_iterator → Res (Option list_iterator)
  | 0, cur => .ok (some cur)
  | n + 1, cur =>
    (rd ns cur).bind fun nd =>
      if ¬ (nd.prev = 0) then .ok none
      else if ¬ (nd.is_free = true) then .ok none
      else check_free ns n nd.next

/-- Function `list_check`; the first walk starts at `list_begin(0)`, the call
with the null pointer that the source makes. -/
def list_check (l : compact_list) : Res Nat :=
  if ¬ (l.free ≠ 0) then .ok 0
  else if ¬ (l.size + 2 ≤ l.capacity) then .ok 0
  else if ¬ (l.capacity ≥ default_cap_) then .ok 0
  else
    (list_begin_ptr none).bind fun cur0 =>
    (check_active l.nodes l.size 0 cur0).bind fun r =>
      match r with
      | none => .ok 0
      | some cur =>
        if ¬ (cur = 0) then .ok 0
        else
          (check_free l.nodes (l.capacity - (l.size + 1)) l.free).bind fun r2 =>
            match r2 with
            | none => .ok 0
            | some cur2 => if ¬ (cur2 = 0) then .ok 0 else .ok 1

/-- The checker as the interface description has it (walk the active chain
from `begin()`): the function above with the first walk starting at
`list_begin(list)`.  It is not in the source and serves for comparison only. -/
def list_check_from_begin (l : compact_list) : Res Nat :=
  if ¬ (l.free ≠ 0) then .ok 0
  else if ¬ (l.size + 2 ≤ l.capacity) then .ok 0
  else if ¬ (l.capacity ≥ default_cap_) then .ok 0
  else
    (list_begin_ptr (some l)).bind fun cur0 =>
    (check_active l.nodes l.size 0 cur0).bind fun r =>
      match r with
      | none => .ok 0
      | some cur =>
        if ¬ (cur = 0) then .ok 0
        else
          (check_free l.nodes (l.capacity - (l.size + 1)) l.free).bind fun r2 =>
            match r2 with
            | none => .ok 0
            | some cur2 => if ¬ (cur2 = 0) then .ok 0 else .ok 1

/-! ## Consecutive `push_back` calls -/

/-- Calls `push_back` with each of the values `vs` in turn; returns the final
list and the iterators returned by the calls, in call order. -/
def push_all : compact_list → List element_t → Res (compact_list × List list_iterator)
  | l, [] => .ok (l, [])
  | l, v :: vs =>
    (push_back l v).bind fun r =>
      (push_all r.1 vs).bind fun r2 => .ok (r2.1, r.2 :: r2.2)

/-! ## The `is_linear` flag -/

/-- The indices `act` are consecutive: `b, b + 1, b + 2, ..` from the first
one on. -/
def Consec (act : List Nat) : Prop :=
  act = List.range' (hd act 0) act.length

instance (act : List Nat) : Decidable (Consec act) := by
  unfold Consec; infer_instance

/-- Invariant of the lists reachable with `linearize`: well-formed, and while
the `is_linear` flag is set the elements sit at consecutive indices in list
order. -/
def InvLin (l : compact_list) : Prop :=
  ∃ act fr, WF l act fr ∧ (l.is_linear = true → Consec act)

/-- Lists reached from `list_ctor ()` by calls of the public operations, each
with a valid iterator and each returning, where `linearize` is not called on
an empty list whose `is_linear` flag is false. -/
inductive ReachableNE : compact_list → Prop where
  | ctor : ReachableNE list_ctor
  | step {l l1 : compact_list} (op : Op) : ReachableNE l → op.valid l →
      (op = .linearize → l.size ≠ 0 ∨ l.is_linear = true) →
      op.run l = .ok l1 → ReachableNE l1

/-! ## The placing pass of `linearize` with a log of its swaps -/

/-- One swap of the placing pass: at the loop index `idx` the node `moved`,
which was `nodes[idx]`, was exchanged with `nodes[target]`, where `target` is
`nodes[idx].prev`. -/
structure swap_rec where
  idx : Nat
  target : Nat
  moved : node
deriving DecidableEq, Repr

/-- The `while` loop of `linearize` for one index `i` (function `place`),
returning also the swaps it made, in order. -/
def place_log (ns : List node) : Nat → Nat → Res (List node × List swap_rec)
  | 0, _ => .diverge
  | fuel + 1, i =>
    (rd ns i).bind fun n =>
      if n.is_free = false ∧ n.prev ≠ i then
        (memswap ns i n.prev).bind fun ns1 =>
          (place_log ns1 fuel i).bind fun r => .ok (r.1, swap_rec.mk i n.prev n :: r.2)
      else .ok (ns, [])

/-- The second loop of `linearize`, `for (i = 1; i < capacity; i++) while ..`,
returning also the swaps it made, in order. -/
def place_pass_log (capacity : Nat) (ns : List node) : Res (List node × List swap_rec) :=
  for_range (fun i s => (place_log s.1 (s.1.length + 1) i).bind fun r => .ok (r.1, s.2 ++ r.2))
    1 (capacity - 1) (ns, [])

/-- Every logged swap moved an element node to the index equal to its stamped
rank, an index in `1 .. n` other than the loop index, and that node is at
this index in `ms`. -/
def Placed (n : Nat) (ms : List node) (log : List swap_rec) : Prop :=
  ∀ e ∈ log, e.moved.is_free = false ∧ e.moved.prev = e.target ∧ e.target ≠ e.idx ∧
    1 ≤ e.target ∧ e.target ≤ n ∧ ms[e.target]? = some e.moved

/-- No swap touches an index that an earlier swap filled: neither its loop
index nor its target is the target of an earlier swap. -/
def Undisturbed (log : List swap_rec) : Prop :=
  log.Pairwise (fun e e2 => e2.target ≠ e.target ∧ e2.idx ≠ e.target)

/-! ## Positional access in `size_t` arithmetic -/

/-- Function `element_by_number` with the sum `list_begin(list) + num` computed
in `size_t`, as the code computes it: modulo `2^64 = SIZE_MAX + 1`. -/
def element_by_number_sz (l : compact_list) (num : Nat) : Res list_iterator :=
  if l.is_linear = false then .ok 0
  else if ¬ num < l.size then .ok 0
  else (list_begin l).bind fun b => .ok ((b + num) % (SIZE_MAX + 1))

/-! # Theorems -/

/-! ## Basic facts about memory access -/

@[simp] theorem Res.bind_ok {α β : Type} (a : α) (f : α → Res β) : (Res.ok a).bind f = f a := rfl
@[simp] theorem Res.bind_oob {α β : Type} (f : α → Res β) : (Res.oob : Res α).bind f = .oob := rfl
@[simp] theorem Res.bind_diverge {α β : Type} (f : α → Res β) :
    (Res.diverge : Res α).bind f = .diverge := rfl

theorem nx_lt {N : List node} {i v : Nat} (h : nx N i = some v) : i < N.length := by
  unfold nx at h
  by_contra hc
  rw [List.getElem?_eq_none (by omega)] at h
  simp at h

theorem pv_lt {N : List node} {i v : Nat} (h : pv N i = some v) : i < N.length := by
  unfold pv at h
  by_contra hc
  rw [List.getElem?_eq_none (by omega)] at h
  simp at h

theorem fl_lt {N : List node} {i : Nat} {b : Bool} (h : fl N i = some b) : i < N.length := by
  unfold fl at h
  by_contra hc
  rw [List.getElem?_eq_none (by omega)] at h
  simp at h

theorem rd_ok {N : List node} {i : Nat} (h : i < N.length) :
    ∃ n, N[i]? = some n ∧ rd N i = .ok n ∧ nx N i = some n.next ∧ pv N i = some n.prev ∧
      fl N i = some n.is_free ∧ vl N i = some n.value := by
  refine ⟨N[i], List.getElem?_eq_getElem h, ?_, ?_, ?_, ?_, ?_⟩ <;>
    simp [rd, nx, pv, fl, vl, List.getElem?_eq_getElem h]

/-- Effect of `nodes[i] = n` on the field views. -/
theorem wr_ok {N : List node} {i : Nat} (n : node) (h : i < N.length) :
    ∃ ns1, wr N i n = .ok ns1 ∧ ns1.length = N.length ∧
      (∀ j, nx ns1 j = if j = i then some n.next else nx N j) ∧
      (∀ j, pv ns1 j = if j = i then some n.prev else pv N j) ∧
      (∀ j, fl ns1 j = if j = i then some n.is_free else fl N j) ∧
      (∀ j, vl ns1 j = if j = i then some n.value else vl N j) := by
  refine ⟨N.set i n, by simp [wr, h], by simp, ?_, ?_, ?_, ?_⟩ <;> intro j <;>
    by_cases hj : j = i <;>
    first
      | (subst hj; simp [nx, pv, fl, vl, List.getElem?_set, h])
      | (have hj2 : ¬ i = j := fun e => hj e.symm
         simp [nx, pv, fl, vl, List.getElem?_set, hj, hj2])

/-- Effect of `nodes[i].next = v` on the field views. -/
theorem set_next_ok {N : List node} {i : Nat} (v : Nat) (h : i < N.length) :
    ∃ ns1, set_next N i v = .ok ns1 ∧ ns1.length = N.length ∧
      (∀ j, nx ns1 j = if j = i then some v else nx N j) ∧
      (∀ j, pv ns1 j = pv N j) ∧ (∀ j, fl ns1 j = fl N j) ∧ (∀ j, vl ns1 j = vl N j) := by
  have hg := List.getElem?_eq_getElem h
  refine ⟨N.set i { N[i] with next := v }, by simp [set_next, hg], by simp, ?_, ?_, ?_, ?_⟩ <;>
    intro j <;> by_cases hj : j = i <;>
    first
      | (subst hj; simp [nx, pv, fl, vl, List.getElem?_set, h, hg])
      | (have hj2 : ¬ i = j := fun e => hj e.symm
         simp [nx, pv, fl, vl, List.getElem?_set, hj, hj2])

/-- Effect of `nodes[i].prev = v` on the field views. -/
theorem set_prev_ok {N : List node} {i : Nat} (v : Nat) (h : i < N.length) :
    ∃ ns1, set_prev N i v = .ok ns1 ∧ ns1.length = N.length ∧
      (∀ j, nx ns1 j = nx N j) ∧
      (∀ j, pv ns1 j = if j = i then some v else pv N j) ∧
      (∀ j, fl ns1 j = fl N j) ∧ (∀ j, vl ns1 j = vl N j) := by
  have hg := List.getElem?_eq_getElem h
  refine ⟨N.set i { N[i] with prev := v }, by simp [set_prev, hg], by simp, ?_, ?_, ?_, ?_⟩ <;>
    intro j <;> by_cases hj : j = i <;>
    first
      | (subst hj; simp [nx, pv, fl, vl, List.getElem?_set, h, hg])
      | (have hj2 : ¬ i = j := fun e => hj e.symm
         simp [nx, pv, fl, vl, List.getElem?_set, hj, hj2])

/-- Two node arrays with the same length and the same field views are equal. -/
theorem nodes_ext {N M : List node}
    (hn : ∀ j, nx N j = nx M j) (hp : ∀ j, pv N j = pv M j)
    (hf : ∀ j, fl N j = fl M j) (hv : ∀ j, vl N j = vl M j) : N = M := by
  apply List.ext_getElem? 
  intro j
  have h1 := hn j; have h2 := hp j; have h3 := hf j; have h4 := hv j
  unfold nx at h1; unfold pv at h2; unfold fl at h3; unfold vl at h4
  cases ha : N[j]? with
  | none =>
    cases hb : M[j]? with
    | none => rfl
    | some b => rw [ha, hb] at h1; simp at h1
  | some a =>
    cases hb : M[j]? with
    | none => rw [ha, hb] at h1; simp at h1
    | some b =>
      rw [ha, hb] at h1 h2 h3 h4
      simp at h1 h2 h3 h4
      cases a; cases b; simp_all

/-! ## Segments and free chains -/

theorem seg_frame {N M : List node} : ∀ {p : Nat} {X : List Nat} {q : Nat},
    seg N p X q → (∀ x ∈ p :: X, nx M x = nx N x) →
    (∀ x ∈ X ++ [q], pv M x = pv N x) → seg M p X q
  | p, [], q, h, h1, h2 => by
    simp only [seg] at h ⊢
    rw [h1 p (by simp), h2 q (by simp)]
    exact h
  | p, x :: X, q, h, h1, h2 => by
    simp only [seg] at h ⊢
    refine ⟨by rw [h1 p (by simp)]; exact h.1, by rw [h2 x (by simp)]; exact h.2.1, ?_⟩
    exact seg_frame h.2.2 (fun y hy => h1 y (List.mem_cons_of_mem _ hy))
      (fun y hy => h2 y (by simp at hy ⊢; tauto))

theorem fchain_frame {N M : List node} : ∀ {h : Nat} {X : List Nat},
    fchain N h X → (∀ x ∈ X, nx M x = nx N x) → fchain M h X
  | h, [], hc, _ => hc
  | h, x :: X, hc, h1 => by
    simp only [fchain] at hc ⊢
    refine ⟨hc.1, by rw [h1 x (by simp)]; exact hc.2.1, ?_⟩
    exact fchain_frame hc.2.2 (fun y hy => h1 y (List.mem_cons_of_mem _ hy))

theorem fchain_head {N : List node} {h : Nat} {X : List Nat} (hc : fchain N h X) :
    h = hd X 0 := by
  cases X with
  | nil => exact hc
  | cons x X => exact hc.1

theorem seg_append {N : List node} : ∀ {p : Nat} {X : List Nat} {y : Nat} {Y : List Nat}
    {q : Nat}, seg N p (X ++ y :: Y) q ↔ seg N p X y ∧ seg N y Y q
  | p, [], y, Y, q => by simp [seg, and_assoc]
  | p, x :: X, y, Y, q => by
    have ih := seg_append (N := N) (p := x) (X := X) (y := y) (Y := Y) (q := q)
    show (nx N p = some x ∧ pv N x = some p ∧ seg N x (X ++ y :: Y) q) ↔ _
    rw [ih]
    simp only [seg, and_assoc]

/-- The `next` field of an element of a segment is the following element. -/
theorem seg_next {N : List node} : ∀ {p : Nat} {X : List Nat} {q : Nat} {L : List Nat}
    {C : Nat} {R : List Nat}, seg N p X q → p :: X = L ++ C :: R →
    nx N C = some (hd R q)
  | p, [], q, L, C, R, h, hd => by
    cases L with
    | nil =>
      simp at hd
      obtain ⟨rfl, rfl⟩ := hd
      exact h.1
    | cons a L => simp at hd
  | p, x :: X, q, L, C, R, h, hd => by
    cases L with
    | nil =>
      simp at hd
      obtain ⟨rfl, rfl⟩ := hd
      exact h.1
    | cons a L =>
      simp at hd
      exact seg_next h.2.2 hd.2

/-- The `prev` field of an element of a segment is the preceding element. -/
theorem seg_prev {N : List node} : ∀ {p : Nat} {X : List Nat} {q : Nat} {A : List Nat}
    {i : Nat} {B : List Nat}, seg N p X q → X ++ [q] = A ++ i :: B →
    pv N i = some (lst A p)
  | p, [], q, A, i, B, h, hd => by
    cases A with
    | nil =>
      simp at hd
      obtain ⟨rfl, rfl⟩ := hd
      exact h.2
    | cons a A => simp at hd
  | p, x :: X, q, A, i, B, h, hd => by
    cases A with
    | nil =>
      simp at hd
      obtain ⟨rfl, rfl⟩ := hd
      exact h.2.1
    | cons a A =>
      simp at hd
      obtain ⟨rfl, hd⟩ := hd
      show pv N i = some (lst A x)
      exact seg_prev h.2.2 hd

/-- Splicing a new node `a` after `C` into a segment. -/
theorem seg_insert {N M : List node} {a C : Nat} : ∀ {L : List Nat} {p : Nat}
    {X : List Nat} {q : Nat} {R : List Nat},
    seg N p X q → p :: X = L ++ C :: R → (p :: X).Nodup → q ∉ X → a ∉ p :: X → a ≠ q →
    (∀ j, nx M j = if j = C then some a else if j = a then some (hd R q) else nx N j) →
    (∀ j, pv M j = if j = hd R q then some a else if j = a then some C else pv N j) →
    seg M p (L ++ C :: a :: R).tail q
  | [], p, X, q, R, h, hd, hnd, hq, ha, haq, hn, hp => by
    simp at hd
    obtain ⟨rfl, rfl⟩ := hd
    simp only [List.nil_append, List.tail_cons, seg]
    have hap : a ≠ p := fun e => ha (by simp [e])
    have hnq : hd X q ∈ X ++ [q] := by cases X <;> simp [hd]
    have hax : a ≠ hd X q := by
      intro e
      rw [← e] at hnq
      simp at hnq
      rcases hnq with h1 | h1
      · exact ha (List.mem_cons_of_mem _ h1)
      · exact haq h1
    refine ⟨by simp [hn], by simp [hp, hax], ?_⟩
    cases X with
    | nil =>
      simp only [seg]
      simp [hn, hp, hap, hd]
    | cons r R2 =>
      simp only [seg] at h ⊢
      simp at hnd hq ha
      have hra : r ≠ a := fun e => ha.2.1 e.symm
      refine ⟨by simp [hn, hap, hd], by simp [hp, hd], ?_⟩
      refine seg_frame h.2.2 ?_ ?_
      · intro x hx
        have hxp : x ≠ p := by
          rintro rfl
          simp at hx
          rcases hx with rfl | hx
          · exact hnd.1.1 rfl
          · exact hnd.1.2 hx
        have hxa : x ≠ a := by
          rintro rfl
          simp at hx
          rcases hx with rfl | hx
          · exact hra rfl
          · exact ha.2.2 hx
        simp [hn, hxp, hxa]
      · intro x hx
        have hxr : x ≠ r := by
          rintro rfl
          simp at hx
          rcases hx with hx | rfl
          · exact hnd.2.1 hx
          · exact hq.1 rfl
        have hxa : x ≠ a := by
          rintro rfl
          simp at hx
          rcases hx with hx | rfl
          · exact ha.2.2 hx
          · exact haq rfl
        simp [hp, hxr, hxa, hd]
  | y :: L, p, X, q, R, h, hd, hnd, hq, ha, haq, hn, hp => by
    simp at hd
    obtain ⟨rfl, rfl⟩ := hd
    have hnd2 := hnd
    rw [List.nodup_cons] at hnd
    have hcur : C ∈ L ++ C :: R := by simp
    have hpc : p ≠ C := fun e => hnd.1 (e ▸ hcur)
    have hpa : p ≠ a := fun e => ha (by simp [e])
    have hnq : hd R q ∈ R ++ [q] := by cases R <;> simp [hd]
    cases L with
    | nil =>
      have ih := seg_insert (L := []) (p := C) (X := R) (q := q) (R := R) (N := N) (M := M)
        (a := a) (C := C) h.2.2 rfl hnd.2 (fun e => hq (List.mem_cons_of_mem _ e))
        (by simp at ha ⊢; tauto) haq hn hp
      simp only [List.nil_append, List.tail_cons, seg] at ih h ⊢
      simp at hq ha hnd
      have hcr : C ≠ hd R q := by
        intro e
        rw [e] at hnd hq
        simp at hnq
        rcases hnq with h1 | h1
        · exact hnd.2.1 h1
        · exact hq.1 h1.symm
      refine ⟨by rw [hn]; simp only [hpc, hpa, if_false]; exact h.1, ?_, ih⟩
      have hca : C ≠ a := fun e => ha.2.1 e.symm
      rw [hp]; simp only [hcr, hca, if_false]; exact h.2.1
    | cons z L =>
      have ih := seg_insert (L := z :: L) (p := z) (X := L ++ C :: R) (q := q) (R := R)
        (N := N) (M := M) (a := a) (C := C) h.2.2 rfl hnd.2
        (by simp at hq ⊢; tauto) (by simp at ha ⊢; tauto) haq hn hp
      simp only [List.cons_append, List.tail_cons, seg] at ih h ⊢
      simp at hq ha hnd
      have hzr : z ≠ hd R q := by
        intro e
        rw [e] at hnd hq
        simp at hnq
        rcases hnq with h1 | h1
        · exact hnd.2.1.2.2 h1
        · exact hq.1 h1.symm
      have hza : z ≠ a := fun e => ha.2.1 e.symm
      refine ⟨by simp [hn, hpc, hpa]; exact h.1, ?_, ih⟩
      rw [hp]; simp only [hzr, hza, if_false]; exact h.2.1

/-- Unlinking the node `i` from a segment. -/
theorem seg_erase {N M : List node} {i : Nat} : ∀ {A : List Nat} {p : Nat}
    {X : List Nat} {q : Nat} {B : List Nat},
    seg N p X q → X = A ++ i :: B → (p :: X).Nodup → q ∉ X →
    (∀ j, j ≠ i → nx M j = if j = lst A p then some (hd B q) else nx N j) →
    (∀ j, j ≠ i → pv M j = if j = hd B q then some (lst A p) else pv N j) →
    seg M p (A ++ B) q
  | [], p, X, q, B, h, hd1, hnd, hq, hn, hp => by
    subst hd1
    simp only [List.nil_append, lst] at hn hp ⊢
    simp at hnd hq
    have hpi : p ≠ i := hnd.1.1
    have hqi : q ≠ i := hq.1
    cases B with
    | nil =>
      simp only [seg, hd] at hn hp ⊢
      exact ⟨by rw [hn p hpi]; simp, by rw [hp q hqi]; simp⟩
    | cons b B2 =>
      simp only [seg, hd] at h hn hp ⊢
      simp at hnd hq
      have hbi : b ≠ i := fun e => hnd.2.1.1 e.symm
      refine ⟨by rw [hn p hpi]; simp, by rw [hp b hbi]; simp, ?_⟩
      refine seg_frame h.2.2.2.2 ?_ ?_
      · intro x hx
        have hxi : x ≠ i := by
          rintro rfl
          simp at hx
          rcases hx with rfl | hx
          · exact hbi rfl
          · exact hnd.2.1.2 hx
        have hxp : x ≠ p := by
          rintro rfl
          simp at hx
          rcases hx with rfl | hx
          · exact hnd.1.2.1 rfl
          · exact hnd.1.2.2 hx
        rw [hn x hxi]; simp [hxp]
      · intro x hx
        have hxi : x ≠ i := by
          rintro rfl
          simp at hx
          rcases hx with hx | rfl
          · exact hnd.2.1.2 hx
          · exact hq.1 rfl
        have hxb : x ≠ b := by
          rintro rfl
          simp at hx
          rcases hx with hx | rfl
          · exact hnd.2.2.1 hx
          · exact hq.2.1 rfl
        rw [hp x hxi]; simp [hxb]
  | y :: A, p, X, q, B, h, hd1, hnd, hq, hn, hp => by
    subst hd1
    have hnd2 := hnd
    rw [List.nodup_cons] at hnd
    simp only [List.cons_append, seg, lst] at h hn hp ⊢
    have hnode : i ∈ A ++ i :: B := by simp
    have hlst : lst A y ∈ y :: (A ++ i :: B) := by
      have : ∀ (A : List Nat) (y : Nat) (T : List Nat), lst A y ∈ y :: (A ++ T) := by
        intro A
        induction A with
        | nil => intro y T; simp [lst]
        | cons z A ih => intro y T; simp only [lst, List.cons_append]; exact List.mem_cons_of_mem _ (ih z T)
      exact this A y _
    have hhd : hd B q ∈ B ++ [q] := by cases B <;> simp [hd]
    have hpi : p ≠ i := fun e => hnd.1 (by rw [e]; simp)
    have hpl : p ≠ lst A y := fun e => hnd.1 (e ▸ hlst)
    have hyi : y ≠ i := by
      intro e
      have := hnd.2
      rw [e] at this
      simp at this
    have hyh : y ≠ hd B q := by
      intro e
      rw [← e] at hhd
      have h3 := hnd.2
      simp at hhd h3 hq
      rcases hhd with h1 | h1
      · exact h3.1.2.2 h1
      · exact hq.1 h1.symm
    have ih := seg_erase (A := A) (p := y) (X := A ++ i :: B) (q := q) (B := B) (N := N)
      (M := M) (i := i) h.2.2 rfl hnd.2 (fun e => hq (List.mem_cons_of_mem _ e)) hn hp
    refine ⟨by rw [hn p hpi]; simp only [hpl, if_false]; exact h.1,
            by rw [hp y hyi]; simp only [hyh, if_false]; exact h.2.1, ih⟩

/-! ## Effect of the operations on the field views -/

/-- Result of the body of `insert_after`, described through the field views. -/
theorem insert_after_core_ok {l : compact_list} {C nxt f1 : Nat} (v : element_t)
    (hc : nx l.nodes C = some nxt) (hf : nx l.nodes l.free = some f1)
    (hn : nxt < l.nodes.length) :
    ∃ M, insert_after_core l C v =
        .ok ({ l with nodes := M, free := f1, size := l.size + 1,
                      is_linear := if ¬ (C + 1 = l.free ∧ l.free + 1 = nxt) then false
                                   else l.is_linear }, l.free) ∧
      M.length = l.nodes.length ∧
      (∀ j, nx M j = if j = C then some l.free else if j = l.free then some nxt
                      else nx l.nodes j) ∧
      (∀ j, pv M j = if j = nxt then some l.free else if j = l.free then some C
                      else pv l.nodes j) ∧
      (∀ j, fl M j = if j = l.free then some false else fl l.nodes j) ∧
      (∀ j, vl M j = if j = l.free then some v else vl l.nodes j) := by
  obtain ⟨nc, -, hrc, hxc, -⟩ := rd_ok (nx_lt hc)
  obtain ⟨nf, -, hrf, hxf, -⟩ := rd_ok (nx_lt hf)
  rw [hxc] at hc; rw [hxf] at hf
  simp only [Option.some.injEq] at hc hf
  obtain ⟨m1, e1, l1, n1, p1, f1', v1⟩ := wr_ok (N := l.nodes) (i := l.free)
    ⟨v, nxt, C, false⟩ (nx_lt hxf)
  obtain ⟨m2, e2, l2, n2, p2, f2, v2⟩ := set_next_ok (N := m1) (i := C) l.free
    (by rw [l1]; exact nx_lt hxc)
  obtain ⟨m3, e3, l3, n3, p3, f3, v3⟩ := set_prev_ok (N := m2) (i := nxt) l.free
    (by rw [l2, l1]; exact hn)
  refine ⟨m3, ?_, by rw [l3, l2, l1], ?_, ?_, ?_, ?_⟩
  · simp only [insert_after_core, next_element, hrc, hrf, Res.bind_ok, hc, hf, e1, e2, e3]
  · intro j; rw [n3, n2, n1]
  · intro j; rw [p3, p2, p1]
  · intro j; rw [f3, f2, f1']
  · intro j; rw [v3, v2, v1]

/-- Result of the body of `erase_element`, described through the field views. -/
theorem erase_core_ok {l : compact_list} {i nxt prv : Nat}
    (hn : nx l.nodes i = some nxt) (hp : pv l.nodes i = some prv)
    (hnl : nxt < l.nodes.length) (hpl : prv < l.nodes.length) :
    ∃ M, erase_core l i =
        .ok { l with nodes := M, free := i,
                     size := if l.size = 0 then SIZE_MAX else l.size - 1,
                     is_linear := if ¬ (nxt = 0 ∨ prv = 0) then false else l.is_linear } ∧
      M.length = l.nodes.length ∧
      (∀ j, nx M j = if j = i then some l.free else if j = prv then some nxt
                      else nx l.nodes j) ∧
      (∀ j, pv M j = if j = i then some 0 else if j = nxt then some prv else pv l.nodes j) ∧
      (∀ j, fl M j = if j = i then some true else fl l.nodes j) ∧
      (∀ j, vl M j = if j = i then some POISON else vl l.nodes j) := by
  obtain ⟨ni, -, hri, hxi, hpi, -⟩ := rd_ok (nx_lt hn)
  rw [hxi] at hn; rw [hpi] at hp
  simp only [Option.some.injEq] at hn hp
  obtain ⟨m1, e1, l1, n1, p1, f1, v1⟩ := set_next_ok (N := l.nodes) (i := prv) nxt hpl
  obtain ⟨m2, e2, l2, n2, p2, f2, v2⟩ := set_prev_ok (N := m1) (i := nxt) prv
    (by rw [l1]; exact hnl)
  obtain ⟨m3, e3, l3, n3, p3, f3, v3⟩ := wr_ok (N := m2) (i := i)
    ⟨POISON, l.free, 0, true⟩ (by rw [l2, l1]; exact nx_lt hxi)
  refine ⟨m3, ?_, by rw [l3, l2, l1], ?_, ?_, ?_, ?_⟩
  · simp only [erase_core, next_element, prev_element, hri, Res.bind_ok, hn, hp, e1, e2, e3]
  · intro j; rw [n3, n2, n1]
  · intro j; rw [p3, p2, p1]
  · intro j; rw [f3, f2, f1]
  · intro j; rw [v3, v2, v1]

/-! ## Consequences of the structure predicate -/

theorem Shape.nodup {l : compact_list} {act fr : List Nat} (h : Shape l act fr) :
    (0 :: (act ++ fr)).Nodup :=
  (h.2.2.1.nodup_iff).mpr (List.nodup_range _)

theorem Shape.lt {l : compact_list} {act fr : List Nat} (h : Shape l act fr) {x : Nat}
    (hx : x ∈ 0 :: (act ++ fr)) : x < l.nodes.length := by
  have := (h.2.2.1.mem_iff).mp hx
  rw [h.1]; exact List.mem_range.mp this

theorem Shape.cover {l : compact_list} {act fr : List Nat} (h : Shape l act fr) {x : Nat}
    (hx : x < l.capacity) : x ∈ 0 :: (act ++ fr) :=
  (h.2.2.1.mem_iff).mpr (List.mem_range.mpr hx)

theorem Shape.cap_pos {l : compact_list} {act fr : List Nat} (h : Shape l act fr) :
    0 < l.nodes.length := h.lt (List.mem_cons_self _ _)

theorem Shape.count {l : compact_list} {act fr : List Nat} (h : Shape l act fr) :
    l.size + fr.length + 1 = l.capacity := by
  have := h.2.2.1.length_eq
  simp at this
  rw [← h.2.1]; omega

theorem Shape.free_cons {l : compact_list} {act fr : List Nat} (h : Shape l act fr)
    (hfree : l.free ≠ 0) : ∃ fr1, fr = l.free :: fr1 := by
  have hc := h.2.2.2.2.2.2
  cases fr with
  | nil => exact absurd hc hfree
  | cons x X => exact ⟨X, by rw [hc.1]⟩

theorem mem_of_split {c L R : List Nat} {C : Nat} (hd : c = L ++ C :: R) : C ∈ c := by
  rw [hd]; simp

theorem hd_mem (R : List Nat) (q : Nat) : hd R q ∈ R ++ [q] := by
  cases R <;> simp [hd]

theorem lst_mem : ∀ (A : List Nat) (p : Nat), lst A p ∈ p :: A
  | [], p => by simp [lst]
  | x :: A, p => by
    simp only [lst]
    exact List.mem_cons_of_mem _ (lst_mem A x)

/-- Structure of the list after the body of `insert_after` at `C`, where
`0 :: act = L ++ C :: R`: the new index is the old head of the free chain
and the active chain is `L ++ C :: a :: R` without its leading `0`. -/
theorem insert_after_core_shape {l : compact_list} {act fr : List Nat} (h : Shape l act fr)
    (hfree : l.free ≠ 0) {L R : List Nat} {C : Nat} (hd0 : 0 :: act = L ++ C :: R)
    (v : element_t) :
    ∃ l1 fr1, insert_after_core l C v = .ok (l1, l.free) ∧ fr = l.free :: fr1 ∧
      Shape l1 (L ++ C :: l.free :: R).tail fr1 ∧
      l1.capacity = l.capacity ∧ l1.size = l.size + 1 ∧ l1.free = hd fr1 0 ∧
      (l1.is_linear = if ¬ (C + 1 = l.free ∧ l.free + 1 = hd R 0) then false
                      else l.is_linear) ∧
      (∀ j, vl l1.nodes j = if j = l.free then some v else vl l.nodes j) ∧
      nx l1.nodes C = some l.free ∧ pv l1.nodes l.free = some C := by
  obtain ⟨fr1, hfr⟩ := h.free_cons hfree
  have hnd := h.nodup
  obtain ⟨hlen, hsz, hperm, hseg, hact, hfl, hfc⟩ := h
  have hcur : nx l.nodes C = some (hd R 0) := seg_next hseg hd0
  have hamem : l.free ∈ 0 :: (act ++ fr) := by rw [hfr]; simp
  have hnmem : hd R 0 ∈ 0 :: (act ++ fr) := by
    have h1 := hd_mem R 0
    have h2 : ∀ x ∈ R, x ∈ 0 :: act := fun x hx => by rw [hd0]; simp [hx]
    simp at h1
    rcases h1 with h1 | h1
    · have := h2 _ h1
      simp at this ⊢; tauto
    · rw [h1]; simp
  have hlt : ∀ x ∈ 0 :: (act ++ fr), x < l.nodes.length := fun x hx => by
    have := (hperm.mem_iff).mp hx
    rw [hlen]; exact List.mem_range.mp this
  have hfn : nx l.nodes l.free = some (hd fr1 0) := by
    rw [hfr] at hfc; exact hfc.2.1
  obtain ⟨M, hres, hl, hn, hp, hf, hv⟩ := insert_after_core_ok v hcur hfn (hlt _ hnmem)
  have ha_act : l.free ∉ 0 :: act := by
    intro hmem
    rw [hfr] at hnd
    have h3 : (0 :: act ++ l.free :: fr1).Nodup := by simpa using hnd
    rw [List.nodup_append] at h3
    exact h3.2.2 hmem (by simp)
  have hfr1 : ∀ x ∈ fr1, x ≠ l.free ∧ x ∉ 0 :: act := by
    intro x hx
    rw [hfr] at hnd
    have h3 : (0 :: act ++ l.free :: fr1).Nodup := by simpa using hnd
    rw [List.nodup_append] at h3
    refine ⟨?_, fun hm => h3.2.2 hm (by simp [hx])⟩
    rintro rfl
    have := h3.2.1
    simp at this
    exact this.1 hx
  have hnd_act : (0 :: act).Nodup := by
    have h3 : (0 :: act ++ fr).Nodup := by simpa using hnd
    exact (List.nodup_append.mp h3).1
  have hhead : 0 :: (L ++ C :: l.free :: R).tail = L ++ C :: l.free :: R := by
    cases L with
    | nil => simp at hd0; simp [hd0.1]
    | cons y L => simp at hd0; simp [hd0.1]
  refine ⟨_, fr1, hres, hfr, ⟨?_, ?_, ?_, ?_, ?_, ?_, ?_⟩, rfl, rfl, rfl, rfl, hv, ?_, ?_⟩
  · exact hl.trans hlen
  · have : (0 :: (L ++ C :: l.free :: R).tail).length = (0 :: act).length + 1 := by
      rw [hhead, hd0]; simp only [List.length_append, List.length_cons]; omega
    simp only [List.length_cons] at this
    show (L ++ C :: l.free :: R).tail.length = l.size + 1
    omega
  · refine List.Perm.trans ?_ hperm
    rw [← List.cons_append, hhead, ← List.cons_append, hd0, hfr]
    simp only [List.append_assoc, List.cons_append]
    refine List.Perm.append_left _ (List.Perm.cons _ ?_)
    exact (@List.perm_middle _ l.free R fr1).symm
  · exact seg_insert (a := l.free) hseg hd0 hnd_act (fun e => by
      have := hnd_act; simp at this; exact this.1 e) ha_act hfree hn hp
  · intro x hx
    rw [hhead] at hx
    rw [hf]
    by_cases hxa : x = l.free
    · simp [hxa]
    · simp only [hxa, if_false]
      apply hact
      rw [hd0]
      simp at hx ⊢
      tauto
  · intro x hx
    rw [hf]
    simp only [(hfr1 x hx).1, if_false]
    exact hfl x (by rw [hfr]; simp [hx])
  · rw [hfr] at hfc
    refine fchain_frame hfc.2.2 ?_
    intro x hx
    rw [hn]
    have hxc : x ≠ C := by
      rintro rfl
      exact (hfr1 x hx).2 (mem_of_split hd0)
    simp only [hxc, (hfr1 x hx).1, if_false]
  · rw [hn]; simp
  · rw [hp]
    have : l.free ≠ hd R 0 := by
      intro e
      have h1 := hd_mem R 0
      rw [← e] at h1
      simp at h1
      rcases h1 with h1 | h1
      · exact ha_act (by rw [hd0]; simp [h1])
      · exact hfree h1
    simp [this]

/-! ## Growing the arena -/

theorem for_range_wr (g : Nat → node) : ∀ (n s : Nat) (N : List node), s + n ≤ N.length →
    ∃ M, for_range (fun i N => wr N i (g i)) s n N = .ok M ∧ M.length = N.length ∧
      ∀ j, M[j]? = if s ≤ j ∧ j < s + n then some (g j) else N[j]?
  | 0, s, N, _ => ⟨N, rfl, rfl, fun j => by
      have : ¬ (s ≤ j ∧ j < s + 0) := by omega
      rw [if_neg this]⟩
  | n + 1, s, N, h => by
    have hs : s < N.length := by omega
    obtain ⟨M, h1, h2, h3⟩ := for_range_wr g n (s + 1) (N.set s (g s))
      (by rw [List.length_set]; omega)
    refine ⟨M, ?_, by rw [h2, List.length_set], ?_⟩
    · simp only [for_range, wr, hs, if_true, Res.bind_ok]
      exact h1
    · intro j
      rw [h3, List.getElem?_set]
      by_cases hj : s = j
      · subst hj
        have h4 : ¬ (s + 1 ≤ s ∧ s < s + 1 + n) := by omega
        have h5 : s ≤ s ∧ s < s + (n + 1) := by omega
        rw [if_neg h4, if_pos h5, if_pos rfl, if_pos hs]
      · by_cases h6 : s + 1 ≤ j ∧ j < s + 1 + n
        · have h7 : s ≤ j ∧ j < s + (n + 1) := by omega
          rw [if_pos h6, if_pos h7]
        · have h7 : ¬ (s ≤ j ∧ j < s + (n + 1)) := by omega
          rw [if_neg h6, if_neg h7, if_neg hj]

theorem reallocarray_grow {N : List node} {n : Nat} (h : N.length ≤ n) :
    (reallocarray N n).length = n ∧ ∀ j, j < N.length → (reallocarray N n)[j]? = N[j]? := by
  constructor
  · simp [reallocarray]; omega
  · intro j hj
    simp only [reallocarray]
    rw [List.getElem?_take]
    have : j < n := by omega
    simp only [this, if_true]
    exact List.getElem?_append_left hj

theorem seg_last_next {N : List node} : ∀ {p : Nat} {X : List Nat} {q : Nat},
    seg N p X q → nx N (lst X p) = some q
  | _, [], _, h => h.1
  | _, x :: X, q, h => seg_last_next (p := x) (X := X) (q := q) h.2.2

theorem seg_first_prev {N : List node} : ∀ {p : Nat} {X : List Nat} {q : Nat},
    seg N p X q → pv N q = some (lst X p)
  | _, [], _, h => h.2
  | _, x :: X, q, h => seg_first_prev (p := x) (X := X) (q := q) h.2.2

theorem tail_walk_seg {N : List node} : ∀ {X : List Nat} {p : Nat} {F : Nat},
    seg N p X 0 → 0 ∉ X → X.length < F → tail_walk N F p = .ok (lst X p)
  | [], p, F + 1, h, _, _ => by
    obtain ⟨n, -, hr, hx, -⟩ := rd_ok (nx_lt h.1)
    have h1 := h.1
    rw [hx] at h1
    simp only [Option.some.injEq] at h1
    simp only [tail_walk, hr, Res.bind_ok, h1, if_true, lst]
  | x :: X, p, F + 1, h, h0, hf => by
    obtain ⟨n, -, hr, hx, -⟩ := rd_ok (nx_lt h.1)
    have h1 := h.1
    rw [hx] at h1
    simp only [Option.some.injEq] at h1
    have hx0 : x ≠ 0 := fun e => h0 (by simp [e])
    simp only [tail_walk, hr, Res.bind_ok, h1, hx0, if_false, lst]
    exact tail_walk_seg h.2.2 (fun e => h0 (List.mem_cons_of_mem _ e))
      (by simp only [List.length_cons] at hf; omega)

theorem set_next_same {N : List node} {i v : Nat} (h : nx N i = some v) :
    set_next N i v = .ok N := by
  obtain ⟨M, h1, -, hn, hp, hf, hv⟩ := set_next_ok (N := N) v (nx_lt h)
  rw [h1]
  congr 1
  refine nodes_ext ?_ hp hf hv
  intro j
  rw [hn]
  by_cases hj : j = i
  · rw [hj, h]; simp
  · simp [hj]

theorem fchain_range {M : List node} {K : Nat} : ∀ (n s : Nat), s + n = K →
    0 < s → (∀ j, s ≤ j → j < K → nx M j = some ((j + 1) % K)) →
    fchain M (hd (List.range' s n) 0) (List.range' s n)
  | 0, _, _, _, _ => rfl
  | n + 1, s, h, hs, hn => by
    have ih := fchain_range n (s + 1) (by omega) (by omega)
      (fun j h1 h2 => hn j (by omega) h2)
    show s = s ∧ nx M s = some (hd (List.range' (s + 1) n) 0) ∧
      fchain M (hd (List.range' (s + 1) n) 0) (List.range' (s + 1) n)
    refine ⟨rfl, ?_, ih⟩
    rw [hn s (Nat.le_refl _) (by omega)]
    cases n with
    | zero =>
      have : s + 1 = K := by omega
      simp [hd, this]
    | succ n =>
      have : (s + 1) % K = s + 1 := Nat.mod_eq_of_lt (by omega)
      simp [hd, List.range', this]

theorem views_eq_of_get {N M : List node} {j : Nat} (h : M[j]? = N[j]?) :
    nx M j = nx N j ∧ pv M j = pv N j ∧ fl M j = fl N j ∧ vl M j = vl N j := by
  simp [nx, pv, fl, vl, h]

/-- Growing: `resize_list` on a list whose free chain is empty keeps the old
nodes and makes the new indices the free chain, in index order. -/
theorem resize_list_grow {l : compact_list} {act : List Nat} (h : Shape l act [])
    {K : Nat} (hnew : l.capacity < K) :
    ∃ l2, resize_list l K = .ok l2 ∧
      Shape l2 act (List.range' l.capacity (K - l.capacity)) ∧
      l2.capacity = K ∧ l2.free = l.capacity ∧ l2.size = l.size ∧
      l2.is_linear = l.is_linear ∧ (∀ j, j < l.capacity → l2.nodes[j]? = l.nodes[j]?) := by
  have hnd := h.nodup
  have hcap := h.cap_pos
  have hlt : ∀ x ∈ 0 :: act, x < l.nodes.length := fun x hx => h.lt (by simp at hx ⊢; tauto)
  obtain ⟨hlen, hsz, hperm, hseg, hact, hfl, hfc⟩ := h
  have hfree : l.free = 0 := hfc
  obtain ⟨hr1, hr2⟩ := reallocarray_grow (N := l.nodes) (n := K) (by omega)
  obtain ⟨m1, e1, l1, g1⟩ := for_range_wr
    (fun i => ⟨POISON, (i + 1) % K, 0, true⟩) (K - l.capacity) l.capacity
    (reallocarray l.nodes K) (by omega)
  have hold : ∀ j, j < l.capacity → m1[j]? = l.nodes[j]? := by
    intro j hj
    rw [g1]
    have : ¬ (l.capacity ≤ j ∧ j < l.capacity + (K - l.capacity)) := by omega
    rw [if_neg this]
    exact hr2 j (by omega)
  have hnew1 : ∀ j, l.capacity ≤ j → j < K →
      m1[j]? = some ⟨POISON, (j + 1) % K, 0, true⟩ := by
    intro j hj1 hj2
    rw [g1]
    have : l.capacity ≤ j ∧ j < l.capacity + (K - l.capacity) := by omega
    rw [if_pos this]
  have hseg1 : seg m1 0 act 0 := by
    refine seg_frame hseg ?_ ?_
    · intro x hx
      exact (views_eq_of_get (hold x (by rw [← hlen]; exact hlt x hx))).1
    · intro x hx
      have hx2 : x ∈ 0 :: act := by simp at hx ⊢; tauto
      exact (views_eq_of_get (hold x (by rw [← hlen]; exact hlt x hx2))).2.1
  have h0 : (0 : Nat) ∉ act := by
    have : (0 :: act ++ []).Nodup := by simpa using hnd
    simp at this; exact this.1
  have hwalk : tail_walk m1 (m1.length + 1) 0 = .ok (lst act 0) := by
    refine tail_walk_seg hseg1 h0 ?_
    have := hperm.length_eq
    simp at this
    omega
  have hset := set_next_same (seg_last_next hseg1)
  refine ⟨{ l with nodes := m1, capacity := K, free := l.capacity }, ?_,
    ⟨?_, hsz, ?_, hseg1, ?_, ?_, ?_⟩, rfl, rfl, rfl, rfl, hold⟩
  · simp only [resize_list, e1, Res.bind_ok, hfree, hwalk, hset, if_true]
  · show m1.length = K
    rw [l1, hr1]
  · show (0 :: (act ++ List.range' l.capacity (K - l.capacity))).Perm
      (List.range K)
    have e : List.range K
        = List.range l.capacity ++ List.range' l.capacity (K - l.capacity) := by
      have e2 := List.range'_append_1 0 l.capacity (K - l.capacity)
      rw [Nat.zero_add] at e2
      rw [List.range_eq_range', List.range_eq_range', e2]
      congr 1; omega
    rw [e, ← List.cons_append]
    refine List.Perm.append_right _ ?_
    simpa using hperm
  · intro x hx
    rw [(views_eq_of_get (hold x (by rw [← hlen]; exact hlt x hx))).2.2.1]
    exact hact x hx
  · intro x hx
    simp only [List.mem_range'_1] at hx
    simp [fl, hnew1 x hx.1 (by omega)]
  · show fchain m1 l.capacity (List.range' l.capacity (K - l.capacity))
    have := fchain_range (M := m1) (K := K) (K - l.capacity) l.capacity
      (by omega) (by omega) (fun j h1 h2 => by simp [nx, hnew1 j h1 h2])
    have e : hd (List.range' l.capacity (K - l.capacity)) 0 = l.capacity := by
      obtain ⟨k, hk⟩ : ∃ k, K - l.capacity = k + 1 := ⟨K - l.capacity - 1, by omega⟩
      rw [hk]; rfl
    rwa [e] at this

/-! ## Walking a well-formed list -/

theorem walk_next_seg {N : List node} : ∀ {X : List Nat} {p : Nat} {F : Nat},
    seg N p X 0 → 0 ∉ X → X.length ≤ F → walk_next N F (hd X 0) = .ok X
  | [], _, F, _, _, _ => by cases F <;> rfl
  | x :: X, p, 0, _, _, hf => by simp at hf
  | x :: X, p, F + 1, h, h0, hf => by
    have hx0 : x ≠ 0 := fun e => h0 (by simp [e])
    obtain ⟨k, rfl⟩ : ∃ k, x = k + 1 := ⟨x - 1, by omega⟩
    have hn : nx N (k + 1) = some (hd X 0) := seg_next (L := []) h.2.2 rfl
    obtain ⟨n, -, hr, hx, -⟩ := rd_ok (nx_lt hn)
    rw [hx] at hn
    simp only [Option.some.injEq] at hn
    have ih := walk_next_seg (F := F) h.2.2 (fun e => h0 (List.mem_cons_of_mem _ e))
      (by simp only [List.length_cons] at hf; omega)
    show walk_next N (F + 1) (k + 1) = _
    simp only [walk_next, hr, Res.bind_ok, hn, ih]

theorem walk_next_fchain {N : List node} : ∀ {X : List Nat} {h : Nat} {F : Nat},
    fchain N h X → 0 ∉ X → X.length ≤ F → walk_next N F h = .ok X
  | [], h, F, hc, _, _ => by
    have : h = 0 := hc
    subst this
    cases F <;> rfl
  | x :: X, h, 0, _, _, hf => by simp at hf
  | x :: X, h, F + 1, hc, h0, hf => by
    have hx0 : x ≠ 0 := fun e => h0 (by simp [e])
    obtain ⟨k, rfl⟩ : ∃ k, x = k + 1 := ⟨x - 1, by omega⟩
    have hh : h = k + 1 := hc.1
    subst hh
    have hn := hc.2.1
    obtain ⟨n, -, hr, hx, -⟩ := rd_ok (nx_lt hn)
    rw [hx] at hn
    simp only [Option.some.injEq] at hn
    have ih := walk_next_fchain (F := F) hc.2.2 (fun e => h0 (List.mem_cons_of_mem _ e))
      (by simp only [List.length_cons] at hf; omega)
    simp only [walk_next, hr, Res.bind_ok, hn, ih]

theorem walk_prev_seg {N : List node} {q : Nat} : ∀ (X : List Nat) {F : Nat},
    seg N 0 X q → 0 ∉ X → X.length ≤ F → walk_prev N F (lst X 0) = .ok X.reverse := by
  intro X
  induction X using List.reverseRecOn generalizing q with
  | nil => intro F _ _ _; cases F <;> rfl
  | append_singleton X y ih =>
    intro F h h0 hf
    have hl : lst (X ++ [y]) 0 = y := by
      have : ∀ (X : List Nat) (p : Nat), lst (X ++ [y]) p = y := by
        intro X
        induction X with
        | nil => intro p; rfl
        | cons z zs ih2 => intro p; exact ih2 z
      exact this X 0
    rw [hl]
    have h2 := (seg_append (N := N) (p := 0) (X := X) (y := y) (Y := []) (q := q)).mp h
    have hy0 : y ≠ 0 := fun e => h0 (by simp [e])
    obtain ⟨k, rfl⟩ : ∃ k, y = k + 1 := ⟨y - 1, by omega⟩
    have hp : pv N (k + 1) = some (lst X 0) := seg_first_prev h2.1
    obtain ⟨n, -, hr, -, hx, -⟩ := rd_ok (pv_lt hp)
    rw [hx] at hp
    simp only [Option.some.injEq] at hp
    cases F with
    | zero => simp at hf
    | succ F =>
      have ih2 := ih (F := F) h2.1 (fun e => h0 (by simp [e]))
        (by simp only [List.length_append, List.length_cons, List.length_nil] at hf; omega)
      simp only [walk_prev, hr, Res.bind_ok, hp, ih2, List.reverse_append, List.reverse_cons,
        List.reverse_nil, List.nil_append, List.singleton_append]

theorem get_all_vals {l : compact_list} : ∀ {X : List Nat},
    (∀ x ∈ X, x ≠ 0 ∧ x < l.nodes.length) → get_all l X = .ok (vals l.nodes X)
  | [], _ => rfl
  | x :: X, h => by
    obtain ⟨hx0, hxl⟩ := h x (by simp)
    obtain ⟨n, -, hr, -, -, -, hv⟩ := rd_ok hxl
    have ih := get_all_vals (l := l) (X := X) (fun y hy => h y (List.mem_cons_of_mem _ hy))
    simp only [get_all, get_element, hx0, if_false, hr, Res.bind_ok, ih, vals, List.map_cons, hv,
      Option.getD_some]

theorem Shape.zero_not_mem {l : compact_list} {act fr : List Nat} (h : Shape l act fr) :
    (0 : Nat) ∉ act ++ fr := by
  have := h.nodup
  rw [List.nodup_cons] at this
  exact this.1

theorem Shape.begin_eq {l : compact_list} {act fr : List Nat} (h : Shape l act fr) :
    list_begin l = .ok (hd act 0) := by
  have hn : nx l.nodes 0 = some (hd act 0) := seg_next (L := []) h.2.2.2.1 rfl
  obtain ⟨n, -, hr, hx, -⟩ := rd_ok (nx_lt hn)
  rw [hx] at hn
  simp only [Option.some.injEq] at hn
  simp only [list_begin, hr, Res.bind_ok, hn]

theorem Shape.end_eq {l : compact_list} {act fr : List Nat} (h : Shape l act fr) :
    list_end l = .ok (lst act 0) := by
  have hn : pv l.nodes 0 = some (lst act 0) := seg_first_prev h.2.2.2.1
  obtain ⟨n, -, hr, -, hx, -⟩ := rd_ok (pv_lt hn)
  rw [hx] at hn
  simp only [Option.some.injEq] at hn
  simp only [list_end, hr, Res.bind_ok, hn]

theorem Shape.act_le {l : compact_list} {act fr : List Nat} (h : Shape l act fr) :
    act.length ≤ l.nodes.length := by
  have := h.count
  rw [h.1, h.2.1]; omega

theorem Shape.indices_eq {l : compact_list} {act fr : List Nat} (h : Shape l act fr) :
    indices l = .ok act := by
  simp only [indices, h.begin_eq, Res.bind_ok]
  exact walk_next_seg h.2.2.2.1 (fun e => h.zero_not_mem (by simp [e])) h.act_le

theorem Shape.indices_rev_eq {l : compact_list} {act fr : List Nat} (h : Shape l act fr) :
    indices_rev l = .ok act.reverse := by
  simp only [indices_rev, h.end_eq, Res.bind_ok]
  exact walk_prev_seg act h.2.2.2.1 (fun e => h.zero_not_mem (by simp [e])) h.act_le

theorem Shape.act_ok {l : compact_list} {act fr : List Nat} (h : Shape l act fr) :
    ∀ x ∈ act, x ≠ 0 ∧ x < l.nodes.length := by
  intro x hx
  refine ⟨?_, h.lt (by simp [hx])⟩
  rintro rfl
  exact h.zero_not_mem (by simp [hx])

theorem Shape.to_list_eq {l : compact_list} {act fr : List Nat} (h : Shape l act fr) :
    to_list l = .ok (vals l.nodes act) := by
  simp only [to_list, h.indices_eq, Res.bind_ok]
  exact get_all_vals h.act_ok

theorem Shape.to_list_rev_eq {l : compact_list} {act fr : List Nat} (h : Shape l act fr) :
    to_list_rev l = .ok (vals l.nodes act).reverse := by
  simp only [to_list_rev, h.indices_rev_eq, Res.bind_ok]
  rw [get_all_vals (fun x hx => h.act_ok x (List.mem_reverse.mp hx))]
  simp [vals]

theorem Shape.free_indices_eq {l : compact_list} {act fr : List Nat} (h : Shape l act fr) :
    free_indices l = .ok fr := by
  refine walk_next_fchain h.2.2.2.2.2.2 (fun e => h.zero_not_mem (by simp [e])) ?_
  have := h.count
  rw [h.1]; omega

theorem Shape.get_eq {l : compact_list} {act fr : List Nat} (h : Shape l act fr) {x : Nat}
    (hx : x ∈ act) : get_element l x = .ok ((vl l.nodes x).getD POISON) := by
  obtain ⟨hx0, hxl⟩ := h.act_ok x hx
  obtain ⟨n, -, hr, -, -, -, hv⟩ := rd_ok hxl
  simp only [get_element, hx0, if_false, hr, Res.bind_ok, hv, Option.getD_some]

/-! ## Insertion -/

theorem Shape.wf {l : compact_list} {act fr : List Nat} (h : Shape l act fr)
    (hfree : l.free ≠ 0) : WF l act fr := by
  refine ⟨h, hfree, ?_⟩
  obtain ⟨fr1, rfl⟩ := h.free_cons hfree
  have := h.count
  simp only [List.length_cons] at this
  omega

theorem try_grow_list_id {l : compact_list} (h : l.free ≠ 0) : try_grow_list l = .ok l := by
  simp only [try_grow_list, h, ne_eq, not_false_eq_true, if_true]

/-- Complete description of `insert_after` at `C`, where `0 :: act = L ++ C :: R`:
`l0` is the list after the body, `l1` the list after the growth check. -/
theorem insert_after_shape {l : compact_list} {act fr : List Nat} (h : Shape l act fr)
    (hfree : l.free ≠ 0) {L R : List Nat} {C : Nat} (hd0 : 0 :: act = L ++ C :: R)
    (v : element_t) :
    ∃ l0 l1 fr0 fr1, insert_after_core l C v = .ok (l0, l.free) ∧
      insert_after l C v = .ok (l1, l.free) ∧ fr = l.free :: fr0 ∧
      Shape l0 (L ++ C :: l.free :: R).tail fr0 ∧
      Shape l1 (L ++ C :: l.free :: R).tail fr1 ∧ l1.free ≠ 0 ∧
      l0.capacity = l.capacity ∧ l0.size = l.size + 1 ∧ l1.size = l.size + 1 ∧
      l1.is_linear = l0.is_linear ∧
      (l0.is_linear = if ¬ (C + 1 = l.free ∧ l.free + 1 = hd R 0) then false
                      else l.is_linear) ∧
      (∀ j, j < l.capacity → l1.nodes[j]? = l0.nodes[j]?) ∧
      (fr0 ≠ [] → l1 = l0 ∧ fr1 = fr0) ∧
      (fr0 = [] → l1.capacity = 2 * l.capacity ∧ l1.free = l.capacity ∧
        fr1 = List.range' l.capacity l.capacity) ∧
      (∀ j, vl l0.nodes j = if j = l.free then some v else vl l.nodes j) ∧
      nx l0.nodes C = some l.free ∧ pv l0.nodes l.free = some C := by
  obtain ⟨l0, fr0, hcore, hfr, hsh0, hcap0, hsz0, hfree0, hlin0, hv0, hn0, hp0⟩ :=
    insert_after_core_shape h hfree hd0 v
  by_cases hfr0 : fr0 = []
  · subst hfr0
    have hf0 : l0.free = 0 := hfree0
    obtain ⟨l2, hres, hsh2, hcap2, hfree2, hsz2, hlin2, hold2⟩ :=
      resize_list_grow (l := l0) (K := l0.capacity * growth_coeff_) hsh0
        (by have := hsh0.cap_pos; rw [hsh0.1] at this; simp only [growth_coeff_]; omega)
    have hcp : 0 < l.capacity := by
      have := hsh0.cap_pos; rw [hsh0.1, hcap0] at this; exact this
    refine ⟨l0, l2, [], List.range' l.capacity l.capacity, hcore, ?_, hfr, hsh0, ?_, ?_, hcap0,
      hsz0, by rw [hsz2, hsz0], hlin2, hlin0, ?_, fun hc => absurd rfl hc, ?_, hv0, hn0, hp0⟩
    · simp only [insert_after, hcore, Res.bind_ok, try_grow_list, hf0, ne_eq, not_true_eq_false,
        if_false, hres]
    · have e : l0.capacity * growth_coeff_ - l0.capacity = l.capacity := by
        simp only [growth_coeff_, hcap0]; omega
      rw [e, hcap0] at hsh2
      exact hsh2
    · intro e; rw [hfree2, hcap0] at e; exact absurd e (Nat.pos_iff_ne_zero.mp hcp)
    · intro j hj; exact hold2 j (by rw [hcap0]; exact hj)
    · intro _
      refine ⟨by rw [hcap2, hcap0]; simp only [growth_coeff_]; omega, by rw [hfree2, hcap0], rfl⟩
  · have hf0 : l0.free ≠ 0 := by
      obtain ⟨y, Y, rfl⟩ := List.exists_cons_of_ne_nil hfr0
      rw [hfree0]
      intro e
      exact hsh0.zero_not_mem (by simp only [hd] at e; simp [e])
    refine ⟨l0, l0, fr0, fr0, hcore, ?_, hfr, hsh0, hsh0, hf0, hcap0, hsz0, hsz0, rfl, hlin0,
      fun _ _ => rfl, fun _ => ⟨rfl, rfl⟩, fun hc => absurd hc hfr0, hv0, hn0, hp0⟩
    simp only [insert_after, hcore, Res.bind_ok, try_grow_list_id hf0]

theorem vals_append (N : List node) (X Y : List Nat) :
    vals N (X ++ Y) = vals N X ++ vals N Y := by simp [vals]

theorem vals_congr {N M : List node} {X : List Nat}
    (h : ∀ x ∈ X, vl M x = vl N x) : vals M X = vals N X := by
  simp only [vals]
  refine List.map_congr_left ?_
  intro x hx
  rw [h x hx]

theorem vals_length (N : List node) (X : List Nat) : (vals N X).length = X.length := by
  simp [vals]

theorem vl_of_get {N M : List node} {j : Nat} (h : M[j]? = N[j]?) : vl M j = vl N j :=
  (views_eq_of_get h).2.2.2

/-- Values, links and logical sequence after `insert_after` at `C`. -/
theorem insert_after_values {l : compact_list} {act fr : List Nat} (h : WF l act fr)
    {L R : List Nat} {C : Nat} (hd0 : 0 :: act = L ++ C :: R) (v : element_t) :
    ∃ l1, insert_after l C v = .ok (l1, l.free) ∧
      (∃ fr1, WF l1 (L ++ C :: l.free :: R).tail fr1) ∧
      get_element l1 l.free = .ok v ∧ next_element l1 C = .ok l.free ∧
      prev_element l1 l.free = .ok C ∧ l1.size = l.size + 1 ∧
      (∀ j ∈ act, get_element l1 j = get_element l j) ∧
      to_list l1 = .ok (vals l.nodes (L ++ [C]).tail ++ v :: vals l.nodes R) ∧
      (l1.is_linear = if ¬ (C + 1 = l.free ∧ l.free + 1 = hd R 0) then false
                      else l.is_linear) := by
  obtain ⟨hsh, hfree, hsz⟩ := h
  obtain ⟨l0, l1, fr0, fr1, hcore, hres, hfr, hsh0, hsh1, hfree1, hcap0, hsz0, hsz1, hlin1, hlin0,
    hold, -, -, hv0, hn0, hp0⟩ := insert_after_shape hsh hfree hd0 v
  have hltc : ∀ x ∈ 0 :: (act ++ fr), x < l.capacity := fun x hx => by
    have := hsh.lt hx; rwa [hsh.1] at this
  have hv1 : ∀ j, j < l.capacity → vl l1.nodes j = if j = l.free then some v else vl l.nodes j :=
    fun j hj => by rw [vl_of_get (hold j hj)]; exact hv0 j
  have hn1 : nx l1.nodes C = some l.free := by
    rw [(views_eq_of_get (hold C (hltc _ ?_))).1]; exact hn0
    have := mem_of_split hd0
    simp at this ⊢; tauto
  have hfa : l.free ∈ 0 :: (act ++ fr) := by rw [hfr]; simp
  have hp1 : pv l1.nodes l.free = some C := by
    rw [(views_eq_of_get (hold _ (hltc _ hfa))).2.1]; exact hp0
  have hamem : l.free ∈ (L ++ C :: l.free :: R).tail := by
    cases L with
    | nil => simp
    | cons y L => simp
  have hafr : ∀ x ∈ 0 :: act, x ≠ l.free := by
    intro x hx e
    have hnd := hsh.nodup
    rw [hfr] at hnd
    have h3 : (0 :: act ++ l.free :: fr0).Nodup := by simpa using hnd
    rw [List.nodup_append] at h3
    exact h3.2.2 hx (by simp [e])
  refine ⟨l1, hres, ⟨fr1, hsh1.wf hfree1⟩, ?_, ?_, ?_, hsz1, ?_, ?_, hlin1.trans hlin0⟩
  · rw [hsh1.get_eq hamem, hv1 _ (hltc _ hfa)]; simp
  · obtain ⟨n, -, hr, hx, -⟩ := rd_ok (nx_lt hn1)
    rw [hx] at hn1
    simp only [Option.some.injEq] at hn1
    simp only [next_element, hr, Res.bind_ok, hn1]
  · obtain ⟨n, -, hr, -, hx, -⟩ := rd_ok (pv_lt hp1)
    rw [hx] at hp1
    simp only [Option.some.injEq] at hp1
    simp only [prev_element, hr, Res.bind_ok, hp1]
  · intro j hj
    have hj1 : j ∈ (L ++ C :: l.free :: R).tail := by
      have : j ∈ L ++ C :: R := by rw [← hd0]; simp [hj]
      cases L with
      | nil =>
        simp at hd0
        simp at this ⊢
        rcases this with h1 | h1
        · exfalso; apply hsh.zero_not_mem; rw [hd0.1, ← h1]; simp [hj]
        · exact Or.inr h1
      | cons y L =>
        simp at hd0
        obtain ⟨rfl, hd1⟩ := hd0
        simp at this ⊢
        rcases this with h1 | h1 | h1 | h1
        · exfalso; apply hsh.zero_not_mem; rw [← h1]; simp [hj]
        · exact Or.inl h1
        · exact Or.inr (Or.inl h1)
        · exact Or.inr (Or.inr (Or.inr h1))
    rw [hsh1.get_eq hj1, hsh.get_eq hj, hv1 j (hltc _ (by simp [hj]))]
    simp only [hafr j (by simp [hj]), if_false]
  · rw [hsh1.to_list_eq]
    congr 1
    have hcong : ∀ X : List Nat, (∀ x ∈ X, x ∈ 0 :: act) → vals l1.nodes X = vals l.nodes X := by
      intro X hxs
      refine vals_congr ?_
      intro x hx
      rw [hv1 x (hltc _ (by have := hxs x hx; simp at this ⊢; tauto))]
      simp only [hafr x (hxs x hx), if_false]
    have hva : vals l1.nodes [l.free] = [v] := by
      simp [vals, hv1 _ (hltc _ hfa)]
    have hR : ∀ x ∈ R, x ∈ 0 :: act := fun x hx => by rw [hd0]; simp [hx]
    cases L with
    | nil =>
      show vals l1.nodes (l.free :: R) = vals l.nodes [] ++ v :: vals l.nodes R
      rw [show l.free :: R = [l.free] ++ R from rfl, vals_append, hva, hcong R hR]
      rfl
    | cons y L =>
      have hL : ∀ x ∈ L ++ [C], x ∈ 0 :: act := fun x hx => by
        rw [hd0]; simp at hx ⊢; tauto
      have e1 : vals l1.nodes (L ++ [C]) = vals l.nodes (L ++ [C]) := hcong _ hL
      show vals l1.nodes (L ++ C :: l.free :: R) = vals l.nodes (L ++ [C]) ++ v :: vals l.nodes R
      rw [show L ++ C :: l.free :: R = (L ++ [C]) ++ ([l.free] ++ R) by simp,
        vals_append l1.nodes (L ++ [C]), vals_append l1.nodes [l.free] R, hva, hcong R hR, e1]
      rfl

theorem split_at {X : List Nat} {k i : Nat} (h : X[k]? = some i) :
    X = X.take k ++ i :: X.drop (k + 1) := by
  obtain ⟨hk, rfl⟩ := List.getElem?_eq_some.mp h
  rw [List.getElem_cons_drop, List.take_append_drop]

theorem lst_split : ∀ (A : List Nat) (p : Nat), ∃ L, p :: A = L ++ [lst A p]
  | [], p => ⟨[], rfl⟩
  | x :: A, p => by
    obtain ⟨L, hL⟩ := lst_split A x
    exact ⟨p :: L, by simp only [lst, List.cons_append, hL]⟩

theorem vals_take (N : List node) (X : List Nat) (k : Nat) :
    vals N (X.take k) = (vals N X).take k := by simp [vals, List.map_take]

theorem vals_drop (N : List node) (X : List Nat) (k : Nat) :
    vals N (X.drop k) = (vals N X).drop k := by simp [vals, List.map_drop]

theorem ok_inj {α : Type} {a b : α} (h : (Res.ok a : Res α) = .ok b) : a = b := by
  cases h; rfl

/-! ## Claims -/

/-- C1: on a well-formed list with logical value sequence `s`, for an iterator
`i` that is `0` or an active index, `insert_after l i v` returns a list and an
index `a` such that `get_element a = v`, `next_element i = a`,
`prev_element a = i`, the size has grown by one, every previously active index
keeps its value, the list is again well-formed, and the logical sequence is
`s` with `v` put right after position `k` of `i` (at the front when `i = 0`).
In particular `push_back l v` yields `s ++ [v]`. -/
theorem insert_after_splices (l : compact_list) (act fr : List Nat) (s : List element_t)
    (i : list_iterator) (v : element_t) (hwf : WF l act fr) (hs : to_list l = .ok s)
    (hi : i = 0 ∨ i ∈ act) :
    ∃ l1 a, insert_after l i v = .ok (l1, a) ∧
      get_element l1 a = .ok v ∧ next_element l1 i = .ok a ∧ prev_element l1 a = .ok i ∧
      l1.size = l.size + 1 ∧ (∀ j ∈ act, get_element l1 j = get_element l j) ∧
      (∃ act1 fr1, WF l1 act1 fr1) ∧
      (i = 0 → to_list l1 = .ok (v :: s)) ∧
      (∀ k, act[k]? = some i → to_list l1 = .ok (s.take (k + 1) ++ v :: s.drop (k + 1))) ∧
      (∃ l2 a2, push_back l v = .ok (l2, a2) ∧ to_list l2 = .ok (s ++ [v])) := by
  have hsv : s = vals l.nodes act := by
    rw [hwf.1.to_list_eq] at hs; exact (ok_inj hs).symm
  have h0 : (0 : Nat) ∉ act := fun e => hwf.1.zero_not_mem (by simp [e])
  have hsplit : ∃ L R, 0 :: act = L ++ i :: R := by
    rcases hi with rfl | hi
    · exact ⟨[], act, rfl⟩
    · obtain ⟨A, B, hAB⟩ := List.append_of_mem hi
      exact ⟨0 :: A, B, by rw [hAB]; rfl⟩
  obtain ⟨L, R, hd0⟩ := hsplit
  obtain ⟨l1, hres, hwf1, hget, hnext, hprev, hsz, hold, -, -⟩ := insert_after_values hwf hd0 v
  refine ⟨l1, l.free, hres, hget, hnext, hprev, hsz, hold, ⟨_, hwf1⟩, ?_, ?_, ?_⟩
  · intro hi0
    subst hi0
    obtain ⟨l1', hres', -, -, -, -, -, -, hto, -⟩ :=
      insert_after_values hwf (L := []) (R := act) (C := 0) rfl v
    rw [hres] at hres'
    have := ok_inj hres'
    simp only [Prod.mk.injEq, and_true] at this
    subst this
    rw [hto, hsv]; rfl
  · intro k hk
    have hd1 : 0 :: act = (0 :: act.take k) ++ i :: act.drop (k + 1) := by
      rw [List.cons_append, ← split_at hk]
    obtain ⟨l1', hres', -, -, -, -, -, -, hto, -⟩ := insert_after_values hwf hd1 v
    rw [hres] at hres'
    have := ok_inj hres'
    simp only [Prod.mk.injEq, and_true] at this
    subst this
    rw [hto, hsv]
    congr 1
    have e : (0 :: List.take k act ++ [i]).tail = act.take (k + 1) := by
      obtain ⟨hk1, rfl⟩ := List.getElem?_eq_some.mp hk
      show List.take k act ++ [act[k]] = List.take (k + 1) act
      rw [List.take_succ, List.getElem?_eq_getElem hk1]
      rfl
    rw [e, vals_take, vals_drop]
  · obtain ⟨L2, hL2⟩ := lst_split act 0
    obtain ⟨l2, hres2, -, -, -, -, -, -, hto, -⟩ :=
      insert_after_values hwf (L := L2) (R := []) (C := lst act 0) hL2 v
    refine ⟨l2, l.free, ?_, ?_⟩
    · simp only [push_back, hwf.1.end_eq, Res.bind_ok, hres2]
    · rw [hto, hsv, ← hL2]
      rfl


theorem sample3_eq :
    (push_back list_ctor 10).bind (fun r => (push_back r.1 20).bind fun r =>
        (push_back r.1 30).bind fun r => .ok r.1) = .ok sample3 := by decide

/-- Witness for C1: `insert_after` behind index 1 of the list 10, 20, 30. -/
theorem insert_after_splices_witness :
    WF sample3 [1, 2, 3] (List.range' 4 12) ∧ to_list sample3 = .ok [10, 20, 30] ∧
      ∃ l1 a, insert_after sample3 1 7 = .ok (l1, a) ∧ get_element l1 a = .ok 7 ∧
        to_list l1 = .ok [10, 7, 20, 30] := by
  refine ⟨by decide, by decide, ?_⟩
  obtain ⟨l1, a, h1, h2, -, -, -, -, -, -, h3, -⟩ :=
    insert_after_splices sample3 [1, 2, 3] (List.range' 4 12) [10, 20, 30] 1 7
      (by decide) (by decide) (Or.inr (by decide))
  exact ⟨l1, a, h1, h2, h3 0 rfl⟩

/-! ## Insertion before an element -/

theorem Shape.next_eq {l : compact_list} {act fr : List Nat} (h : Shape l act fr)
    {L R : List Nat} {x : Nat} (hd0 : 0 :: act = L ++ x :: R) :
    next_element l x = .ok (hd R 0) := by
  have hn := seg_next h.2.2.2.1 hd0
  obtain ⟨n, -, hr, hx, -⟩ := rd_ok (nx_lt hn)
  rw [hx] at hn
  simp only [Option.some.injEq] at hn
  simp only [next_element, hr, Res.bind_ok, hn]

theorem Shape.prev_eq {l : compact_list} {act fr : List Nat} (h : Shape l act fr)
    {A B : List Nat} {x : Nat} (hd0 : act ++ [0] = A ++ x :: B) :
    prev_element l x = .ok (lst A 0) := by
  have hn := seg_prev h.2.2.2.1 hd0
  obtain ⟨n, -, hr, -, hx, -⟩ := rd_ok (pv_lt hn)
  rw [hx] at hn
  simp only [Option.some.injEq] at hn
  simp only [prev_element, hr, Res.bind_ok, hn]

/-- Result of the body of `insert_before`, described through the field views. -/
theorem insert_before_core_ok {l : compact_list} {C prv f1 : Nat} (v : element_t)
    (hc : pv l.nodes C = some prv) (hf : nx l.nodes l.free = some f1)
    (hn : prv < l.nodes.length) :
    ∃ M, insert_before_core l C v =
        .ok ({ l with nodes := M, free := f1, size := l.size + 1,
                      is_linear := if ¬ (prv + 1 = l.free ∧ l.free + 1 = C) then false
                                   else l.is_linear }, l.free) ∧
      M.length = l.nodes.length ∧
      (∀ j, nx M j = if j = prv then some l.free else if j = l.free then some C
                      else nx l.nodes j) ∧
      (∀ j, pv M j = if j = C then some l.free else if j = l.free then some prv
                      else pv l.nodes j) ∧
      (∀ j, fl M j = if j = l.free then some false else fl l.nodes j) ∧
      (∀ j, vl M j = if j = l.free then some v else vl l.nodes j) := by
  obtain ⟨nc, -, hrc, -, hxc, -⟩ := rd_ok (pv_lt hc)
  obtain ⟨nf, -, hrf, hxf, -⟩ := rd_ok (nx_lt hf)
  rw [hxc] at hc; rw [hxf] at hf
  simp only [Option.some.injEq] at hc hf
  obtain ⟨m1, e1, l1, n1, p1, f1', v1⟩ := wr_ok (N := l.nodes) (i := l.free)
    ⟨v, C, prv, false⟩ (nx_lt hxf)
  obtain ⟨m2, e2, l2, n2, p2, f2, v2⟩ := set_prev_ok (N := m1) (i := C) l.free
    (by rw [l1]; exact pv_lt hxc)
  obtain ⟨m3, e3, l3, n3, p3, f3, v3⟩ := set_next_ok (N := m2) (i := prv) l.free
    (by rw [l2, l1]; exact hn)
  refine ⟨m3, ?_, by rw [l3, l2, l1], ?_, ?_, ?_, ?_⟩
  · simp only [insert_before_core, prev_element, next_element, hrc, hrf, Res.bind_ok, hc, hf,
      e1, e2, e3]
  · intro j; rw [n3, n2, n1]
  · intro j; rw [p3, p2, p1]
  · intro j; rw [f3, f2, f1']
  · intro j; rw [v3, v2, v1]

/-- On linked neighbours `prv`, `C` the body of `insert_before` at `C` and
the body of `insert_after` at `prv` give the same list. -/
theorem insert_before_core_eq {l : compact_list} {C prv f1 : Nat} (v : element_t)
    (hc : pv l.nodes C = some prv) (hp : nx l.nodes prv = some C)
    (hf : nx l.nodes l.free = some f1) :
    insert_before_core l C v = insert_after_core l prv v := by
  obtain ⟨M, e1, l1, n1, p1, f1', v1⟩ := insert_before_core_ok v hc hf (nx_lt hp)
  obtain ⟨ms2, e2, l2, n2, p2, f2, v2⟩ := insert_after_core_ok v hp hf (pv_lt hc)
  have : M = ms2 := by
    refine nodes_ext ?_ ?_ ?_ ?_ <;> intro j
    · rw [n1, n2]
    · rw [p1, p2]
    · rw [f1', f2]
    · rw [v1, v2]
  rw [e1, e2, this]

theorem split_conv {act A B : List Nat} {C : Nat} (h : act ++ [0] = A ++ C :: B) :
    ∃ L R, 0 :: act = L ++ lst A 0 :: R ∧ hd R 0 = C ∧ (L ++ [lst A 0]).tail = A ∧
      R ++ [0] = C :: B := by
  obtain ⟨L, hL⟩ := lst_split A 0
  have hA : (L ++ [lst A 0]).tail = A := by rw [← hL]; rfl
  rcases List.eq_nil_or_concat B with rfl | ⟨B1, b, rfl⟩
  · have h2 := List.append_inj' h (by simp)
    refine ⟨L, [], ?_, ?_, hA, ?_⟩
    · rw [h2.1, hL]
    · simp only [hd]; have := h2.2; simp at this; exact this
    · have := h2.2; simp at this; simp [this]
  · have h1 : act ++ [0] = (A ++ C :: B1) ++ [b] := by rw [h]; simp
    have h2 := List.append_inj' h1 (by simp)
    have hb : b = 0 := by have := h2.2; simp at this; exact this.symm
    refine ⟨L, C :: B1, ?_, rfl, hA, ?_⟩
    · rw [h2.1, ← List.cons_append, hL]; simp
    · rw [hb]; simp

/-- Values, links and logical sequence after `insert_before` at `C`, where
`act ++ [0] = A ++ C :: B`. -/
theorem insert_before_values {l : compact_list} {act fr : List Nat} (h : WF l act fr)
    {A B : List Nat} {C : Nat} (hd0 : act ++ [0] = A ++ C :: B) (v : element_t) :
    ∃ l1 R, R ++ [0] = C :: B ∧ insert_before l C v = .ok (l1, l.free) ∧
      (∃ fr1, WF l1 (A ++ l.free :: R) fr1) ∧
      get_element l1 l.free = .ok v ∧ prev_element l1 C = .ok l.free ∧
      next_element l1 l.free = .ok C ∧ l1.size = l.size + 1 ∧
      (∀ j ∈ act, get_element l1 j = get_element l j) ∧
      to_list l1 = .ok (vals l.nodes A ++ v :: vals l.nodes R) ∧
      (l1.is_linear = if ¬ (lst A 0 + 1 = l.free ∧ l.free + 1 = C) then false
                      else l.is_linear) := by
  obtain ⟨L, R, hsp, hhd, hLA, hR⟩ := split_conv hd0
  have hpv := seg_prev h.1.2.2.2.1 hd0
  have hnx := seg_next h.1.2.2.2.1 hsp
  rw [hhd] at hnx
  obtain ⟨fr1, hfr⟩ := h.1.free_cons h.2.1
  have hfn : nx l.nodes l.free = some (hd fr1 0) := by
    have hfc := h.1.2.2.2.2.2.2
    rw [hfr] at hfc; exact hfc.2.1
  have hcore := insert_before_core_eq v hpv hnx hfn
  obtain ⟨l1, hres, ⟨fr2, hwf1⟩, hget, -, -, hsz, hold, hto, hlin⟩ := insert_after_values h hsp v
  rw [hhd] at hlin
  have hact1 : (L ++ lst A 0 :: l.free :: R).tail = A ++ l.free :: R := by
    have e : (L ++ lst A 0 :: l.free :: R).tail = (L ++ [lst A 0]).tail ++ l.free :: R := by
      cases L <;> simp
    rw [e, hLA]
  rw [hact1] at hwf1
  rw [hLA] at hto
  refine ⟨l1, R, hR, ?_, ⟨fr2, hwf1⟩, hget, ?_, ?_, hsz, hold, hto, hlin⟩
  · simp only [insert_before, hcore]
    simp only [insert_after] at hres
    exact hres
  · have := hwf1.1.prev_eq (A := A ++ [l.free]) (B := B) (x := C) (by simp [hR])
    rw [this]
    congr 1
    have : ∀ (A : List Nat) (p : Nat), lst (A ++ [l.free]) p = l.free := by
      intro A
      induction A with
      | nil => intro p; rfl
      | cons z zs ih2 => intro p; exact ih2 z
    exact this A 0
  · have := hwf1.1.next_eq (L := 0 :: A) (R := R) (x := l.free) rfl
    rw [this, ← hhd]

/-- C2: on a well-formed list with logical value sequence `s`, for an iterator
`i` that is `0` or an active index, `insert_before l i v` returns a list and an
index `a` such that `get_element a = v`, `prev_element i = a`,
`next_element a = i`, the size has grown by one, every previously active index
keeps its value, the list is again well-formed, and the logical sequence is
`s` with `v` put right before position `k` of `i` (at the back when `i = 0`).
In particular `push_front l v` yields `v :: s`. -/
theorem insert_before_splices (l : compact_list) (act fr : List Nat) (s : List element_t)
    (i : list_iterator) (v : element_t) (hwf : WF l act fr) (hs : to_list l = .ok s)
    (hi : i = 0 ∨ i ∈ act) :
    ∃ l1 a, insert_before l i v = .ok (l1, a) ∧
      get_element l1 a = .ok v ∧ prev_element l1 i = .ok a ∧ next_element l1 a = .ok i ∧
      l1.size = l.size + 1 ∧ (∀ j ∈ act, get_element l1 j = get_element l j) ∧
      (∃ act1 fr1, WF l1 act1 fr1) ∧
      (i = 0 → to_list l1 = .ok (s ++ [v])) ∧
      (∀ k, act[k]? = some i → to_list l1 = .ok (s.take k ++ v :: s.drop k)) ∧
      (∃ l2 a2, push_front l v = .ok (l2, a2) ∧ to_list l2 = .ok (v :: s)) := by
  have hsv : s = vals l.nodes act := by
    rw [hwf.1.to_list_eq] at hs; exact (ok_inj hs).symm
  have hsplit : ∃ A B, act ++ [0] = A ++ i :: B := by
    rcases hi with rfl | hi
    · exact ⟨act, [], rfl⟩
    · obtain ⟨A, B, hAB⟩ := List.append_of_mem hi
      exact ⟨A, B ++ [0], by rw [hAB]; simp⟩
  obtain ⟨A, B, hd0⟩ := hsplit
  obtain ⟨l1, R, hR, hres, ⟨fr1, hwf1⟩, hget, hprev, hnext, hsz, hold, -, -⟩ :=
    insert_before_values hwf hd0 v
  refine ⟨l1, l.free, hres, hget, hprev, hnext, hsz, hold, ⟨_, _, hwf1⟩, ?_, ?_, ?_⟩
  · intro hi0
    subst hi0
    obtain ⟨l1', R', hR', hres', -, -, -, -, -, -, hto, -⟩ :=
      insert_before_values hwf (A := act) (B := []) (C := 0) rfl v
    rw [hres] at hres'
    have := ok_inj hres'
    simp only [Prod.mk.injEq, and_true] at this
    subst this
    have hRn : R' = [] := by
      have : R' ++ [0] = [] ++ [0] := hR'
      exact (List.append_left_inj _).mp this
    rw [hto, hsv, hRn]; rfl
  · intro k hk
    have hd1 : act ++ [0] = act.take k ++ i :: (act.drop (k + 1) ++ [0]) := by
      rw [← List.cons_append, ← List.append_assoc, ← split_at hk]
    obtain ⟨l1', R', hR', hres', -, -, -, -, -, -, hto, -⟩ := insert_before_values hwf hd1 v
    rw [hres] at hres'
    have := ok_inj hres'
    simp only [Prod.mk.injEq, and_true] at this
    subst this
    have hRn : R' = act.drop k := by
      have : R' ++ [0] = act.drop k ++ [0] := by
        rw [hR']
        obtain ⟨hk1, rfl⟩ := List.getElem?_eq_some.mp hk
        rw [← List.getElem_cons_drop act k hk1]; rfl
      exact (List.append_left_inj _).mp this
    rw [hto, hsv, hRn, vals_take, vals_drop]
  · have hbeg := hwf.1.begin_eq
    have hd2 : ∃ B2, act ++ [0] = [] ++ hd act 0 :: B2 := by
      cases act with
      | nil => exact ⟨[], rfl⟩
      | cons x X => exact ⟨X ++ [0], by simp [hd]⟩
    obtain ⟨B2, hd2⟩ := hd2
    obtain ⟨l2, R2, hR2, hres2, -, -, -, -, -, -, hto, -⟩ := insert_before_values hwf hd2 v
    refine ⟨l2, l.free, ?_, ?_⟩
    · simp only [push_front, hbeg, Res.bind_ok, hres2]
    · have hRn : R2 = act := by
        have : R2 ++ [0] = act ++ [0] := by rw [hR2, hd2]; rfl
        exact (List.append_left_inj _).mp this
      rw [hto, hsv, hRn]; rfl

/-- Witness for C2: `insert_before` in front of index 2 of the list 10, 20, 30. -/
theorem insert_before_splices_witness :
    WF sample3 [1, 2, 3] (List.range' 4 12) ∧ to_list sample3 = .ok [10, 20, 30] ∧
      ∃ l1 a, insert_before sample3 2 7 = .ok (l1, a) ∧ get_element l1 a = .ok 7 ∧
        to_list l1 = .ok [10, 7, 20, 30] := by
  refine ⟨by decide, by decide, ?_⟩
  obtain ⟨l1, a, h1, h2, -, -, -, -, -, -, h3, -⟩ :=
    insert_before_splices sample3 [1, 2, 3] (List.range' 4 12) [10, 20, 30] 2 7
      (by decide) (by decide) (Or.inr (by decide))
  exact ⟨l1, a, h1, h2, h3 1 rfl⟩

/-! ## Erasure -/

theorem try_shrink_list_id {l : compact_list} (h : shrink_size l = .ok none) :
    try_shrink_list l = .ok l := by
  simp only [try_shrink_list, h, Res.bind_ok]

theorem shrink_size_not_linear {l : compact_list} (h : l.is_linear = false) :
    shrink_size l = .ok none := by
  simp only [shrink_size, h, if_true]

/-- Structure of the list after the body of `erase_element` at the active
index `i`, where `act = A ++ i :: B`. -/
theorem erase_core_shape {l : compact_list} {act fr : List Nat} (h : Shape l act fr)
    {A B : List Nat} {i : Nat} (hd0 : act = A ++ i :: B) :
    ∃ l0, erase_core l i = .ok l0 ∧ Shape l0 (A ++ B) (i :: fr) ∧
      l0.free = i ∧ l0.size + 1 = l.size ∧ l0.capacity = l.capacity ∧
      (l0.is_linear = if ¬ (hd B 0 = 0 ∨ lst A 0 = 0) then false else l.is_linear) ∧
      fl l0.nodes i = some true ∧
      (∀ j, vl l0.nodes j = if j = i then some POISON else vl l.nodes j) := by
  have hnd := h.nodup
  have hlt : ∀ x ∈ 0 :: (act ++ fr), x < l.nodes.length := fun x hx => h.lt hx
  obtain ⟨hlen, hsz, hperm, hseg, hact, hfl, hfc⟩ := h
  have hn : nx l.nodes i = some (hd B 0) :=
    seg_next (L := 0 :: A) hseg (by rw [hd0]; rfl)
  have hp : pv l.nodes i = some (lst A 0) :=
    seg_prev (A := A) (B := B ++ [0]) hseg (by rw [hd0]; simp)
  have hnm : hd B 0 ∈ 0 :: (act ++ fr) := by
    have := hd_mem B 0
    rw [hd0]; simp at this ⊢; tauto
  have hpm : lst A 0 ∈ 0 :: (act ++ fr) := by
    have := lst_mem A 0
    rw [hd0]; simp at this ⊢; tauto
  obtain ⟨M, hres, hl, hn1, hp1, hf1, hv1⟩ := erase_core_ok hn hp (hlt _ hnm) (hlt _ hpm)
  have hnd2 : (0 :: (A ++ i :: B) ++ fr).Nodup := by rw [hd0] at hnd; simpa using hnd
  have hnd_act : (0 :: (A ++ i :: B)).Nodup := (List.nodup_append.mp hnd2).1
  have hdisj := (List.nodup_append.mp hnd2).2.2
  have hi_ne : ∀ x ∈ 0 :: (A ++ B), x ≠ i := by
    intro x hx e
    subst e
    have h3 : (0 :: A ++ x :: B).Nodup := hnd_act
    rw [List.nodup_append] at h3
    simp at hx
    rcases hx with rfl | hx | hx
    · exact h3.2.2 (List.mem_cons_self _ _) (List.mem_cons_self _ _)
    · exact h3.2.2 (List.mem_cons_of_mem _ hx) (List.mem_cons_self _ _)
    · have := h3.2.1; simp at this; exact this.1 hx
  have hfr_ne : ∀ x ∈ fr, x ≠ i ∧ x ≠ lst A 0 := by
    intro x hx
    refine ⟨fun e => hdisj (a := i) (by simp) (e ▸ hx), fun e => ?_⟩
    have := lst_mem A 0
    exact hdisj (a := lst A 0) (by simp at this ⊢; tauto) (e ▸ hx)
  have hsz0 : l.size ≠ 0 := by rw [← hsz, hd0]; simp
  refine ⟨_, hres, ⟨hl.trans hlen, ?_, ?_, ?_, ?_, ?_, ?_⟩, rfl, ?_, rfl, rfl, ?_, hv1⟩
  · show (A ++ B).length = if l.size = 0 then SIZE_MAX else l.size - 1
    rw [if_neg hsz0, ← hsz, hd0]
    simp only [List.length_append, List.length_cons]; omega
  · refine List.Perm.trans ?_ hperm
    rw [hd0]
    refine List.Perm.cons _ ?_
    simp only [List.append_assoc, List.cons_append]
    refine List.Perm.append_left _ ?_
    exact List.perm_middle
  · refine seg_erase (i := i) hseg hd0 (by rw [hd0]; exact hnd_act) ?_ ?_ ?_
    · intro e
      have := hnd_act
      rw [← hd0] at this
      exact (List.nodup_cons.mp this).1 e
    · intro j hj; rw [hn1, if_neg hj]
    · intro j hj; rw [hp1, if_neg hj]
  · intro x hx
    rw [hf1, if_neg (hi_ne x hx)]
    apply hact
    rw [hd0]; simp at hx ⊢; tauto
  · intro x hx
    rw [hf1]
    by_cases hxi : x = i
    · rw [if_pos hxi]
    · rw [if_neg hxi]
      simp at hx
      rcases hx with hx | hx
      · exact absurd hx hxi
      · exact hfl x hx
  · show i = i ∧ nx M i = some (hd fr 0) ∧ fchain M (hd fr 0) fr
    refine ⟨rfl, ?_, ?_⟩
    · rw [hn1, if_pos rfl, fchain_head hfc]
    · rw [← fchain_head hfc]
      refine fchain_frame hfc ?_
      intro x hx
      rw [hn1, if_neg (hfr_ne x hx).1, if_neg (hfr_ne x hx).2]
  · show (if l.size = 0 then SIZE_MAX else l.size - 1) + 1 = l.size
    rw [if_neg hsz0]; omega
  · rw [hf1, if_pos rfl]

/-- Complete description of `erase_element` at the active index `i` when the
shrink check that follows the body does not resize. -/
theorem erase_element_values {l : compact_list} {act fr : List Nat} (h : WF l act fr)
    {A B : List Nat} {i : Nat} (hd0 : act = A ++ i :: B) :
    ∃ l0, erase_core l i = .ok l0 ∧ WF l0 (A ++ B) (i :: fr) ∧
      erase_element l i = try_shrink_list l0 ∧
      l0.free = i ∧ l0.size + 1 = l.size ∧ l0.capacity = l.capacity ∧
      (l0.is_linear = if ¬ (hd B 0 = 0 ∨ lst A 0 = 0) then false else l.is_linear) ∧
      fl l0.nodes i = some true ∧
      (∀ j ∈ A ++ B, get_element l0 j = get_element l j) ∧
      to_list l0 = .ok (vals l.nodes A ++ vals l.nodes B) ∧
      to_list_rev l0 = .ok (vals l.nodes A ++ vals l.nodes B).reverse := by
  obtain ⟨l0, hres, hsh0, hfree, hsz, hcap, hlin, hfl, hv⟩ := erase_core_shape h.1 hd0
  have hi0 : i ≠ 0 := fun e => h.1.zero_not_mem (by rw [hd0, e]; simp)
  have hne : ∀ x ∈ A ++ B, x ≠ i := by
    intro x hx e
    subst e
    have hnd := h.1.nodup
    rw [hd0] at hnd
    have h2 : (A ++ x :: B).Nodup := by
      have h3 : (0 :: (A ++ x :: B) ++ fr).Nodup := by simpa using hnd
      exact (List.nodup_cons.mp (List.nodup_append.mp h3).1).2
    rw [List.nodup_append] at h2
    simp at hx
    rcases hx with hx | hx
    · exact h2.2.2 hx (List.mem_cons_self _ _)
    · have := h2.2.1; simp at this; exact this.1 hx
  have hvals : vals l0.nodes (A ++ B) = vals l.nodes A ++ vals l.nodes B := by
    rw [← vals_append]
    refine vals_congr ?_
    intro x hx
    rw [hv, if_neg (hne x hx)]
  refine ⟨l0, hres, hsh0.wf (by rw [hfree]; exact hi0), ?_, hfree, hsz, hcap, hlin, hfl, ?_, ?_, ?_⟩
  · simp only [erase_element, hi0, if_false, hres, Res.bind_ok]
  · intro j hj
    rw [hsh0.get_eq hj, h.1.get_eq (by rw [hd0]; simp at hj ⊢; tauto), hv, if_neg (hne j hj)]
  · rw [hsh0.to_list_eq, hvals]
  · rw [hsh0.to_list_rev_eq, hvals]

/-! ## Valid iterators -/

theorem Shape.active_mem {l : compact_list} {act fr : List Nat} (h : Shape l act fr)
    {i : Nat} (hi : is_active l i) : i ∈ act := by
  have hlt : i < l.capacity := by rw [← h.1]; exact fl_lt hi.2
  have hm := h.cover hlt
  simp only [List.mem_cons, List.mem_append] at hm
  rcases hm with h0 | h1 | h2
  · exact absurd h0 hi.1
  · exact h1
  · have := h.2.2.2.2.2.1 i h2
    rw [hi.2] at this
    simp at this

theorem Shape.mem_active {l : compact_list} {act fr : List Nat} (h : Shape l act fr)
    {i : Nat} (hi : i ∈ act) : is_active l i :=
  ⟨(h.act_ok i hi).1, h.2.2.2.2.1 i (List.mem_cons_of_mem _ hi)⟩

theorem split_of_valid {l : compact_list} {act fr : List Nat} (h : Shape l act fr)
    {i : Nat} (hi : i = 0 ∨ is_active l i) : ∃ L R, 0 :: act = L ++ i :: R := by
  rcases hi with rfl | hi
  · exact ⟨[], act, rfl⟩
  · obtain ⟨A, B, hAB⟩ := List.append_of_mem (h.active_mem hi)
    exact ⟨0 :: A, B, by rw [hAB]; rfl⟩

theorem split_of_valid_rev {l : compact_list} {act fr : List Nat} (h : Shape l act fr)
    {i : Nat} (hi : i = 0 ∨ is_active l i) : ∃ A B, act ++ [0] = A ++ i :: B := by
  rcases hi with rfl | hi
  · exact ⟨act, [], rfl⟩
  · obtain ⟨A, B, hAB⟩ := List.append_of_mem (h.active_mem hi)
    exact ⟨A, B ++ [0], by rw [hAB]; simp⟩

/-! ## Growth on insertion -/

/-- The growth step of `insert_after` at `C`: `l0` is the list after the
splice alone, `l1` the list returned. -/
theorem insert_after_growth {l : compact_list} {act fr : List Nat} (h : WF l act fr)
    {L R : List Nat} {C : Nat} (hd0 : 0 :: act = L ++ C :: R) (v : element_t) :
    ∃ l0 l1, insert_after_core l C v = .ok (l0, l.free) ∧
      insert_after l C v = .ok (l1, l.free) ∧
      (l.size + 2 = l.capacity →
        l1.capacity = 2 * l.capacity ∧ l1.free = l.capacity ∧
        free_indices l1 = .ok (List.range' l.capacity l.capacity) ∧
        (∀ j, j < l.capacity → l1.nodes[j]? = l0.nodes[j]?) ∧
        indices l1 = indices l0 ∧ to_list l1 = to_list l0 ∧
        (∀ j ∈ act, get_element l1 j = get_element l j) ∧
        get_element l1 l.free = .ok v) ∧
      (l.size + 2 ≠ l.capacity → l1.capacity = l.capacity ∧ l1.free ≠ 0) := by
  obtain ⟨l0, l1, fr0, fr1, hcore, hres, hfr, hsh0, hsh1, hfree1, hcap0, hsz0, hsz1, hlin1, hlin0,
    hold, hne, hnil, hv0, hn0, hp0⟩ := insert_after_shape h.1 h.2.1 hd0 v
  obtain ⟨l1', hres', -, hget, -, -, -, holdv, -, -⟩ := insert_after_values h hd0 v
  rw [hres] at hres'
  have e := ok_inj hres'
  simp only [Prod.mk.injEq, and_true] at e
  subst e
  have hcount := h.1.count
  rw [hfr] at hcount
  simp only [List.length_cons] at hcount
  refine ⟨l0, l1, hcore, hres, ?_, ?_⟩
  · intro hfull
    have hfr0 : fr0 = [] := List.eq_nil_of_length_eq_zero (by omega)
    obtain ⟨h1, h2, h3⟩ := hnil hfr0
    refine ⟨h1, h2, ?_, hold, ?_, ?_, holdv, hget⟩
    · rw [hsh1.free_indices_eq, h3]
    · rw [hsh1.indices_eq, hsh0.indices_eq]
    · rw [hsh1.to_list_eq, hsh0.to_list_eq]
      congr 1
      refine vals_congr ?_
      intro x hx
      refine vl_of_get (hold x ?_)
      have := hsh0.lt (x := x) (by simp [hx])
      rw [hsh0.1, hcap0] at this
      exact this
  · intro hnf
    have hfr0 : fr0 ≠ [] := by
      intro e
      rw [e] at hcount
      simp only [List.length_nil] at hcount
      omega
    obtain ⟨h1, -⟩ := hne hfr0
    rw [h1]
    exact ⟨hcap0, by rw [← h1]; exact hfree1⟩

theorem insert_before_eq_after {l : compact_list} {act fr : List Nat} (h : WF l act fr)
    {A B : List Nat} {C : Nat} (hd0 : act ++ [0] = A ++ C :: B) (v : element_t) :
    insert_before_core l C v = insert_after_core l (lst A 0) v ∧
      insert_before l C v = insert_after l (lst A 0) v := by
  obtain ⟨L, R, hsp, hhd, -, -⟩ := split_conv hd0
  have hpv := seg_prev h.1.2.2.2.1 hd0
  have hnx := seg_next h.1.2.2.2.1 hsp
  rw [hhd] at hnx
  obtain ⟨fr1, hfr⟩ := h.1.free_cons h.2.1
  have hfn : nx l.nodes l.free = some (hd fr1 0) := by
    have hfc := h.1.2.2.2.2.2.2
    rw [hfr] at hfc; exact hfc.2.1
  have hcore := insert_before_core_eq v hpv hnx hfn
  exact ⟨hcore, by simp only [insert_before, insert_after, hcore]⟩

/-- C6: an insertion into a well-formed list that uses up the last free slot
(`size + 2 = capacity` before the call) doubles the capacity, makes the new
indices `capacity .. 2 * capacity - 1` the free chain in index order, and
leaves every node of the old arena, the element order and the values as the
splice alone (`insert_after_core`, `insert_before_core`) produced them; any
other insertion leaves the capacity unchanged and the free chain non-empty. -/
theorem growth_preserves_data (l : compact_list) (act fr : List Nat) (i : list_iterator)
    (v : element_t) (hwf : WF l act fr) (hi : i = 0 ∨ is_active l i) :
    (∃ l0 l1 a, insert_after_core l i v = .ok (l0, a) ∧ insert_after l i v = .ok (l1, a) ∧
      (l.size + 2 = l.capacity →
        l1.capacity = 2 * l.capacity ∧ l1.free = l.capacity ∧
        free_indices l1 = .ok (List.range' l.capacity l.capacity) ∧
        (∀ j, j < l.capacity → l1.nodes[j]? = l0.nodes[j]?) ∧
        indices l1 = indices l0 ∧ to_list l1 = to_list l0 ∧
        (∀ j ∈ act, get_element l1 j = get_element l j) ∧ get_element l1 a = .ok v) ∧
      (l.size + 2 ≠ l.capacity → l1.capacity = l.capacity ∧ l1.free ≠ 0)) ∧
    (∃ l0 l1 a, insert_before_core l i v = .ok (l0, a) ∧ insert_before l i v = .ok (l1, a) ∧
      (l.size + 2 = l.capacity →
        l1.capacity = 2 * l.capacity ∧ l1.free = l.capacity ∧
        free_indices l1 = .ok (List.range' l.capacity l.capacity) ∧
        (∀ j, j < l.capacity → l1.nodes[j]? = l0.nodes[j]?) ∧
        indices l1 = indices l0 ∧ to_list l1 = to_list l0 ∧
        (∀ j ∈ act, get_element l1 j = get_element l j) ∧ get_element l1 a = .ok v) ∧
      (l.size + 2 ≠ l.capacity → l1.capacity = l.capacity ∧ l1.free ≠ 0)) := by
  constructor
  · obtain ⟨L, R, hd0⟩ := split_of_valid hwf.1 hi
    obtain ⟨l0, l1, h1, h2, h3, h4⟩ := insert_after_growth hwf hd0 v
    exact ⟨l0, l1, l.free, h1, h2, h3, h4⟩
  · obtain ⟨A, B, hd0⟩ := split_of_valid_rev hwf.1 hi
    obtain ⟨L, R, hsp, -⟩ := split_conv hd0
    obtain ⟨e1, e2⟩ := insert_before_eq_after hwf hd0 v
    obtain ⟨l0, l1, h1, h2, h3, h4⟩ := insert_after_growth hwf hsp v
    exact ⟨l0, l1, l.free, by rw [e1]; exact h1, by rw [e2]; exact h2, h3, h4⟩

theorem sample14_eq :
    exec list_ctor (List.replicate 14 (Op.push_back 7)) = .ok sample14 := by decide

/-- Witness for C6: the fifteenth `push_back` doubles the capacity. -/
theorem growth_preserves_data_witness :
    WF sample14 (List.range' 1 14) [15] ∧
      ∃ l1 a, insert_after sample14 14 9 = .ok (l1, a) ∧ l1.capacity = 32 ∧
        free_indices l1 = .ok (List.range' 16 16) ∧ get_element l1 a = .ok 9 := by
  refine ⟨by decide, ?_⟩
  obtain ⟨⟨l0, l1, a, -, h2, h3, -⟩, -⟩ :=
    growth_preserves_data sample14 (List.range' 1 14) [15] 14 9 (by decide)
      (Or.inr (by decide))
  obtain ⟨h4, -, h5, -, -, -, -, h6⟩ := h3 rfl
  exact ⟨l1, a, h2, h4, h5, h6⟩

/-! ## Reuse of the erased slot -/

/-- C7: when `erase_element l i` of an active index `i` of a well-formed list
does not resize (the shrink check after the body returns early), the list
returned is the one after the body, and the next insertion, whatever the
operation and the valid position, returns `i`. -/
theorem lifo_reuse (l : compact_list) (act fr : List Nat) (i : list_iterator)
    (hwf : WF l act fr) (hi : is_active l i) (l0 : compact_list)
    (he : erase_core l i = .ok l0) (hns : shrink_size l0 = .ok none) :
    erase_element l i = .ok l0 ∧
    (∀ j v, j = 0 ∨ is_active l0 j → ∃ l2, insert_after l0 j v = .ok (l2, i)) ∧
    (∀ j v, j = 0 ∨ is_active l0 j → ∃ l2, insert_before l0 j v = .ok (l2, i)) ∧
    (∀ v, ∃ l2, push_back l0 v = .ok (l2, i)) ∧
    (∀ v, ∃ l2, push_front l0 v = .ok (l2, i)) := by
  obtain ⟨A, B, hAB⟩ := List.append_of_mem (hwf.1.active_mem hi)
  obtain ⟨l0', hres, hwf0, hee, hfree, -⟩ := erase_element_values hwf hAB
  rw [he] at hres
  have e := ok_inj hres
  subst e
  refine ⟨by rw [hee, try_shrink_list_id hns], ?_, ?_, ?_, ?_⟩
  · intro j v hj
    obtain ⟨L, R, hd0⟩ := split_of_valid hwf0.1 hj
    obtain ⟨l2, h2, -⟩ := insert_after_values hwf0 hd0 v
    exact ⟨l2, by rw [h2, hfree]⟩
  · intro j v hj
    obtain ⟨A2, B2, hd0⟩ := split_of_valid_rev hwf0.1 hj
    obtain ⟨l2, R, -, h2, -⟩ := insert_before_values hwf0 hd0 v
    exact ⟨l2, by rw [h2, hfree]⟩
  · intro v
    obtain ⟨L2, hL2⟩ := lst_split (A ++ B) 0
    obtain ⟨l2, h2, -⟩ := insert_after_values hwf0 hL2 v
    exact ⟨l2, by simp only [push_back, hwf0.1.end_eq, Res.bind_ok, h2, hfree]⟩
  · intro v
    have hd2 : ∃ B2, (A ++ B) ++ [0] = [] ++ hd (A ++ B) 0 :: B2 := by
      cases (A ++ B) with
      | nil => exact ⟨[], rfl⟩
      | cons x X => exact ⟨X ++ [0], by simp [hd]⟩
    obtain ⟨B2, hd2⟩ := hd2
    obtain ⟨l2, R, -, h2, -⟩ := insert_before_values hwf0 hd2 v
    exact ⟨l2, by simp only [push_front, hwf0.1.begin_eq, Res.bind_ok, h2, hfree]⟩

/-- Witness for C7: erasing index 2 of the list 10, 20, 30 and pushing 40. -/
theorem lifo_reuse_witness :
    WF sample3 [1, 2, 3] (List.range' 4 12) ∧ is_active sample3 2 ∧
      ∃ l0, erase_element sample3 2 = .ok l0 ∧ ∃ l2, push_back l0 40 = .ok (l2, 2) := by
  refine ⟨by decide, by decide, ?_⟩
  have hc : ∃ l0, erase_core sample3 2 = .ok l0 ∧ shrink_size l0 = .ok none :=
    ⟨_, rfl, by decide⟩
  obtain ⟨l0, h1, h2⟩ := hc
  obtain ⟨h3, -, -, h4, -⟩ :=
    lifo_reuse sample3 [1, 2, 3] (List.range' 4 12) 2 (by decide) (by decide) l0 h1 h2
  exact ⟨l0, h3, h4 40⟩

/-! ## Lists reachable by insertions and erasures -/

theorem seg_prev_index {N : List node} : ∀ {X : List Nat} {p q : Nat}, seg N p X q →
    ∀ (k x : Nat), X[k]? = some x → pv N x = (p :: X)[k]?
  | [], _, _, _, k, x, hk => by simp at hk
  | y :: Y, p, q, h, 0, x, hk => by
    simp at hk
    subst hk
    exact h.2.1
  | y :: Y, p, q, h, k + 1, x, hk => by
    have hk2 : Y[k]? = some x := by simpa using hk
    have := seg_prev_index h.2.2 k x hk2
    simpa using this

theorem InvIE_ctor : InvIE list_ctor :=
  ⟨[], List.range' 1 15, by decide, fun _ => rfl⟩

theorem insert_after_inv {l : compact_list} {act fr : List Nat} (h : WF l act fr)
    (hlin : l.is_linear = true → act = []) {L R : List Nat} {C : Nat}
    (hd0 : 0 :: act = L ++ C :: R) (v : element_t) :
    ∃ l1, insert_after l C v = .ok (l1, l.free) ∧ InvIE l1 := by
  obtain ⟨l1, hres, ⟨fr1, hwf1⟩, -, -, -, -, -, -, hl⟩ := insert_after_values h hd0 v
  refine ⟨l1, hres, _, fr1, hwf1, ?_⟩
  intro h1
  exfalso
  rw [hl] at h1
  by_cases hc : C + 1 = l.free ∧ l.free + 1 = hd R 0
  · rw [if_neg (not_not.mpr hc)] at h1
    have hact := hlin h1
    subst hact
    have hR : R = [] := by
      cases L with
      | nil => simp at hd0; exact hd0.2
      | cons y L => simp at hd0
    rw [hR] at hc
    simp only [hd] at hc
    exact absurd hc.2 (Nat.succ_ne_zero _)
  · rw [if_pos hc] at h1
    exact Bool.false_ne_true h1

theorem erase_element_inv {l : compact_list} {act fr : List Nat} (h : WF l act fr)
    (hlin : l.is_linear = true → act = []) {i : Nat} (hi : i ∈ act) :
    ∃ l1, erase_element l i = .ok l1 ∧ InvIE l1 := by
  obtain ⟨A, B, hAB⟩ := List.append_of_mem hi
  obtain ⟨l0, -, hwf0, hee, -, -, -, hl, -⟩ := erase_element_values h hAB
  have hf : l.is_linear = false := by
    cases hb : l.is_linear with
    | false => rfl
    | true =>
      have := hlin hb
      rw [this] at hi
      simp at hi
  have hf0 : l0.is_linear = false := by
    rw [hl, hf]; simp
  refine ⟨l0, by rw [hee, try_shrink_list_id (shrink_size_not_linear hf0)], _, _, hwf0, ?_⟩
  intro h1
  rw [hf0] at h1
  exact absurd h1 Bool.false_ne_true

/-- Every insert or erase operation with a valid iterator runs without fault
on a list satisfying the invariant, and keeps the invariant. -/
theorem step_inv {l : compact_list} (h : InvIE l) (op : Op) (hop : insert_or_erase op)
    (hv : op.valid l) : ∃ l1, op.run l = .ok l1 ∧ InvIE l1 := by
  obtain ⟨act, fr, hwf, hlin⟩ := h
  cases op with
  | insert_after i v =>
    obtain ⟨L, R, hd0⟩ := split_of_valid hwf.1 hv
    obtain ⟨l1, h1, h2⟩ := insert_after_inv hwf hlin hd0 v
    exact ⟨l1, by simp only [Op.run, h1, Res.bind_ok], h2⟩
  | insert_before i v =>
    obtain ⟨A, B, hd0⟩ := split_of_valid_rev hwf.1 hv
    obtain ⟨L, R, hsp, -⟩ := split_conv hd0
    obtain ⟨-, e2⟩ := insert_before_eq_after hwf hd0 v
    obtain ⟨l1, h1, h2⟩ := insert_after_inv hwf hlin hsp v
    exact ⟨l1, by simp only [Op.run, e2, h1, Res.bind_ok], h2⟩
  | push_back v =>
    obtain ⟨L2, hL2⟩ := lst_split act 0
    obtain ⟨l1, h1, h2⟩ := insert_after_inv hwf hlin hL2 v
    exact ⟨l1, by simp only [Op.run, push_back, hwf.1.end_eq, h1, Res.bind_ok], h2⟩
  | push_front v =>
    have hd2 : ∃ B2, act ++ [0] = [] ++ hd act 0 :: B2 := by
      cases act with
      | nil => exact ⟨[], rfl⟩
      | cons x X => exact ⟨X ++ [0], by simp [hd]⟩
    obtain ⟨B2, hd2⟩ := hd2
    obtain ⟨L, R, hsp, -⟩ := split_conv hd2
    obtain ⟨-, e2⟩ := insert_before_eq_after hwf hd2 v
    obtain ⟨l1, h1, h2⟩ := insert_after_inv hwf hlin hsp v
    exact ⟨l1, by simp only [Op.run, push_front, hwf.1.begin_eq, e2, h1, Res.bind_ok], h2⟩
  | erase_element i =>
    rcases hv with rfl | hv
    · exact ⟨l, by simp only [Op.run, erase_element, if_true], act, fr, hwf, hlin⟩
    · exact erase_element_inv hwf hlin (hwf.1.active_mem hv)
  | pop_back =>
    cases act with
    | nil =>
      exact ⟨l, by simp only [Op.run, pop_back, hwf.1.end_eq, lst, Res.bind_ok, erase_element,
        if_true], [], fr, hwf, hlin⟩
    | cons x X =>
      have hm : lst X x ∈ x :: X := lst_mem X x
      obtain ⟨l1, h1, h2⟩ := erase_element_inv hwf hlin hm
      exact ⟨l1, by simp only [Op.run, pop_back, hwf.1.end_eq, lst, Res.bind_ok, h1], h2⟩
  | pop_front =>
    cases act with
    | nil =>
      exact ⟨l, by simp only [Op.run, pop_front, hwf.1.begin_eq, hd, Res.bind_ok, erase_element,
        if_true], [], fr, hwf, hlin⟩
    | cons x X =>
      obtain ⟨l1, h1, h2⟩ := erase_element_inv hwf hlin (List.mem_cons_self x X)
      exact ⟨l1, by simp only [Op.run, pop_front, hwf.1.begin_eq, hd, Res.bind_ok, h1], h2⟩
  | linearize => exact absurd rfl hop

theorem reachable_inv {l : compact_list} (h : Reachable insert_or_erase l) : InvIE l := by
  induction h with
  | ctor => exact InvIE_ctor
  | step op _ hop hv hrun ih =>
    obtain ⟨l1, h1, h2⟩ := step_inv ih op hop hv
    rw [hrun] at h1
    rw [ok_inj h1]
    exact h2

/-- C10: in every list reachable from `list_ctor` by insert and erase
operations with valid iterators, walking `next` from `list_begin` meets
exactly `size` nodes before it returns to `0`, none of them is marked free,
and the `prev` field of each is the node met just before it (the sentinel for
the first one); moreover every further such operation runs without fault. -/
theorem size_matches_chain (l : compact_list) (h : Reachable insert_or_erase l) :
    (∃ act, indices l = .ok act ∧ act.length = l.size ∧
      (∀ x ∈ act, fl l.nodes x = some false) ∧
      (∀ (k x : Nat), act[k]? = some x → pv l.nodes x = (0 :: act)[k]?)) ∧
    (∀ op, insert_or_erase op → op.valid l → ∃ l1, op.run l = .ok l1) := by
  have hinv := reachable_inv h
  refine ⟨?_, fun op hop hv => ?_⟩
  · obtain ⟨act, fr, hwf, -⟩ := hinv
    exact ⟨act, hwf.1.indices_eq, hwf.1.2.1,
      fun x hx => hwf.1.2.2.2.2.1 x (List.mem_cons_of_mem _ hx),
      seg_prev_index hwf.1.2.2.2.1⟩
  · obtain ⟨l1, h1, -⟩ := step_inv hinv op hop hv
    exact ⟨l1, h1⟩

/-- Witness for C10: the list after three `push_back`. -/
theorem size_matches_chain_witness :
    Reachable insert_or_erase sample3 ∧
      ∃ act, indices sample3 = .ok act ∧ act.length = sample3.size := by
  have hr : Reachable insert_or_erase sample3 := by
    have h1 : ∃ l1, (Op.push_back 10).run list_ctor = .ok l1 ∧ ∃ l2,
        (Op.push_back 20).run l1 = .ok l2 ∧ (Op.push_back 30).run l2 = .ok sample3 :=
      ⟨_, rfl, _, rfl, by decide⟩
    obtain ⟨l1, e1, l2, e2, e3⟩ := h1
    have hne : ∀ v, insert_or_erase (Op.push_back v) := fun v => by
      simp [insert_or_erase]
    exact Reachable.step _ (Reachable.step _ (Reachable.step _ Reachable.ctor (hne 10)
      trivial e1) (hne 20) trivial e2) (hne 30) trivial e3
  obtain ⟨⟨act, h1, h2, -⟩, -⟩ := size_matches_chain sample3 hr
  exact ⟨hr, act, h1, h2⟩

/-! ## Linearization: the stamping pass -/

theorem seg_fchain {N : List node} : ∀ {X : List Nat} {p : Nat},
    seg N p X 0 → fchain N (hd X 0) X
  | [], _, _ => rfl
  | x :: X, _, h => by
    refine ⟨rfl, seg_next (L := []) h.2.2 rfl, seg_fchain h.2.2⟩

/-- The first loop of `linearize` along a chain `X`: the node at position `k`
of the chain gets `prev = c + k`, nothing else changes. -/
theorem stamp_chain : ∀ (X : List Nat) (N : List node) (h c F : Nat),
    fchain N h X → 0 ∉ X → X.Nodup → X.length < F →
    ∃ M, stamp N F h c = .ok M ∧ M.length = N.length ∧
      (∀ j, nx M j = nx N j) ∧ (∀ j, fl M j = fl N j) ∧ (∀ j, vl M j = vl N j) ∧
      (∀ (k x : Nat), X[k]? = some x → pv M x = some (c + k)) ∧
      (∀ j, j ∉ X → pv M j = pv N j)
  | [], N, h, c, F, hc, _, _, _ => by
    have : h = 0 := hc
    subst this
    refine ⟨N, by cases F <;> rfl, rfl, fun _ => rfl, fun _ => rfl, fun _ => rfl, ?_,
      fun _ _ => rfl⟩
    intro k x hk
    simp at hk
  | x :: X, N, h, c, 0, _, _, _, hf => by simp at hf
  | x :: X, N, h, c, F + 1, hc, h0, hnd, hf => by
    have hx0 : x ≠ 0 := fun e => h0 (by simp [e])
    obtain ⟨k0, rfl⟩ : ∃ k, x = k + 1 := ⟨x - 1, by omega⟩
    have hh : h = k0 + 1 := hc.1
    subst hh
    have hn := hc.2.1
    obtain ⟨m1, e1, l1, n1, p1, f1, v1⟩ := set_prev_ok (N := N) (i := k0 + 1) c (nx_lt hn)
    have hn1 : nx m1 (k0 + 1) = some (hd X 0) := by rw [n1]; exact hn
    obtain ⟨n, -, hr, hx, -⟩ := rd_ok (nx_lt hn1)
    rw [hx] at hn1
    simp only [Option.some.injEq] at hn1
    have hc1 : fchain m1 (hd X 0) X := fchain_frame hc.2.2 (fun y _ => n1 y)
    rw [List.nodup_cons] at hnd
    obtain ⟨M, e2, l2, n2, f2, v2, p2, q2⟩ := stamp_chain X m1 (hd X 0) (c + 1) F hc1
      (fun e => h0 (List.mem_cons_of_mem _ e)) hnd.2
      (by simp only [List.length_cons] at hf; omega)
    refine ⟨M, ?_, by rw [l2, l1], fun j => by rw [n2, n1], fun j => by rw [f2, f1],
      fun j => by rw [v2, v1], ?_, ?_⟩
    · simp only [stamp, e1, Res.bind_ok, hr, hn1, e2]
    · intro k x hk
      cases k with
      | zero =>
        simp at hk
        subst hk
        rw [q2 _ hnd.1, p1, if_pos rfl]
        rfl
      | succ k =>
        have hk2 : X[k]? = some x := by simpa using hk
        rw [p2 k x hk2]
        congr 1
        omega
    · intro j hj
      simp only [List.mem_cons, not_or] at hj
      rw [q2 j hj.2, p1, if_neg hj.1]

/-! ## Linearization: the placing pass -/

/-- Effect of `memswap` on two distinct nodes of the array. -/
theorem memswap_ok {N : List node} {i p : Nat} (hi : i < N.length) (hp : p < N.length)
    (hne : i ≠ p) :
    ∃ M, memswap N i p = .ok M ∧ M.length = N.length ∧
      ∀ j, M[j]? = if j = p then N[i]? else if j = i then N[p]? else N[j]? := by
  have hgi := List.getElem?_eq_getElem hi
  have hgp := List.getElem?_eq_getElem hp
  refine ⟨(N.set i N[p]).set p N[i], ?_, by simp, ?_⟩
  · simp only [memswap, hgi, hgp, hne, if_false]
  · intro j
    rw [List.getElem?_set, List.getElem?_set]
    by_cases hjp : j = p
    · subst hjp
      rw [if_pos rfl, if_pos rfl, if_pos (by rw [List.length_set]; exact hp), hgi]
    · rw [if_neg (fun e => hjp e.symm), if_neg hjp]
      by_cases hji : j = i
      · subst hji
        rw [if_pos rfl, if_pos rfl, if_pos hi, hgp]
      · rw [if_neg (fun e => hji e.symm), if_neg hji]

theorem countP_le_of_imp {q q2 : Nat → Bool} : ∀ (L : List Nat),
    (∀ r ∈ L, q2 r = true → q r = true) → L.countP q2 ≤ L.countP q
  | [], _ => Nat.le_refl _
  | x :: L, h => by
    have ih := countP_le_of_imp L (fun r hr => h r (List.mem_cons_of_mem _ hr))
    have hx := h x (List.mem_cons_self _ _)
    rw [List.countP_cons, List.countP_cons]
    cases h2 : q2 x with
    | false =>
      cases h1 : q x <;> simp <;> omega
    | true =>
      rw [hx h2]
      simp; exact ih

theorem countP_lt_of_imp {q q2 : Nat → Bool} : ∀ (L : List Nat) (p : Nat),
    (∀ r ∈ L, q2 r = true → q r = true) → p ∈ L → q p = true → q2 p = false →
    L.countP q2 < L.countP q
  | [], _, _, hp, _, _ => by simp at hp
  | x :: L, p, h, hp, h1, h2 => by
    have hle := countP_le_of_imp L (fun r hr => h r (List.mem_cons_of_mem _ hr))
    rw [List.countP_cons, List.countP_cons]
    by_cases hxp : x = p
    · subst hxp
      rw [h1, h2]
      simp; omega
    · have hp2 : p ∈ L := by
        simp only [List.mem_cons] at hp
        rcases hp with e | e
        · exact absurd e.symm hxp
        · exact e
      have ih := countP_lt_of_imp L p (fun r hr => h r (List.mem_cons_of_mem _ hr)) hp2 h1 h2
      have hx := h x (List.mem_cons_self _ _)
      cases hq2 : q2 x with
      | false =>
        cases hq : q x <;> simp <;> omega
      | true =>
        rw [hx hq2]
        simp; exact ih

theorem views_of_get {N M : List node} {j k : Nat} (h : M[j]? = N[k]?) :
    nx M j = nx N k ∧ pv M j = pv N k ∧ fl M j = fl N k ∧ vl M j = vl N k := by
  simp [nx, pv, fl, vl, h]

/-- The `while` loop of `linearize` at index `i` ends within `misplaced + 1`
rounds, keeps the placing invariant, does not increase the number of
misplaced ranks, settles `i` and keeps the indices settled before. -/
theorem place_spec {n cap : Nat} {val : Nat → element_t} (hn : n < cap) :
    ∀ (F : Nat) (M : List node) (pos : Nat → Nat) (i : Nat), 1 ≤ i → i < cap →
    Placing n cap val M pos → misplaced n pos < F →
    (∀ j, 1 ≤ j → j < i → Settled M j) →
    ∃ ms1 pos1, place M F i = .ok ms1 ∧ Placing n cap val ms1 pos1 ∧
      misplaced n pos1 ≤ misplaced n pos ∧ (∀ j, 1 ≤ j → j ≤ i → Settled ms1 j) ∧
      ms1[0]? = M[0]?
  | 0, _, _, _, _, _, _, hm, _ => by omega
  | F + 1, M, pos, i, hi1, hic, hP, hm, hS => by
    obtain ⟨hlen, hb, hc⟩ := hP
    obtain ⟨n0, hg0, hr, -, hpv, hfl, -⟩ := rd_ok (N := M) (i := i) (by rw [hlen]; exact hic)
    by_cases hcond : n0.is_free = false ∧ n0.prev ≠ i
    · -- a swap
      have hex : ∃ r, 1 ≤ r ∧ r ≤ n ∧ pos r = i := by
        by_contra hno
        have := hc i hi1 hic (fun r h1 h2 e => hno ⟨r, h1, h2, e⟩)
        rw [hfl, hcond.1] at this
        simp at this
      obtain ⟨p, hp1, hpn, hpi⟩ := hex
      have hbp := hb p hp1 hpn
      rw [hpi] at hbp
      have hprev : n0.prev = p := by
        have := hbp.2.2.2.1
        rw [hpv] at this
        exact Option.some.inj this
      have hne : i ≠ p := fun e => hcond.2 (by rw [hprev]; exact e.symm)
      have hpc : p < cap := by omega
      obtain ⟨ms1, e1, l1, g1⟩ := memswap_ok (N := M) (i := i) (p := p)
        (by rw [hlen]; exact hic) (by rw [hlen]; exact hpc) hne
      have hgp : ms1[p]? = M[i]? := by rw [g1, if_pos rfl]
      have hgi : ms1[i]? = M[p]? := by rw [g1, if_neg hne, if_pos rfl]
      have hgo : ∀ j, j ≠ p → j ≠ i → ms1[j]? = M[j]? := fun j h1 h2 => by
        rw [g1, if_neg h1, if_neg h2]
      have hinj : ∀ r, 1 ≤ r → r ≤ n → pos r = i → r = p := by
        intro r h1 h2 e
        have := (hb r h1 h2).2.2.2.1
        rw [e, hbp.2.2.2.1] at this
        exact (Option.some.inj this).symm
      let pos1 : Nat → Nat := fun r => if r = p then p else if pos r = p then i else pos r
      have hP1 : Placing n cap val ms1 pos1 := by
        refine ⟨by rw [l1, hlen], ?_, ?_⟩
        · intro r h1 h2
          by_cases hrp : r = p
          · subst hrp
            have e : pos1 r = r := if_pos rfl
            rw [e]
            obtain ⟨v1, v2, v3, v4⟩ := views_of_get hgp
            exact ⟨hp1, hpc, by rw [v3]; exact hbp.2.2.1, by rw [v2]; exact hbp.2.2.2.1,
              by rw [v4]; exact hbp.2.2.2.2⟩
          · by_cases hrq : pos r = p
            · have e : pos1 r = i := by
                show (if r = p then p else if pos r = p then i else pos r) = i
                rw [if_neg hrp, if_pos hrq]
              rw [e]
              obtain ⟨v1, v2, v3, v4⟩ := views_of_get hgi
              have hbr := hb r h1 h2
              rw [hrq] at hbr
              exact ⟨hi1, hic, by rw [v3]; exact hbr.2.2.1, by rw [v2]; exact hbr.2.2.2.1,
                by rw [v4]; exact hbr.2.2.2.2⟩
            · have e : pos1 r = pos r := by
                show (if r = p then p else if pos r = p then i else pos r) = pos r
                rw [if_neg hrp, if_neg hrq]
              rw [e]
              have hri : pos r ≠ i := fun e2 => hrp (hinj r h1 h2 e2)
              obtain ⟨v1, v2, v3, v4⟩ := views_of_get (hgo (pos r) hrq hri)
              have hbr := hb r h1 h2
              exact ⟨hbr.1, hbr.2.1, by rw [v3]; exact hbr.2.2.1, by rw [v2]; exact hbr.2.2.2.1,
                by rw [v4]; exact hbr.2.2.2.2⟩
        · intro j hj1 hjc hno
          have hjp : j ≠ p := fun e => hno p hp1 hpn (by
            show (if p = p then p else if pos p = p then i else pos p) = j
            rw [if_pos rfl]; exact e.symm)
          by_cases hji : j = i
          · subst hji
            rw [(views_of_get hgi).2.2.1]
            refine hc p hp1 hpc ?_
            intro r h1 h2 e
            have hrp : r ≠ p := by
              intro e2
              rw [e2, hpi] at e
              exact hne e
            refine hno r h1 h2 ?_
            show (if r = p then p else if pos r = p then j else pos r) = j
            rw [if_neg hrp, if_pos e]
          · rw [(views_of_get (hgo j hjp hji)).2.2.1]
            refine hc j hj1 hjc ?_
            intro r h1 h2 e
            by_cases hrp : r = p
            · rw [hrp, hpi] at e
              exact hji e.symm
            · refine hno r h1 h2 ?_
              show (if r = p then p else if pos r = p then i else pos r) = j
              rw [if_neg hrp, if_neg (by rw [e]; exact hjp), e]
      have hm1 : misplaced n pos1 < misplaced n pos := by
        refine countP_lt_of_imp (List.range' 1 n) p ?_ ?_ ?_ ?_
        · intro r _ h2
          simp only [decide_eq_true_eq] at h2 ⊢
          by_cases hrp : r = p
          · exfalso; apply h2
            show (if r = p then p else if pos r = p then i else pos r) = r
            rw [if_pos hrp, hrp]
          · by_cases hrq : pos r = p
            · rw [hrq]; exact fun e => hrp e.symm
            · have e : pos1 r = pos r := by
                show (if r = p then p else if pos r = p then i else pos r) = pos r
                rw [if_neg hrp, if_neg hrq]
              rw [← e]; exact h2
        · rw [List.mem_range'_1]; omega
        · simp only [decide_eq_true_eq]
          rw [hpi]; exact hne
        · simp only [decide_eq_false_iff_not, not_not]
          show (if p = p then p else if pos p = p then i else pos p) = p
          rw [if_pos rfl]
      have hS1 : ∀ j, 1 ≤ j → j < i → Settled ms1 j := by
        intro j hj1 hji
        by_cases hjp : j = p
        · subst hjp
          right
          rw [(views_of_get hgp).2.1]
          exact hbp.2.2.2.1
        · have hv := views_of_get (hgo j hjp (by omega))
          rcases hS j hj1 hji with h1 | h1
          · left; rw [hv.2.2.1]; exact h1
          · right; rw [hv.2.1]; exact h1
      obtain ⟨ms2, pos2, e2, hP2, hm2, hS2, hz2⟩ :=
        place_spec hn F ms1 pos1 i hi1 hic hP1 (by omega) hS1
      refine ⟨ms2, pos2, ?_, hP2, by omega, hS2, ?_⟩
      · have hc2 : n0.is_free = false ∧ n0.prev ≠ i := hcond
        simp only [place, hr, Res.bind_ok, hc2, and_self, if_true, hprev, e1, e2,
          ne_eq, not_false_eq_true]
        rw [hprev] at hc2
        simp only [hc2, ne_eq, not_false_eq_true, and_self, if_true, e1, Res.bind_ok, e2]
      · rw [hz2]
        exact hgo 0 (by omega) (by omega)
    · -- the loop ends
      refine ⟨M, pos, ?_, ⟨hlen, hb, hc⟩, Nat.le_refl _, ?_, rfl⟩
      · simp only [place, hr, Res.bind_ok, hcond, if_false]
      · intro j hj1 hji
        by_cases hjeq : j = i
        · subst hjeq
          cases hf : n0.is_free with
          | true => left; rw [hfl, hf]
          | false =>
            right
            rw [hpv]
            congr 1
            by_contra hx
            exact hcond ⟨hf, hx⟩
        · exact hS j hj1 (by omega)

theorem misplaced_le (n : Nat) (pos : Nat → Nat) : misplaced n pos ≤ n := by
  have := List.countP_le_length (fun r => decide (pos r ≠ r)) (l := List.range' 1 n)
  rw [List.length_range'] at this
  exact this

/-- The second loop of `linearize`: every index from 1 on gets settled. -/
theorem place_all {n cap : Nat} {val : Nat → element_t} (hn : n < cap) :
    ∀ (cnt i : Nat) (M : List node) (pos : Nat → Nat), 1 ≤ i → i + cnt = cap →
    Placing n cap val M pos → (∀ j, 1 ≤ j → j < i → Settled M j) →
    ∃ ms1 pos1, for_range (fun i N => place N (N.length + 1) i) i cnt M = .ok ms1 ∧
      Placing n cap val ms1 pos1 ∧ (∀ j, 1 ≤ j → j < cap → Settled ms1 j) ∧
      ms1[0]? = M[0]?
  | 0, i, M, pos, _, hic, hP, hS =>
    ⟨M, pos, rfl, hP, fun j h1 h2 => hS j h1 (by omega), rfl⟩
  | cnt + 1, i, M, pos, hi1, hic, hP, hS => by
    have hm := misplaced_le n pos
    obtain ⟨ms1, pos1, e1, hP1, -, hS1, hz1⟩ :=
      place_spec hn (M.length + 1) M pos i hi1 (by omega) hP (by rw [hP.1]; omega) hS
    obtain ⟨ms2, pos2, e2, hP2, hS2, hz2⟩ :=
      place_all hn cnt (i + 1) ms1 pos1 (by omega) (by omega) hP1
        (fun j h1 h2 => hS1 j h1 (by omega))
    exact ⟨ms2, pos2, by simp only [for_range, e1, Res.bind_ok, e2], hP2, hS2, by rw [hz2, hz1]⟩

/-- Once every index is settled, the node of rank `r` is at index `r`. -/
theorem placing_settled {n cap : Nat} {val : Nat → element_t} {M : List node}
    {pos : Nat → Nat} (hP : Placing n cap val M pos)
    (hS : ∀ j, 1 ≤ j → j < cap → Settled M j) :
    (∀ r, 1 ≤ r → r ≤ n → fl M r = some false ∧ vl M r = some (val r)) ∧
    (∀ j, n < j → j < cap → fl M j = some true) := by
  obtain ⟨hlen, hb, hc⟩ := hP
  have hpos : ∀ r, 1 ≤ r → r ≤ n → pos r = r := by
    intro r h1 h2
    obtain ⟨b1, b2, b3, b4, -⟩ := hb r h1 h2
    rcases hS (pos r) b1 b2 with h | h
    · rw [b3] at h; simp at h
    · rw [b4] at h; exact (Option.some.inj h).symm
  refine ⟨?_, ?_⟩
  · intro r h1 h2
    obtain ⟨-, -, b3, -, b5⟩ := hb r h1 h2
    rw [hpos r h1 h2] at b3 b5
    exact ⟨b3, b5⟩
  · intro j h1 h2
    refine hc j (by omega) h2 ?_
    intro r r1 r2 e
    rw [hpos r r1 r2] at e
    omega

/-! ## Linearization: rebuilding the links -/

/-- The last loop of `linearize`: flags and values stay, the links of the
indices visited are rebuilt from the flags. -/
theorem relink_all (n cap : Nat) : ∀ (cnt i : Nat) (M : List node), i + cnt ≤ M.length →
    ∃ ms1, for_range (relink n cap) i cnt M = .ok ms1 ∧ ms1.length = M.length ∧
      (∀ j, fl ms1 j = fl M j) ∧ (∀ j, vl ms1 j = vl M j) ∧
      (∀ j, i ≤ j → j < i + cnt →
        nx ms1 j = some (if fl M j = some true then (j + 1) % cap else (j + 1) % (n + 1)) ∧
        pv ms1 j = some (if fl M j = some true then 0 else j - 1)) ∧
      (∀ j, ¬ (i ≤ j ∧ j < i + cnt) → nx ms1 j = nx M j ∧ pv ms1 j = pv M j)
  | 0, i, M, _ =>
    ⟨M, rfl, rfl, fun _ => rfl, fun _ => rfl, fun j h1 h2 => by omega, fun _ _ => ⟨rfl, rfl⟩⟩
  | cnt + 1, i, M, h => by
    have hi : i < M.length := by omega
    obtain ⟨n0, -, hr, -, -, hfl, -⟩ := rd_ok hi
    have hstep : ∃ ms1, relink n cap i M = .ok ms1 ∧ ms1.length = M.length ∧
        (∀ j, fl ms1 j = fl M j) ∧ (∀ j, vl ms1 j = vl M j) ∧
        (∀ j, nx ms1 j = if j = i then
            some (if fl M i = some true then (i + 1) % cap else (i + 1) % (n + 1))
          else nx M j) ∧
        (∀ j, pv ms1 j = if j = i then some (if fl M i = some true then 0 else i - 1)
          else pv M j) := by
      cases hf : n0.is_free with
      | true =>
        obtain ⟨m1, e1, l1, n1, p1, f1, v1⟩ := set_next_ok (N := M) (i := i) ((i + 1) % cap) hi
        obtain ⟨m2, e2, l2, n2, p2, f2, v2⟩ := set_prev_ok (N := m1) (i := i) 0
          (by rw [l1]; exact hi)
        have hft : fl M i = some true := by rw [hfl, hf]
        refine ⟨m2, ?_, by rw [l2, l1], fun j => by rw [f2, f1], fun j => by rw [v2, v1],
          fun j => ?_, fun j => ?_⟩
        · simp only [relink, hr, Res.bind_ok, hf, if_true, e1, e2]
        · rw [n2, n1, if_pos hft]
        · rw [p2, p1, if_pos hft]
      | false =>
        obtain ⟨m1, e1, l1, n1, p1, f1, v1⟩ := set_next_ok (N := M) (i := i)
          ((i + 1) % (n + 1)) hi
        obtain ⟨m2, e2, l2, n2, p2, f2, v2⟩ := set_prev_ok (N := m1) (i := i) (i - 1)
          (by rw [l1]; exact hi)
        have hft : ¬ fl M i = some true := by rw [hfl, hf]; simp
        refine ⟨m2, ?_, by rw [l2, l1], fun j => by rw [f2, f1], fun j => by rw [v2, v1],
          fun j => ?_, fun j => ?_⟩
        · simp only [relink, hr, Res.bind_ok, hf, if_false, e1, e2, Bool.false_eq_true]
        · rw [n2, n1, if_neg hft]
        · rw [p2, p1, if_neg hft]
    obtain ⟨ms1, e1, l1, f1, v1, n1, p1⟩ := hstep
    obtain ⟨ms2, e2, l2, f2, v2, a2, b2⟩ := relink_all n cap cnt (i + 1) ms1 (by rw [l1]; omega)
    refine ⟨ms2, by simp only [for_range, e1, Res.bind_ok, e2], by rw [l2, l1],
      fun j => by rw [f2, f1], fun j => by rw [v2, v1], ?_, ?_⟩
    · intro j h1 h2
      by_cases hj : j = i
      · subst hj
        obtain ⟨c1, c2⟩ := b2 j (by omega)
        rw [c1, c2, n1, p1, if_pos rfl, if_pos rfl]
        exact ⟨rfl, rfl⟩
      · obtain ⟨c1, c2⟩ := a2 j (by omega) (by omega)
        rw [c1, c2, f1]
        exact ⟨rfl, rfl⟩
    · intro j hj
      obtain ⟨c1, c2⟩ := b2 j (by omega)
      have hji : j ≠ i := by omega
      rw [c1, c2, n1, p1, if_neg hji, if_neg hji]
      exact ⟨rfl, rfl⟩

theorem seg_range {M : List node} {n : Nat}
    (hnx : ∀ j, j ≤ n → nx M j = some ((j + 1) % (n + 1)))
    (hpv : ∀ j, 1 ≤ j → j ≤ n → pv M j = some (j - 1)) (hp0 : pv M 0 = some n) :
    ∀ (cnt p : Nat), p + cnt = n → seg M p (List.range' (p + 1) cnt) 0
  | 0, p, h => by
    have hpn : p = n := by omega
    subst hpn
    refine ⟨?_, hp0⟩
    rw [hnx p (Nat.le_refl _), Nat.mod_self]
  | cnt + 1, p, h => by
    have ih := seg_range hnx hpv hp0 cnt (p + 1) (by omega)
    refine ⟨?_, ?_, ih⟩
    · rw [hnx p (by omega), Nat.mod_eq_of_lt (by omega)]
    · rw [hpv (p + 1) (by omega) (by omega)]
      rfl

theorem getElem?_getD_of_lt {X : List Nat} {k : Nat} (h : k < X.length) :
    X[k]? = some (X.getD k 0) := by
  rw [List.getD_eq_getElem?_getD, List.getElem?_eq_getElem h]
  rfl

/-- Result of the body of `linearize` on a non-empty well-formed list: the
elements sit at the indices `1 .. size` in list order, the other nodes form
the free chain in index order. -/
theorem linearize_core_spec {l : compact_list} {act fr : List Nat} (h : WF l act fr)
    (hne : act ≠ []) :
    ∃ l1, linearize_core l = .ok l1 ∧
      Shape l1 (List.range' 1 l.size) (List.range' (l.size + 1) (l.capacity - l.size - 1)) ∧
      l1.free = l.size + 1 ∧ l1.size = l.size ∧ l1.capacity = l.capacity ∧
      l1.is_linear = true ∧ vals l1.nodes (List.range' 1 l.size) = vals l.nodes act := by
  obtain ⟨hsh, hfree, hcap2⟩ := h
  have hnd := hsh.nodup
  have hact_ok := hsh.act_ok
  have hcover := fun x hx => hsh.cover (x := x) hx
  have hbeg := hsh.begin_eq
  have h0 := hsh.zero_not_mem
  obtain ⟨hlen, hsz, hperm, hseg, hact, hfl, hfc⟩ := hsh
  have hn1 : 1 ≤ l.size := by
    rw [← hsz]
    cases act with
    | nil => exact absurd rfl hne
    | cons x X => simp
  have hnd_act : act.Nodup := by
    have h3 : (0 :: act ++ fr).Nodup := by simpa using hnd
    exact (List.nodup_cons.mp (List.nodup_append.mp h3).1).2
  -- the stamping pass
  obtain ⟨ms0, e0, l0, n0, f0, v0, p0, -⟩ := stamp_chain act l.nodes (hd act 0) 1
    (l.nodes.length + 1) (seg_fchain hseg) (fun e => h0 (by simp [e])) hnd_act
    (by have h1 := hsz; have h2 := hlen; omega)
  -- the placing pass
  have hP0 : Placing l.size l.capacity
      (fun r => (vl l.nodes (act.getD (r - 1) 0)).getD POISON) ms0
      (fun r => act.getD (r - 1) 0) := by
    refine ⟨by rw [l0, hlen], ?_, ?_⟩
    · intro r h1 h2
      have hk : r - 1 < act.length := by rw [hsz]; omega
      have hg := getElem?_getD_of_lt hk
      have hm : act.getD (r - 1) 0 ∈ act := List.getElem?_mem hg
      obtain ⟨hx0, hxl⟩ := hact_ok _ hm
      obtain ⟨nd, -, -, -, -, -, hv⟩ := rd_ok hxl
      refine ⟨Nat.pos_of_ne_zero hx0, by rw [← hlen]; exact hxl, ?_, ?_, ?_⟩
      · rw [f0]; exact hact _ (List.mem_cons_of_mem _ hm)
      · rw [p0 (r - 1) _ hg]; congr 1; omega
      · rw [v0]
        show _ = some ((vl l.nodes (act.getD (r - 1) 0)).getD POISON)
        rw [hv]; rfl
    · intro j h1 h2 hno
      rw [f0]
      apply hfl
      have hm := hcover j h2
      simp only [List.mem_cons, List.mem_append] at hm
      rcases hm with e | e | e
      · omega
      · exfalso
        obtain ⟨k, hk, hkj⟩ := List.getElem_of_mem e
        refine hno (k + 1) (by omega) (by rw [← hsz]; omega) ?_
        show act.getD (k + 1 - 1) 0 = j
        rw [Nat.add_sub_cancel, List.getD_eq_getElem?_getD, List.getElem?_eq_getElem hk, hkj]
        rfl
      · exact e
  have hnc : l.size < l.capacity := by omega
  obtain ⟨ms2, pos2, e2, hP2, hS2, hz2⟩ := place_all hnc (l.capacity - 1) 1 ms0 _
    (Nat.le_refl _) (by omega) hP0 (fun j h1 h2 => by omega)
  obtain ⟨hA, hF⟩ := placing_settled hP2 hS2
  have hl2 : ms2.length = l.capacity := hP2.1
  -- the links
  obtain ⟨ms3, e3, l3, n3, p3, f3, v3⟩ := set_next_ok (N := ms2) (i := 0) 1 (by omega)
  obtain ⟨ms4, e4, l4, n4, p4, f4, v4⟩ := set_prev_ok (N := ms3) (i := 0) l.size
    (by omega)
  obtain ⟨ms5, e5, l5, f5, v5, a5, b5⟩ := relink_all l.size l.capacity (l.capacity - 1) 1 ms4
    (by omega)
  have hfl5 : ∀ j, fl ms5 j = fl ms2 j := fun j => by rw [f5, f4, f3]
  have hvl5 : ∀ j, vl ms5 j = vl ms2 j := fun j => by rw [v5, v4, v3]
  have hfl0 : fl ms5 0 = some false := by
    rw [hfl5, (views_of_get hz2).2.2.1, f0]
    exact hact 0 (List.mem_cons_self _ _)
  have hnx5 : ∀ j, j ≤ l.size → nx ms5 j = some ((j + 1) % (l.size + 1)) := by
    intro j hj
    by_cases hj0 : j = 0
    · subst hj0
      rw [(b5 0 (by omega)).1, n4, n3, if_pos rfl, Nat.zero_add, Nat.mod_eq_of_lt (by omega)]
    · rw [(a5 j (by omega) (by omega)).1, f4, f3, (hA j (by omega) hj).1]
      simp
  have hpv5 : ∀ j, 1 ≤ j → j ≤ l.size → pv ms5 j = some (j - 1) := by
    intro j h1 h2
    rw [(a5 j h1 (by omega)).2, f4, f3, (hA j h1 h2).1]
    simp
  have hpv0 : pv ms5 0 = some l.size := by
    rw [(b5 0 (by omega)).2, p4, if_pos rfl]
  have hnxf : ∀ j, l.size + 1 ≤ j → j < l.capacity → nx ms5 j = some ((j + 1) % l.capacity) := by
    intro j h1 h2
    rw [(a5 j (by omega) (by omega)).1, f4, f3, hF j (by omega) h2]
    simp
  refine ⟨{ l with nodes := ms5, free := l.size + 1, is_linear := true }, ?_,
    ⟨?_, ?_, ?_, ?_, ?_, ?_, ?_⟩, rfl, rfl, rfl, rfl, ?_⟩
  · simp only [linearize_core, hbeg, Res.bind_ok, e0]
    rw [← hlen] at e2 e5
    simp only [hlen] at e2 e5 ⊢
    simp only [e2, Res.bind_ok, e3, e4, e5]
  · show ms5.length = l.capacity
    omega
  · show (List.range' 1 l.size).length = l.size
    exact List.length_range' _ _ _
  · show (0 :: (List.range' 1 l.size ++ List.range' (l.size + 1) (l.capacity - l.size - 1))).Perm
      (List.range l.capacity)
    have e : 0 :: (List.range' 1 l.size ++ List.range' (l.size + 1) (l.capacity - l.size - 1))
        = List.range l.capacity := by
      have e1 := List.range'_append_1 1 l.size (l.capacity - l.size - 1)
      rw [Nat.add_comm 1 l.size] at e1
      rw [e1, List.range_eq_range']
      have e2 : l.capacity = (l.capacity - l.size - 1 + l.size) + 1 := by omega
      conv => rhs; rw [e2]
      rfl
    rw [e]
  · exact seg_range hnx5 hpv5 hpv0 l.size 0 (by omega)
  · intro x hx
    simp only [List.mem_cons, List.mem_range'_1] at hx
    rcases hx with rfl | hx
    · exact hfl0
    · rw [hfl5]; exact (hA x hx.1 (by omega)).1
  · intro x hx
    simp only [List.mem_range'_1] at hx
    rw [hfl5]; exact hF x (by omega) (by omega)
  · show fchain ms5 (l.size + 1) (List.range' (l.size + 1) (l.capacity - l.size - 1))
    have := fchain_range (M := ms5) (K := l.capacity) (l.capacity - l.size - 1)
      (l.size + 1) (by omega) (by omega) hnxf
    have e : hd (List.range' (l.size + 1) (l.capacity - l.size - 1)) 0 = l.size + 1 := by
      obtain ⟨k, hk⟩ : ∃ k, l.capacity - l.size - 1 = k + 1 :=
        ⟨l.capacity - l.size - 2, by omega⟩
      rw [hk]; rfl
    rwa [e] at this
  · show vals ms5 (List.range' 1 l.size) = vals l.nodes act
    apply List.ext_getElem?
    intro k
    simp only [vals, List.getElem?_map]
    by_cases hk : k < l.size
    · rw [List.getElem?_range' 1 1 hk, getElem?_getD_of_lt (by rw [hsz]; exact hk)]
      simp only [Option.map_some', Nat.one_mul]
      rw [hvl5, (hA (1 + k) (by omega) (by omega)).2]
      simp only [Option.getD_some]
      rw [Nat.add_sub_cancel_left]
    · rw [List.getElem?_eq_none (by rw [List.length_range']; omega),
        List.getElem?_eq_none (by rw [hsz]; omega)]
      rfl

theorem prev_element_of_pv {l : compact_list} {i v : Nat} (h : pv l.nodes i = some v) :
    prev_element l i = .ok v := by
  obtain ⟨n, -, hr, -, hx, -⟩ := rd_ok (pv_lt h)
  rw [hx] at h
  simp only [Option.some.injEq] at h
  simp only [prev_element, hr, Res.bind_ok, h]

theorem shrink_size_none {l : compact_list}
    (h : l.capacity ≤ 16 ∨ 2 * (l.size + 2) ≤ 16 ∨ 4 * (l.size + 2) > l.capacity) :
    shrink_size l = .ok none := by
  unfold shrink_size
  simp only [default_cap_, growth_coeff_]
  split_ifs <;> first | rfl | (exfalso; omega)

theorem sample_mixed_eq :
    exec list_ctor [Op.push_back 10, Op.push_back 20, Op.push_back 30, Op.erase_element 2,
      Op.push_back 40] = .ok sample_mixed := by decide

/-- C5: on a well-formed, non-empty list with `is_linear` false for which the
shrink check after linearization returns early (`capacity <= 16`, or
`2 * (size + 2) <= 16`, or `4 * (size + 2) > capacity`), `linearize` returns a
list in which index `k + 1` is active and holds entry `k` of the old logical
sequence `s`, walking `next` from `list_begin` meets `1, 2, .., size`,
`prev` of `k + 1` is `k` and `list_end` is `size`, the indices
`size + 1 .. capacity - 1` are marked free and are the free chain in index
order starting at `free = size + 1`, `size` and `capacity` are unchanged and
`is_linear` is true. -/
theorem linearize_postcondition (l : compact_list) (act fr : List Nat) (s : List element_t)
    (hwf : WF l act fr) (hs : to_list l = .ok s) (hne : l.size ≠ 0)
    (hlin : l.is_linear = false)
    (hns : l.capacity ≤ 16 ∨ 2 * (l.size + 2) ≤ 16 ∨ 4 * (l.size + 2) > l.capacity) :
    ∃ l1, linearize l = .ok l1 ∧ s.length = l.size ∧
      (∀ (k : Nat) (v : element_t), s[k]? = some v →
        is_active l1 (k + 1) ∧ get_element l1 (k + 1) = .ok v ∧
        prev_element l1 (k + 1) = .ok k) ∧
      indices l1 = .ok (List.range' 1 l.size) ∧ list_end l1 = .ok l.size ∧
      to_list l1 = .ok s ∧
      (∀ j, l.size < j → j < l.capacity → fl l1.nodes j = some true) ∧
      l1.free = l.size + 1 ∧
      free_indices l1 = .ok (List.range' (l.size + 1) (l.capacity - l.size - 1)) ∧
      l1.size = l.size ∧ l1.capacity = l.capacity ∧ l1.is_linear = true ∧
      WF l1 (List.range' 1 l.size) (List.range' (l.size + 1) (l.capacity - l.size - 1)) := by
  have hsv : s = vals l.nodes act := by
    rw [hwf.1.to_list_eq] at hs; exact (ok_inj hs).symm
  have hact : act ≠ [] := by
    intro e
    have := hwf.1.2.1
    rw [e] at this
    exact hne this.symm
  obtain ⟨l1, hres, hsh, hfree, hsz, hcap, hl1, hvals⟩ := linearize_core_spec hwf hact
  have hshr : shrink_size l1 = .ok none := shrink_size_none (by rw [hsz, hcap]; exact hns)
  have hslen : s.length = l.size := by rw [hsv, vals_length, hwf.1.2.1]
  refine ⟨l1, ?_, hslen, ?_, hsh.indices_eq, ?_, ?_, ?_, hfree, hsh.free_indices_eq, hsz, hcap,
    hl1, hsh.wf (by rw [hfree]; exact Nat.succ_ne_zero _)⟩
  · simp only [linearize, hlin, Bool.false_eq_true, if_false, hres, Res.bind_ok,
      try_shrink_list_id hshr]
  · intro k v hk
    have hkl : k < l.size := by
      rw [← hslen]; exact (List.getElem?_eq_some.mp hk).1
    have hmem : k + 1 ∈ List.range' 1 l.size := by rw [List.mem_range'_1]; omega
    have hv : v = (vl l1.nodes (k + 1)).getD POISON := by
      rw [hsv, ← hvals] at hk
      simp only [vals, List.getElem?_map, List.getElem?_range' 1 1 hkl, Option.map_some',
        Nat.one_mul, Option.some.injEq] at hk
      rw [← hk, Nat.add_comm]
    refine ⟨hsh.mem_active hmem, by rw [hsh.get_eq hmem, hv], ?_⟩
    apply prev_element_of_pv
    have := seg_prev_index hsh.2.2.2.1 k (k + 1)
      (by rw [List.getElem?_range' 1 1 hkl, Nat.one_mul, Nat.add_comm])
    rw [this]
    cases k with
    | zero => exact List.getElem?_cons_zero
    | succ k =>
      rw [List.getElem?_cons_succ, List.getElem?_range' 1 1 (by omega), Nat.one_mul,
        Nat.add_comm]
  · rw [hsh.end_eq]
    congr 1
    have : ∀ (cnt s0 p : Nat), 1 ≤ cnt → lst (List.range' s0 cnt) p = s0 + cnt - 1 := by
      intro cnt
      induction cnt with
      | zero => intro s0 p h; omega
      | succ c ih =>
        intro s0 p _
        show lst (List.range' (s0 + 1) c) s0 = s0 + (c + 1) - 1
        cases c with
        | zero => rfl
        | succ c => rw [ih (s0 + 1) s0 (by omega)]; omega
    rw [this l.size 1 0 (by omega)]
    exact Nat.add_sub_cancel_left 1 l.size
  · rw [hsh.to_list_eq, hvals, hsv]
  · intro j h1 h2
    exact hsh.2.2.2.2.2.1 j (by rw [List.mem_range'_1]; omega)

/-- Witness for C5: linearizing the list 10, 30, 40 stored at indices 1, 3, 2. -/
theorem linearize_postcondition_witness :
    WF sample_mixed [1, 3, 2] (List.range' 4 12) ∧ to_list sample_mixed = .ok [10, 30, 40] ∧
      ∃ l1, linearize sample_mixed = .ok l1 ∧ indices l1 = .ok [1, 2, 3] ∧
        to_list l1 = .ok [10, 30, 40] ∧ get_element l1 2 = .ok 30 := by
  refine ⟨by decide, by decide, ?_⟩
  obtain ⟨l1, h1, -, h2, h3, -, h4, -⟩ :=
    linearize_postcondition sample_mixed [1, 3, 2] (List.range' 4 12) [10, 30, 40]
      (by decide) (by decide) (by decide) rfl (Or.inl (by decide))
  exact ⟨l1, h1, h3, h4, (h2 1 30 rfl).2.1⟩

/-! ## The shrink after an erasure or a linearization -/

set_option maxRecDepth 1000000 in
/-- C3 (failing inputs): `sample_tail` is reached from `list_ctor` by sixty
`push_back`, `linearize` and 45 `pop_front`; it is well-formed and linear with
its 15 elements at the indices 46 .. 60.  Erasing the active index 46 leaves
the elements at 47 .. 60, and the shrink check then asks `resize_list` for 32
nodes, fewer than the indices in use; `resize_list` walks the free chain out
of the reallocated array and `erase_element` has no defined result.  The same
happens on `arena 15 true`, whose elements sit at the indices 1 .. 15: erasing
the last one makes the shrink check ask for 16 nodes while the free chain
still runs through the indices 16 .. 63. -/
theorem erase_element_shrink_fault :
    (exec list_ctor ((List.range' 1 60).map Op.push_back ++ [Op.linearize] ++
        List.replicate 45 Op.pop_front) = .ok sample_tail ∧
      WF sample_tail (List.range' 46 15) ((List.range' 1 45).reverse ++ [61, 62, 63]) ∧
      is_active sample_tail 46 ∧
      (∃ l0, erase_core sample_tail 46 = .ok l0 ∧ indices l0 = .ok (List.range' 47 14) ∧
        shrink_size l0 = .ok (some 32)) ∧
      erase_element sample_tail 46 = .oob) ∧
    (WF (arena 15 true) (List.range' 1 15) (List.range' 16 48) ∧
      is_active (arena 15 true) 15 ∧
      (∃ l0, erase_core (arena 15 true) 15 = .ok l0 ∧ indices l0 = .ok (List.range' 1 14) ∧
        free_indices l0 = .ok (List.range' 15 49) ∧ shrink_size l0 = .ok (some 16)) ∧
      erase_element (arena 15 true) 15 = .oob) := by
  refine ⟨⟨by decide, by decide, by decide, ⟨_, rfl, by decide, by decide⟩, by decide⟩,
    by decide, by decide, ⟨_, rfl, by decide, by decide, by decide⟩, by decide⟩

set_option maxRecDepth 1000000 in
/-- C4 (failing input): `arena 10 false` is reached from `list_ctor` by 31
`push_back` and 21 `pop_back`; it is well-formed with `is_linear` false.  The
body of `linearize` succeeds, the shrink check that follows asks
`resize_list` for 12 nodes while the free chain still runs through the
indices 12 .. 63, and `linearize` has no defined result, so neither has
`element_by_number` after it. -/
theorem linearize_shrink_fault :
    exec list_ctor ((List.range' 1 31).map Op.push_back ++ List.replicate 21 Op.pop_back)
        = .ok (arena 10 false) ∧
      WF (arena 10 false) (List.range' 1 10) (List.range' 11 53) ∧
      (∃ l1, linearize_core (arena 10 false) = .ok l1 ∧ shrink_size l1 = .ok (some 12) ∧
        free_indices l1 = .ok (List.range' 11 53)) ∧
      linearize (arena 10 false) = .oob := by
  refine ⟨by decide, by decide, ⟨_, rfl, by decide, by decide⟩, by decide⟩

set_option maxRecDepth 1000000 in
/-- C8 (failing input): `arena 7 false` is reached from `list_ctor` by 31
`push_back` and 24 `pop_back`.  After the body of `linearize` the shrink check
passes the size 9 to `resize_list`, below `default_cap_ = 16`; `resize_list`
reallocates the arena to 9 nodes and then reads `nodes[9]`. -/
theorem shrink_below_default :
    exec list_ctor ((List.range' 1 31).map Op.push_back ++ List.replicate 24 Op.pop_back)
        = .ok (arena 7 false) ∧
      WF (arena 7 false) (List.range' 1 7) (List.range' 8 56) ∧
      (∃ l1, linearize_core (arena 7 false) = .ok l1 ∧ shrink_size l1 = .ok (some 9) ∧
        9 < default_cap_ ∧ (reallocarray l1.nodes 9).length = 9 ∧
        nx (reallocarray l1.nodes 9) 8 = some 9 ∧ rd (reallocarray l1.nodes 9) 9 = .oob) ∧
      Op.run (arena 7 false) Op.linearize = .oob := by
  refine ⟨by decide, by decide, ⟨_, rfl, by decide, by decide, by decide, by decide, by decide⟩,
    by decide⟩

set_option maxRecDepth 1000000 in
/-- C9 (failing input): `arena 15 true` is reached from `list_ctor` by 31
`push_back`, `linearize` and 16 `pop_back`; it is well-formed and linear.
`pop_front` erases index 1, which becomes the head of the free chain
`1, 16, 17, .., 63`; the shrink check passes the size 17 to `resize_list`,
which keeps that chain: index 16 still points to 17, outside the 17 nodes
left, and the walk to the end of the chain leaves the array. -/
theorem shrink_keeps_free_chain :
    exec list_ctor ((List.range' 1 31).map Op.push_back ++ [Op.linearize] ++
        List.replicate 16 Op.pop_back) = .ok (arena 15 true) ∧
      WF (arena 15 true) (List.range' 1 15) (List.range' 16 48) ∧
      (∃ l0, erase_core (arena 15 true) 1 = .ok l0 ∧
        free_indices l0 = .ok (1 :: List.range' 16 48) ∧ shrink_size l0 = .ok (some 17) ∧
        nx (reallocarray l0.nodes 17) 16 = some 17 ∧
        walk_next (reallocarray l0.nodes 17) 17 l0.free = .oob) ∧
      Op.run (arena 15 true) Op.pop_front = .oob := by
  refine ⟨by decide, by decide, ⟨_, rfl, by decide, by decide, by decide, by decide⟩, by decide⟩

/-! ## Empty lists, the checker, positional access, idempotence -/

theorem Res.bind_eq_ok {α β : Type} {x : Res α} {f : α → Res β} {b : β}
    (h : x.bind f = .ok b) : ∃ a, x = .ok a ∧ f a = .ok b := by
  cases x with
  | ok a => exact ⟨a, rfl, h⟩
  | oob => cases h
  | diverge => cases h

/-- C11 (failing input): after `push_back`, `pop_back` and `linearize` on a
fresh list the list is empty (`size = 0`), yet `list_begin` returns 1, because
`linearize` sets `nodes[0].next = 1` whatever the size; `list_end` returns 0.
A `push_back` on that list links node 1 to itself and the walk from
`list_begin` never returns to 0. -/
theorem linearize_empty_begin :
    ∃ l, exec list_ctor [Op.push_back 5, Op.pop_back, Op.linearize] = .ok l ∧
      Reachable any_op l ∧ l.size = 0 ∧ list_begin l = .ok 1 ∧ list_end l = .ok 0 ∧
      (exec l [Op.push_back 7]).bind indices = .diverge := by
  have h : ∃ l1 l2 l3, Op.run list_ctor (Op.push_back 5) = .ok l1 ∧
      Op.run l1 Op.pop_back = .ok l2 ∧ Op.run l2 Op.linearize = .ok l3 ∧
      exec list_ctor [Op.push_back 5, Op.pop_back, Op.linearize] = .ok l3 ∧
      l3.size = 0 ∧ list_begin l3 = .ok 1 ∧ list_end l3 = .ok 0 ∧
      (exec l3 [Op.push_back 7]).bind indices = .diverge :=
    ⟨_, _, _, rfl, rfl, rfl, by decide, by decide, by decide, by decide, by decide⟩
  obtain ⟨l1, l2, l3, e1, e2, e3, e4, h1, h2, h3, h4⟩ := h
  exact ⟨l3, e4, Reachable.step Op.linearize (Reachable.step Op.pop_back
    (Reachable.step (Op.push_back 5) Reachable.ctor trivial trivial e1) trivial trivial e2)
    trivial trivial e3, h1, h2, h3, h4⟩

/-- On every non-empty well-formed list `list_check` returns 0: its first
walk starts at the sentinel, whose `prev` field is the last element, not 0. -/
theorem list_check_nonempty {l : compact_list} {act fr : List Nat} (h : WF l act fr)
    (hne : act ≠ []) : list_check l = .ok 0 := by
  have hp : pv l.nodes 0 = some (lst act 0) := seg_first_prev h.1.2.2.2.1
  obtain ⟨nd, -, hr, -, hx, -⟩ := rd_ok (pv_lt hp)
  rw [hx] at hp
  have hp2 : nd.prev = lst act 0 := Option.some.inj hp
  have hl0 : lst act 0 ≠ 0 := by
    intro e
    cases act with
    | nil => exact hne rfl
    | cons x X =>
      have hm : lst X x ∈ x :: X := lst_mem X x
      have hz := h.1.zero_not_mem
      apply hz
      have e2 : lst X x = 0 := e
      rw [e2] at hm
      exact List.mem_append_left _ hm
  have hsz : l.size ≠ 0 := by
    rw [← h.1.2.1]
    cases act with
    | nil => exact absurd rfl hne
    | cons x X => simp
  obtain ⟨n, hn⟩ : ∃ n, l.size = n + 1 := ⟨l.size - 1, by omega⟩
  have hca : check_active l.nodes l.size 0 0 = .ok none := by
    rw [hn]
    have hne2 : ¬ (nd.prev = 0) := by rw [hp2]; exact hl0
    simp only [check_active, hr, Res.bind_ok, hne2, not_false_eq_true, if_true]
  unfold list_check
  simp only [list_begin_ptr, Res.bind_ok, hca]
  split_ifs <;> rfl

/-- C12 (failing input): `sample3`, the list 10, 20, 30, is well-formed, its
capacity is 16 and its free nodes have `prev = 0`, yet `list_check` returns 0:
the first walk starts at `list_begin(0)`, which is 0, and the first assertion
compares `nodes[0].prev = 3` with 0.  Started at `list_begin(list)` the same
checks return 1, as they do on the empty list `list_ctor`. -/
theorem list_check_rejects_nonempty :
    WF sample3 [1, 2, 3] (List.range' 4 12) ∧ default_cap_ ≤ sample3.capacity ∧
      (∀ x ∈ List.range' 4 12, pv sample3.nodes x = some 0) ∧
      list_begin_ptr none = .ok 0 ∧ pv sample3.nodes 0 = some 3 ∧
      list_check sample3 = .ok 0 ∧ list_check_from_begin sample3 = .ok 1 ∧
      list_check list_ctor = .ok 1 := by
  refine ⟨by decide, by decide, by decide, rfl, by decide, by decide, by decide, by decide⟩

/-- Whenever the sum `list_begin + n` is at most `SIZE_MAX`, the sum in
`size_t` is the sum of the natural numbers. -/
theorem element_by_number_sz_eq (l : compact_list) (n : Nat)
    (h : ∀ b, list_begin l = .ok b → b + n ≤ SIZE_MAX) :
    element_by_number_sz l n = element_by_number l n := by
  unfold element_by_number_sz element_by_number
  by_cases h1 : l.is_linear = false
  · rw [if_pos h1, if_pos h1]
  · rw [if_neg h1, if_neg h1]
    by_cases h2 : ¬ n < l.size
    · rw [if_pos h2, if_pos h2]
    · rw [if_neg h2, if_neg h2]
      cases hb : list_begin l with
      | oob => rfl
      | diverge => rfl
      | ok b =>
        simp only [Res.bind_ok]
        rw [Nat.mod_eq_of_lt (Nat.lt_succ_of_le (h b hb))]

/-- C13: for every list and every `n`, `element_by_number` (with the `size_t`
sum of the code, `element_by_number_sz`) returns 0 when `is_linear` is false,
0 when `n >= size`, and the value of `list_begin(list) + n` when `is_linear`
is true and `n < size`: the sum modulo `2^64`, which is the plain sum
`list_begin + n` whenever that is at most `SIZE_MAX`.  The function returns an
iterator only, the list is its read-only argument. -/
theorem element_by_number_result (l : compact_list) (n : Nat) :
    (l.is_linear = false → element_by_number_sz l n = .ok 0) ∧
    (l.size ≤ n → element_by_number_sz l n = .ok 0) ∧
    (l.is_linear = true → n < l.size → ∀ b, list_begin l = .ok b →
      element_by_number_sz l n = .ok ((b + n) % (SIZE_MAX + 1)) ∧
      (b + n ≤ SIZE_MAX → element_by_number_sz l n = .ok (b + n))) := by
  refine ⟨?_, ?_, ?_⟩
  · intro h
    simp only [element_by_number_sz, h, if_true]
  · intro h
    have h2 : ¬ n < l.size := by omega
    unfold element_by_number_sz
    split_ifs <;> rfl
  · intro h1 h2 b hb
    have e : element_by_number_sz l n = .ok ((b + n) % (SIZE_MAX + 1)) := by
      simp only [element_by_number_sz, h1, Bool.true_eq_false, if_false, h2, not_true_eq_false,
        hb, Res.bind_ok]
    refine ⟨e, fun hle => ?_⟩
    rw [e, Nat.mod_eq_of_lt (Nat.lt_succ_of_le hle)]

/-- Witness for C13: position 1 of `arena 15 true` is index 2, position 15 is
out of range.  On the list left by `push_back`, `pop_back`, `linearize` and
`pop_front`, whose `size` field has wrapped to `SIZE_MAX` and whose
`list_begin` is 2, position `SIZE_MAX - 1` gives `2 + (SIZE_MAX - 1)` in
`size_t`, which is 0. -/
theorem element_by_number_result_witness :
    ((arena 15 true).is_linear = true ∧ 1 < (arena 15 true).size ∧
      list_begin (arena 15 true) = .ok 1 ∧ element_by_number_sz (arena 15 true) 1 = .ok 2 ∧
      element_by_number_sz (arena 15 true) 15 = .ok 0) ∧
    ∃ l, exec list_ctor [Op.push_back 5, Op.pop_back, Op.linearize, Op.pop_front] = .ok l ∧
      l.is_linear = true ∧ l.size = SIZE_MAX ∧ list_begin l = .ok 2 ∧
      element_by_number_sz l (SIZE_MAX - 1) = .ok ((2 + (SIZE_MAX - 1)) % (SIZE_MAX + 1)) ∧
      (2 + (SIZE_MAX - 1)) % (SIZE_MAX + 1) = 0 := by
  have h := element_by_number_result (arena 15 true) 1
  have h2 := element_by_number_result (arena 15 true) 15
  have h3 : ∃ l, exec list_ctor [Op.push_back 5, Op.pop_back, Op.linearize, Op.pop_front]
      = .ok l ∧ l.is_linear = true ∧ l.size = SIZE_MAX ∧ list_begin l = .ok 2 :=
    ⟨_, rfl, rfl, rfl, rfl⟩
  obtain ⟨l, e1, e2, e3, e4⟩ := h3
  refine ⟨⟨rfl, by decide, by decide, (h.2.2 rfl (by decide) 1 (by decide)).2 (by decide),
    h2.2.1 (by decide)⟩, l, e1, e2, e3, e4, ?_, by decide⟩
  exact ((element_by_number_result l (SIZE_MAX - 1)).2.2 e2 (by rw [e3]; decide) 2 e4).1

theorem linearize_core_linear {l l1 : compact_list} (h : linearize_core l = .ok l1) :
    l1.is_linear = true := by
  unfold linearize_core at h
  obtain ⟨b, -, h⟩ := Res.bind_eq_ok h
  obtain ⟨n1, -, h⟩ := Res.bind_eq_ok h
  obtain ⟨n2, -, h⟩ := Res.bind_eq_ok h
  obtain ⟨n3, -, h⟩ := Res.bind_eq_ok h
  obtain ⟨n4, -, h⟩ := Res.bind_eq_ok h
  obtain ⟨n5, -, h⟩ := Res.bind_eq_ok h
  have e := ok_inj h
  rw [← e]

theorem resize_list_linear {l l1 : compact_list} {k : Nat} (h : resize_list l k = .ok l1) :
    l1.is_linear = l.is_linear := by
  unfold resize_list at h
  obtain ⟨n1, -, h⟩ := Res.bind_eq_ok h
  obtain ⟨n2, -, h⟩ := Res.bind_eq_ok h
  obtain ⟨n3, -, h⟩ := Res.bind_eq_ok h
  have e := ok_inj h
  rw [← e]

theorem try_shrink_list_linear {l l1 : compact_list} (h : try_shrink_list l = .ok l1) :
    l1.is_linear = l.is_linear := by
  unfold try_shrink_list at h
  obtain ⟨r, -, h⟩ := Res.bind_eq_ok h
  cases r with
  | none => rw [← ok_inj h]
  | some k => exact resize_list_linear h

theorem linearize_linear {l l1 : compact_list} (h : linearize l = .ok l1) :
    l1.is_linear = true := by
  unfold linearize at h
  by_cases hl : l.is_linear = true
  · rw [if_pos hl] at h
    rw [← ok_inj h]; exact hl
  · rw [if_neg hl] at h
    obtain ⟨l0, h0, h⟩ := Res.bind_eq_ok h
    rw [try_shrink_list_linear h, linearize_core_linear h0]

/-- C15: on a list whose `is_linear` flag is set `linearize` returns the list
itself, every node, `free`, `size`, `capacity` and `is_linear` unchanged;
hence whenever `linearize l` returns a list, a second `linearize` returns that
same list, and running `linearize` twice gives the result of running it
once. -/
theorem linearize_idempotent (l : compact_list) :
    (l.is_linear = true → linearize l = .ok l) ∧
    (∀ l1, linearize l = .ok l1 → linearize l1 = .ok l1) ∧
    (linearize l).bind linearize = linearize l := by
  have h1 : ∀ m : compact_list, m.is_linear = true → linearize m = .ok m := by
    intro m hm
    simp only [linearize, hm, if_true]
  have h2 : ∀ l1, linearize l = .ok l1 → linearize l1 = .ok l1 :=
    fun l1 h => h1 l1 (linearize_linear h)
  refine ⟨h1 l, h2, ?_⟩
  cases h : linearize l with
  | ok l1 => exact h2 l1 h
  | oob => rfl
  | diverge => rfl

/-- Witness for C15: linearizing the list 10, 30, 40 stored at indices 1, 3, 2
and linearizing the result again. -/
theorem linearize_idempotent_witness :
    ∃ l1, linearize sample_mixed = .ok l1 ∧ l1.is_linear = true ∧ linearize l1 = .ok l1 ∧
      indices l1 = .ok [1, 2, 3] := by
  have h : ∃ l1, linearize sample_mixed = .ok l1 ∧ l1.is_linear = true ∧
      indices l1 = .ok [1, 2, 3] := ⟨_, rfl, by decide, by decide⟩
  obtain ⟨l1, e1, e2, e3⟩ := h
  exact ⟨l1, e1, e2, (linearize_idempotent l1).1 e2, e3⟩

/-- C19: `erase_element l 0` returns the list unchanged, whatever the list;
hence `pop_back` on a list whose `list_end` is 0 and `pop_front` on a list
whose `list_begin` is 0, in particular on every empty well-formed list,
return the list unchanged, `size` included. -/
theorem erase_sentinel_rejected (l : compact_list) :
    erase_element l 0 = .ok l ∧
    (list_end l = .ok 0 → pop_back l = .ok l) ∧
    (list_begin l = .ok 0 → pop_front l = .ok l) ∧
    (∀ act fr, WF l act fr → l.size = 0 →
      list_end l = .ok 0 ∧ list_begin l = .ok 0 ∧ pop_back l = .ok l ∧ pop_front l = .ok l) := by
  have h0 : erase_element l 0 = .ok l := by simp only [erase_element, if_true]
  have h1 : list_end l = .ok 0 → pop_back l = .ok l := fun h => by
    simp only [pop_back, h, Res.bind_ok, h0]
  have h2 : list_begin l = .ok 0 → pop_front l = .ok l := fun h => by
    simp only [pop_front, h, Res.bind_ok, h0]
  refine ⟨h0, h1, h2, ?_⟩
  intro act fr hwf hsz
  have hact : act = [] := List.eq_nil_of_length_eq_zero (by rw [hwf.1.2.1]; exact hsz)
  have he : list_end l = .ok 0 := by rw [hwf.1.end_eq, hact]; rfl
  have hb : list_begin l = .ok 0 := by rw [hwf.1.begin_eq, hact]; rfl
  exact ⟨he, hb, h1 he, h2 hb⟩

/-- Witness for C19: the fresh list. -/
theorem erase_sentinel_rejected_witness :
    WF list_ctor [] (List.range' 1 15) ∧ list_ctor.size = 0 ∧
      erase_element list_ctor 0 = .ok list_ctor ∧ pop_back list_ctor = .ok list_ctor ∧
      pop_front list_ctor = .ok list_ctor := by
  have h := erase_sentinel_rejected list_ctor
  have h2 := h.2.2.2 [] (List.range' 1 15) (by decide) rfl
  exact ⟨by decide, rfl, h.1, h2.2.2.1, h2.2.2.2⟩

theorem lst_concat : ∀ (A : List Nat) (x p : Nat), lst (A ++ [x]) p = x
  | [], _, _ => rfl
  | a :: A, x, _ => by
    simp only [List.cons_append, lst]
    exact lst_concat A x a

theorem lst_range_one (k : Nat) : lst (List.range' 1 k) 0 = k := by
  cases k with
  | zero => rfl
  | succ n =>
    rw [List.range'_concat, lst_concat]
    omega

/-- State after `k` calls of `push_back` on a fresh list. -/
theorem push_back_fresh {l : compact_list} {k : Nat}
    (h : Shape l (List.range' 1 k) (List.range' (k + 1) (l.capacity - k - 1)))
    (hfree : l.free ≠ 0) (v : element_t) :
    ∃ l1, push_back l v = .ok (l1, k + 1) ∧
      Shape l1 (List.range' 1 (k + 1)) (List.range' (k + 2) (l1.capacity - (k + 1) - 1)) ∧
      l1.free ≠ 0 := by
  obtain ⟨L, hL⟩ := lst_split (List.range' 1 k) 0
  rw [lst_range_one] at hL
  obtain ⟨l0, l1, fr0, fr1, -, hins, hfr, hsh0, hsh1, hfree1, hcap0, -, -, -, -, -, hne, hnil, -⟩ :=
    insert_after_shape h hfree (R := []) hL v
  have hpos : 0 < l.capacity - k - 1 := by
    rcases Nat.eq_zero_or_pos (l.capacity - k - 1) with e | e
    · rw [e] at hfr; cases hfr
    · exact e
  obtain ⟨m, hm⟩ : ∃ m, l.capacity - k - 1 = m + 1 := ⟨l.capacity - k - 1 - 1, by omega⟩
  rw [hm, List.range'_succ] at hfr
  have hf : l.free = k + 1 := ((List.cons.inj hfr).1).symm
  have hfr0 : fr0 = List.range' (k + 2) m := ((List.cons.inj hfr).2).symm
  have hact : (L ++ [k, l.free]).tail = List.range' 1 (k + 1) := by
    have e : L ++ [k, l.free] = (L ++ [k]) ++ [l.free] := by simp
    rw [e, ← hL, hf, List.range'_concat]
    simp only [List.cons_append, List.tail_cons, Nat.one_mul, Nat.add_comm 1 k]
  rw [hact] at hsh1
  have hend : list_end l = .ok k := by rw [h.end_eq, lst_range_one]
  refine ⟨l1, ?_, ?_, hfree1⟩
  · simp only [push_back, hend, Res.bind_ok, hins, hf]
  · by_cases hm0 : m = 0
    · subst hm0
      obtain ⟨hc, -, hf1⟩ := hnil (by rw [hfr0]; rfl)
      have e1 : l.capacity = k + 2 := by omega
      have e2 : l1.capacity - (k + 1) - 1 = l.capacity := by rw [hc]; omega
      rw [hf1] at hsh1
      rw [e2]
      rw [e1] at hsh1 ⊢
      exact hsh1
    · obtain ⟨e1, e2⟩ := hne (by
        rw [hfr0]; intro e
        have := congrArg List.length e
        simp only [List.length_range', List.length_nil] at this
        exact hm0 this)
      have e3 : l1.capacity - (k + 1) - 1 = m := by rw [e1, hcap0]; omega
      rw [e2, hfr0] at hsh1
      rw [e3]
      exact hsh1

theorem push_all_fresh : ∀ (vs : List element_t) (l : compact_list) (k : Nat),
    Shape l (List.range' 1 k) (List.range' (k + 1) (l.capacity - k - 1)) → l.free ≠ 0 →
    ∃ l1, push_all l vs = .ok (l1, List.range' (k + 1) vs.length) ∧
      Shape l1 (List.range' 1 (k + vs.length))
        (List.range' (k + vs.length + 1) (l1.capacity - (k + vs.length) - 1)) ∧ l1.free ≠ 0
  | [], l, k, h, hf => ⟨l, rfl, h, hf⟩
  | v :: vs, l, k, h, hf => by
    obtain ⟨l1, h1, hs1, hf1⟩ := push_back_fresh h hf v
    obtain ⟨l2, h2, hs2, hf2⟩ := push_all_fresh vs l1 (k + 1) hs1 hf1
    refine ⟨l2, ?_, ?_, hf2⟩
    · simp only [push_all, h1, Res.bind_ok, h2, List.length_cons, List.range'_succ]
    · have e : k + (v :: vs).length = k + 1 + vs.length := by
        simp only [List.length_cons]; omega
      rw [e]
      exact hs2

/-- C17: starting from `list_ctor ()` (capacity 16, size 0, `is_linear` true,
`free` 1), `n` consecutive `push_back` calls all return, whatever the values,
and the k-th call returns index k for every k in 1..n, capacity doublings
included. -/
theorem push_back_allocation_order (vs : List element_t) :
    list_ctor.capacity = 16 ∧ list_ctor.size = 0 ∧ list_ctor.is_linear = true ∧
      list_ctor.free = 1 ∧
      ∃ l, push_all list_ctor vs = .ok (l, List.range' 1 vs.length) ∧
        indices l = .ok (List.range' 1 vs.length) ∧ l.size = vs.length := by
  obtain ⟨l, h1, h2, h3⟩ := push_all_fresh vs list_ctor 0 (by decide) (by decide)
  simp only [Nat.zero_add] at h1 h2
  exact ⟨rfl, rfl, rfl, rfl, l, h1, h2.indices_eq, h2.2.1.symm.trans (by simp)⟩

/-! ## The shrink always faults; the `is_linear` flag -/

theorem tail_walk_fault {N M : List node} {k : Nat} (hM : M = N.take k) :
    ∀ (X : List Nat) (h F : Nat), fchain N h X → 0 ∉ X → (∃ x ∈ X, k ≤ x) →
      (X.filter (fun x => decide (x < k))).length < F → tail_walk M F h = .oob
  | [], _, _, _, _, hex, _ => by
    obtain ⟨x, hx, -⟩ := hex
    cases hx
  | x :: X, h, F, hc, h0, hex, hF => by
    obtain ⟨rfl, hn, hc2⟩ := hc
    by_cases hx : k ≤ h
    · obtain ⟨F1, rfl⟩ : ∃ F1, F = F1 + 1 := ⟨F - 1, by omega⟩
      have hr : rd M h = .oob := by
        have : M.length ≤ h := by rw [hM, List.length_take]; omega
        simp only [rd, List.getElem?_eq_none this]
      simp only [tail_walk, hr, Res.bind]
    · have hlt : h < k := by omega
      have hex2 : ∃ y ∈ X, k ≤ y := by
        obtain ⟨y, hy, hky⟩ := hex
        rcases List.mem_cons.mp hy with e | hy2
        · rw [e] at hky; omega
        · exact ⟨y, hy2, hky⟩
      have hF2 : (X.filter (fun x => decide (x < k))).length + 1 < F := by
        simpa [List.filter_cons, hlt] using hF
      obtain ⟨F1, rfl⟩ : ∃ F1, F = F1 + 1 := ⟨F - 1, by omega⟩
      have hlen : h < N.length := nx_lt hn
      obtain ⟨n, hg, -, hx2, -⟩ := rd_ok hlen
      have hgm : M[h]? = some n := by
        rw [hM, List.getElem?_take]
        simp only [hlt, if_true, hg]
      have hr : rd M h = .ok n := by simp only [rd, hgm]
      rw [hx2] at hn
      have hnn : n.next = hd X 0 := Option.some.inj hn
      have h02 : 0 ∉ X := fun e => h0 (List.mem_cons_of_mem _ e)
      have hne : hd X 0 ≠ 0 := by
        obtain ⟨y, hy, -⟩ := hex2
        cases X with
        | nil => cases hy
        | cons z Z => exact fun e => h02 (by rw [← e]; exact List.mem_cons_self _ _)
      simp only [tail_walk, hr, Res.bind_ok, hnn, hne, if_false]
      exact tail_walk_fault hM X (hd X 0) F1 hc2 h02 hex2 (by omega)

theorem shrink_size_some {l : compact_list} {act fr : List Nat} (h : Shape l act fr) {k : Nat}
    (hk : shrink_size l = .ok (some k)) :
    k ≤ 2 * (l.size + 2) ∧ 4 * (l.size + 2) ≤ l.capacity := by
  unfold shrink_size at hk
  rw [h.begin_eq] at hk
  simp only [Res.bind_ok, growth_coeff_] at hk
  split_ifs at hk with h1 h2 h3 h4 h5
  all_goals first
    | (cases ok_inj hk; done)
    | (have e : (hd act 0 + l.size + 1 : Nat) = k := Option.some.inj (ok_inj hk)
       have h6 : (hd act 0 + l.size + 1 : Nat) < (l.size + 2) * 2 := h5
       omega)
    | (have e : ((l.size + 2) * 2 : Nat) = k := Option.some.inj (ok_inj hk); omega)

/-- On a well-formed list every call of `resize_list` made by the shrink check
leaves the array: the free chain is longer than the new array and is not
cut. -/
theorem resize_shrink_fault {l : compact_list} {act fr : List Nat} (h : WF l act fr) {k : Nat}
    (hk : shrink_size l = .ok (some k)) : resize_list l k = .oob := by
  obtain ⟨hk1, hk2⟩ := shrink_size_some h.1 hk
  have hcnt := h.1.count
  have hnd := h.1.nodup
  have hlen := h.1.1
  have hkc : k ≤ l.capacity := by omega
  have hre : reallocarray l.nodes k = l.nodes.take k := by
    have : k - l.nodes.length = 0 := by omega
    simp only [reallocarray, this, List.replicate_zero, List.append_nil]
  have hnd2 : (0 :: fr).Nodup := by
    have h3 : (0 :: fr).Sublist (0 :: (act ++ fr)) :=
      List.Sublist.cons₂ _ (List.sublist_append_right _ _)
    exact h3.nodup hnd
  have h0 : 0 ∉ fr := (List.nodup_cons.mp hnd2).1
  have hex : ∃ x ∈ fr, k ≤ x := by
    by_contra hc
    push_neg at hc
    have hsub : (0 :: fr) ⊆ List.range k := by
      intro x hx
      rcases List.mem_cons.mp hx with e | hx2
      · rw [e]
        exact List.mem_range.mpr (by
          rcases Nat.eq_zero_or_pos k with e2 | e2
          · exfalso
            have := h.1.free_cons h.2.1
            obtain ⟨fr1, hfr1⟩ := this
            have := hc l.free (by rw [hfr1]; exact List.mem_cons_self _ _)
            omega
          · exact e2)
      · exact List.mem_range.mpr (hc x hx2)
    have hle := (List.Nodup.subperm hnd2 hsub).length_le
    simp only [List.length_cons, List.length_range] at hle
    omega
  have hfil : (fr.filter (fun x => decide (x < k))).length < k + 1 := by
    have hsub : fr.filter (fun x => decide (x < k)) ⊆ List.range k := by
      intro x hx
      have := (List.mem_filter.mp hx).2
      exact List.mem_range.mpr (by simpa using this)
    have hnd3 : (fr.filter (fun x => decide (x < k))).Nodup :=
      ((List.nodup_cons.mp hnd2).2).filter _
    have hle := (List.Nodup.subperm hnd3 hsub).length_le
    simp only [List.length_range] at hle
    omega
  have hl2 : (l.nodes.take k).length = k := by rw [List.length_take]; omega
  have hw := tail_walk_fault (N := l.nodes) (M := l.nodes.take k) rfl fr l.free (k + 1)
    h.1.2.2.2.2.2.2 h0 hex hfil
  have hz : k - l.capacity = 0 := by omega
  simp only [resize_list, hre, hz, for_range, Res.bind_ok, hl2, hw, Res.bind]

theorem try_shrink_list_ok {l l1 : compact_list} {act fr : List Nat} (h : WF l act fr)
    (hr : try_shrink_list l = .ok l1) : l1 = l := by
  unfold try_shrink_list at hr
  obtain ⟨r, h1, h2⟩ := Res.bind_eq_ok hr
  cases r with
  | none => exact (ok_inj h2).symm
  | some k =>
    have := resize_shrink_fault h h1
    simp only at h2
    rw [this] at h2
    cases h2

theorem range'_split : ∀ (A : List Nat) (b n x : Nat) (B : List Nat),
    List.range' b n = A ++ x :: B →
    x = b + A.length ∧ B = List.range' (x + 1) B.length ∧ A = List.range' b A.length
  | [], b, 0, x, B, h => by cases h
  | [], b, n + 1, x, B, h => by
    rw [List.range'_succ] at h
    obtain ⟨e1, e2⟩ := List.cons.inj h
    subst e1
    refine ⟨rfl, ?_, rfl⟩
    have hl := congrArg List.length e2
    simp only [List.length_range'] at hl
    rw [← hl]; exact e2.symm
  | a :: A, b, 0, x, B, h => by cases h
  | a :: A, b, n + 1, x, B, h => by
    rw [List.range'_succ] at h
    obtain ⟨e1, e2⟩ := List.cons.inj h
    obtain ⟨h1, h2, h3⟩ := range'_split A (b + 1) n x B e2
    refine ⟨by rw [h1, List.length_cons]; omega, h2, ?_⟩
    rw [List.length_cons, List.range'_succ, ← h3, e1]

theorem consec_of_range' {X : List Nat} {b : Nat} (h : X = List.range' b X.length) :
    Consec X := by
  cases X with
  | nil => rfl
  | cons x X =>
    rw [List.length_cons, List.range'_succ] at h
    have e := (List.cons.inj h).1
    unfold Consec
    simp only [hd, List.length_cons, List.range'_succ]
    rw [← e] at h
    exact h

theorem lst_mem_of_ne_nil : ∀ (A : List Nat) (p : Nat), A ≠ [] → lst A p ∈ A
  | [], _, h => absurd rfl h
  | x :: A, _, _ => lst_mem A x

/-- The `is_linear` test of `insert_after` at `C` keeps the flag only when the
new index continues a run of consecutive indices at its front. -/
theorem insert_consec {act L R : List Nat} {C a : Nat} (hc : Consec act)
    (hd0 : 0 :: act = L ++ C :: R) (h1 : C + 1 = a) (h2 : a + 1 = hd R 0) :
    Consec (L ++ C :: a :: R).tail := by
  cases R with
  | nil => exact absurd h2 (Nat.succ_ne_zero _)
  | cons r R =>
    have hr : r = a + 1 := h2.symm
    cases L with
    | nil =>
      obtain ⟨e0, e1⟩ := List.cons.inj hd0
      subst e0
      subst e1
      unfold Consec at hc
      simp only [hd, List.length_cons] at hc
      apply consec_of_range' (b := a)
      show a :: r :: R = List.range' a ((r :: R).length + 1)
      rw [List.range'_succ, ← hr]
      exact congrArg (List.cons a) hc
    | cons z L =>
      exfalso
      obtain ⟨-, e1⟩ := List.cons.inj hd0
      unfold Consec at hc
      rw [e1] at hc
      obtain ⟨hx, hB, -⟩ := range'_split L _ _ C (r :: R) hc.symm
      rw [List.length_cons, List.range'_succ] at hB
      have := (List.cons.inj hB).1
      omega

/-- The `is_linear` test of `erase_element` keeps the flag only when an end of
the run of consecutive indices is removed. -/
theorem erase_consec {A B : List Nat} {i : Nat} (hc : Consec (A ++ i :: B))
    (h0 : 0 ∉ A ++ i :: B) (h : hd B 0 = 0 ∨ lst A 0 = 0) : Consec (A ++ B) := by
  unfold Consec at hc
  obtain ⟨hx, hB, hA⟩ := range'_split A _ _ i B hc.symm
  rcases h with h | h
  · have hBn : B = [] := by
      cases B with
      | nil => rfl
      | cons b B =>
        exfalso; apply h0
        have e : b = 0 := h
        rw [e]; simp
    rw [hBn, List.append_nil]
    exact consec_of_range' hA
  · have hAn : A = [] := by
      by_contra hne
      apply h0
      have := lst_mem_of_ne_nil A 0 hne
      rw [h] at this
      exact List.mem_append_left _ this
    rw [hAn, List.nil_append]
    exact consec_of_range' hB

theorem insert_after_lin {l : compact_list} {act fr : List Nat} (h : WF l act fr)
    (hlin : l.is_linear = true → Consec act) {L R : List Nat} {C : Nat}
    (hd0 : 0 :: act = L ++ C :: R) (v : element_t) :
    ∃ l1, insert_after l C v = .ok (l1, l.free) ∧ InvLin l1 := by
  obtain ⟨l1, hres, ⟨fr1, hwf1⟩, -, -, -, -, -, -, hl⟩ := insert_after_values h hd0 v
  refine ⟨l1, hres, _, fr1, hwf1, ?_⟩
  intro h1
  rw [hl] at h1
  by_cases hc : C + 1 = l.free ∧ l.free + 1 = hd R 0
  · rw [if_neg (not_not.mpr hc)] at h1
    exact insert_consec (hlin h1) hd0 hc.1 hc.2
  · rw [if_pos hc] at h1
    exact absurd h1 Bool.false_ne_true

theorem erase_element_lin {l l1 : compact_list} {act fr : List Nat} (h : WF l act fr)
    (hlin : l.is_linear = true → Consec act) {i : Nat} (hi : i ∈ act)
    (hrun : erase_element l i = .ok l1) : InvLin l1 := by
  obtain ⟨A, B, hAB⟩ := List.append_of_mem hi
  obtain ⟨l0, -, hwf0, hee, -, -, -, hl, -⟩ := erase_element_values h hAB
  rw [hee] at hrun
  rw [try_shrink_list_ok hwf0 hrun]
  refine ⟨_, _, hwf0, ?_⟩
  intro h1
  rw [hl] at h1
  by_cases hc : hd B 0 = 0 ∨ lst A 0 = 0
  · rw [if_neg (not_not.mpr hc)] at h1
    have h0 : 0 ∉ A ++ i :: B := by
      rw [← hAB]; exact fun e => h.1.zero_not_mem (List.mem_append_left _ e)
    have := hlin h1
    rw [hAB] at this
    exact erase_consec this h0 hc
  · rw [if_pos hc] at h1
    exact absurd h1 Bool.false_ne_true

theorem linearize_lin {l l1 : compact_list} (h : InvLin l)
    (hne : l.size ≠ 0 ∨ l.is_linear = true) (hrun : linearize l = .ok l1) : InvLin l1 := by
  by_cases hl : l.is_linear = true
  · have e : linearize l = .ok l := by simp only [linearize, hl, if_true]
    rw [e] at hrun
    rw [← ok_inj hrun]; exact h
  · obtain ⟨act, fr, hwf, -⟩ := h
    have hsz : l.size ≠ 0 := hne.resolve_right hl
    have hact : act ≠ [] := by
      intro e
      apply hsz
      rw [← hwf.1.2.1, e]; rfl
    obtain ⟨l0, h0, hsh, hfree, hsize, hcap, hlin0, -⟩ := linearize_core_spec hwf hact
    have hwf0 : WF l0 (List.range' 1 l.size) (List.range' (l.size + 1) (l.capacity - l.size - 1)) :=
      ⟨hsh, by rw [hfree]; exact Nat.succ_ne_zero _, by rw [hsize, hcap]; exact hwf.2.2⟩
    have e : linearize l = try_shrink_list l0 := by
      unfold linearize
      rw [if_neg hl, h0]; rfl
    rw [e] at hrun
    rw [try_shrink_list_ok hwf0 hrun]
    exact ⟨_, _, hwf0, fun _ => consec_of_range' (b := 1) (by rw [List.length_range'])⟩

theorem InvLin_ctor : InvLin list_ctor :=
  ⟨[], List.range' 1 15, by decide, fun _ => rfl⟩

/-- Every public operation with a valid iterator that returns keeps the
invariant, `linearize` being called on a list that is non-empty or linear. -/
theorem step_lin {l l1 : compact_list} (h : InvLin l) (op : Op) (hv : op.valid l)
    (hne : op = .linearize → l.size ≠ 0 ∨ l.is_linear = true) (hrun : op.run l = .ok l1) :
    InvLin l1 := by
  obtain ⟨act, fr, hwf, hlin⟩ := h
  cases op with
  | insert_after i v =>
    obtain ⟨L, R, hd0⟩ := split_of_valid hwf.1 hv
    obtain ⟨l2, h1, h2⟩ := insert_after_lin hwf hlin hd0 v
    simp only [Op.run, h1, Res.bind_ok] at hrun
    rw [← ok_inj hrun]; exact h2
  | insert_before i v =>
    obtain ⟨A, B, hd0⟩ := split_of_valid_rev hwf.1 hv
    obtain ⟨L, R, hsp, -⟩ := split_conv hd0
    obtain ⟨-, e2⟩ := insert_before_eq_after hwf hd0 v
    obtain ⟨l2, h1, h2⟩ := insert_after_lin hwf hlin hsp v
    simp only [Op.run, e2, h1, Res.bind_ok] at hrun
    rw [← ok_inj hrun]; exact h2
  | push_back v =>
    obtain ⟨L2, hL2⟩ := lst_split act 0
    obtain ⟨l2, h1, h2⟩ := insert_after_lin hwf hlin hL2 v
    simp only [Op.run, push_back, hwf.1.end_eq, h1, Res.bind_ok] at hrun
    rw [← ok_inj hrun]; exact h2
  | push_front v =>
    have hd2 : ∃ B2, act ++ [0] = [] ++ hd act 0 :: B2 := by
      cases act with
      | nil => exact ⟨[], rfl⟩
      | cons x X => exact ⟨X ++ [0], by simp [hd]⟩
    obtain ⟨B2, hd2⟩ := hd2
    obtain ⟨L, R, hsp, -⟩ := split_conv hd2
    obtain ⟨-, e2⟩ := insert_before_eq_after hwf hd2 v
    obtain ⟨l2, h1, h2⟩ := insert_after_lin hwf hlin hsp v
    simp only [Op.run, push_front, hwf.1.begin_eq, e2, h1, Res.bind_ok] at hrun
    rw [← ok_inj hrun]; exact h2
  | erase_element i =>
    rcases hv with rfl | hv
    · simp only [Op.run, erase_element, if_true] at hrun
      rw [← ok_inj hrun]; exact ⟨act, fr, hwf, hlin⟩
    · exact erase_element_lin hwf hlin (hwf.1.active_mem hv) hrun
  | pop_back =>
    cases act with
    | nil =>
      simp only [Op.run, pop_back, hwf.1.end_eq, lst, Res.bind_ok, erase_element, if_true] at hrun
      rw [← ok_inj hrun]; exact ⟨[], fr, hwf, hlin⟩
    | cons x X =>
      have hm : lst X x ∈ x :: X := lst_mem X x
      simp only [Op.run, pop_back, hwf.1.end_eq, lst, Res.bind_ok] at hrun
      exact erase_element_lin hwf hlin hm hrun
  | pop_front =>
    cases act with
    | nil =>
      simp only [Op.run, pop_front, hwf.1.begin_eq, hd, Res.bind_ok, erase_element,
        if_true] at hrun
      rw [← ok_inj hrun]; exact ⟨[], fr, hwf, hlin⟩
    | cons x X =>
      simp only [Op.run, pop_front, hwf.1.begin_eq, hd, Res.bind_ok] at hrun
      exact erase_element_lin hwf hlin (List.mem_cons_self x X) hrun
  | linearize => exact linearize_lin ⟨act, fr, hwf, hlin⟩ (hne rfl) hrun

theorem reachableNE_lin {l : compact_list} (h : ReachableNE l) : InvLin l := by
  induction h with
  | ctor => exact InvLin_ctor
  | step op _ hv hne hrun ih => exact step_lin ih op hv hne hrun

theorem reachable_exec {allowed : Op → Prop} : ∀ (ops : List Op) {l l1 : compact_list},
    Reachable allowed l → (∀ op ∈ ops, allowed op ∧ ∀ m, op.valid m) →
    exec l ops = .ok l1 → Reachable allowed l1
  | [], l, l1, h, _, he => by
    rw [← ok_inj he]; exact h
  | op :: ops, l, l1, h, hall, he => by
    obtain ⟨l2, h1, h2⟩ := Res.bind_eq_ok he
    obtain ⟨ha, hv⟩ := hall op (List.mem_cons_self _ _)
    exact reachable_exec ops (Reachable.step op h ha (hv l) h1)
      (fun o ho => hall o (List.mem_cons_of_mem _ ho)) h2

/-- C14 (counterexample): both directions of the equivalence fail on lists
reached from `list_ctor`.  After three `push_back` calls the elements sit at
the indices 1, 2, 3 in list order, yet `is_linear` is false: `insert_after`
at the last element clears the flag because `added + 1` is not the successor
0.  After a further `linearize` and `pop_front` the flag is true, yet the two
elements sit at the indices 2 and 3, not at their ranks 1 and 2. -/
theorem is_linear_not_rank :
    (exec list_ctor [Op.push_back 10, Op.push_back 20, Op.push_back 30] = .ok sample3 ∧
      Reachable any_op sample3 ∧ indices sample3 = .ok [1, 2, 3] ∧
      sample3.is_linear = false) ∧
    (∃ l, exec list_ctor [Op.push_back 10, Op.push_back 20, Op.push_back 30, Op.linearize,
        Op.pop_front] = .ok l ∧ Reachable any_op l ∧ l.is_linear = true ∧
      indices l = .ok [2, 3] ∧ l.size = 2) := by
  have hv : ∀ op ∈ [Op.push_back 10, Op.push_back 20, Op.push_back 30, Op.linearize,
      Op.pop_front], any_op op ∧ ∀ m, op.valid m := by
    intro op hop
    simp only [List.mem_cons, List.mem_singleton, List.not_mem_nil, or_false] at hop
    rcases hop with rfl | rfl | rfl | rfl | rfl <;> exact ⟨trivial, fun _ => trivial⟩
  have e1 : exec list_ctor [Op.push_back 10, Op.push_back 20, Op.push_back 30] = .ok sample3 := by
    decide
  have h2 : ∃ l, exec list_ctor [Op.push_back 10, Op.push_back 20, Op.push_back 30, Op.linearize,
      Op.pop_front] = .ok l ∧ l.is_linear = true ∧ indices l = .ok [2, 3] ∧ l.size = 2 :=
    ⟨_, rfl, by decide, by decide, by decide⟩
  obtain ⟨l, e2, h3, h4, h5⟩ := h2
  refine ⟨⟨e1, ?_, by decide, rfl⟩, l, e2, ?_, h3, h4, h5⟩
  · exact reachable_exec _ Reachable.ctor
      (fun o ho => hv o (by simp only [List.mem_cons] at ho ⊢; tauto)) e1
  · exact reachable_exec _ Reachable.ctor hv e2

/-- C14 (amended): in every list reached from `list_ctor` by public operations
with valid iterators, `linearize` not being called on an empty list whose flag
is false, `is_linear` true implies that the elements sit at the consecutive
indices `b, b + 1, .., b + size - 1` in list order, where `b` is `list_begin`
(not always 1), so that `element_by_number n` is the index of the element of
rank `n + 1`. -/
theorem is_linear_consecutive (l : compact_list) (h : ReachableNE l)
    (hlin : l.is_linear = true) :
    ∃ b, list_begin l = .ok b ∧ indices l = .ok (List.range' b l.size) ∧
      ∀ n, n < l.size → element_by_number l n = .ok (b + n) ∧
        (List.range' b l.size)[n]? = some (b + n) := by
  obtain ⟨act, fr, hwf, hc⟩ := reachableNE_lin h
  have hc2 := hc hlin
  unfold Consec at hc2
  rw [hwf.1.2.1] at hc2
  refine ⟨hd act 0, hwf.1.begin_eq, by rw [hwf.1.indices_eq, ← hc2], ?_⟩
  intro n hn
  constructor
  · simp only [element_by_number, hlin, Bool.true_eq_false, if_false, hn, not_true_eq_false,
      hwf.1.begin_eq, Res.bind_ok]
  · rw [List.getElem?_range' _ _ hn, Nat.one_mul]

/-- Witness for C14 (amended): the list after three `push_back`, `linearize`
and `pop_front`, whose two elements sit at the indices 2 and 3. -/
theorem is_linear_consecutive_witness :
    ∃ l, exec list_ctor [Op.push_back 10, Op.push_back 20, Op.push_back 30, Op.linearize,
        Op.pop_front] = .ok l ∧ ReachableNE l ∧ l.is_linear = true ∧ list_begin l = .ok 2 ∧
      ∃ b, list_begin l = .ok b ∧ indices l = .ok (List.range' b l.size) ∧
        ∀ n, n < l.size → element_by_number l n = .ok (b + n) ∧
          (List.range' b l.size)[n]? = some (b + n) := by
  have h : ∃ l1 l2 l3 l4 l5, Op.run list_ctor (Op.push_back 10) = .ok l1 ∧
      Op.run l1 (Op.push_back 20) = .ok l2 ∧ Op.run l2 (Op.push_back 30) = .ok l3 ∧
      Op.run l3 Op.linearize = .ok l4 ∧ Op.run l4 Op.pop_front = .ok l5 ∧ l3.size ≠ 0 ∧
      exec list_ctor [Op.push_back 10, Op.push_back 20, Op.push_back 30, Op.linearize,
        Op.pop_front] = .ok l5 ∧ l5.is_linear = true ∧ list_begin l5 = .ok 2 :=
    ⟨_, _, _, _, _, rfl, rfl, rfl, rfl, rfl, by decide, by decide, by decide, by decide⟩
  obtain ⟨l1, l2, l3, l4, l5, e1, e2, e3, e4, e5, hs, he, hl, hb⟩ := h
  have hr : ReachableNE l5 :=
    ReachableNE.step Op.pop_front
      (ReachableNE.step Op.linearize
        (ReachableNE.step (Op.push_back 30)
          (ReachableNE.step (Op.push_back 20)
            (ReachableNE.step (Op.push_back 10) ReachableNE.ctor trivial
              (fun e => Op.noConfusion e) e1)
            trivial (fun e => Op.noConfusion e) e2)
          trivial (fun e => Op.noConfusion e) e3)
        trivial (fun _ => Or.inl hs) e4)
      trivial (fun e => Op.noConfusion e) e5
  exact ⟨l5, he, hr, hl, hb, is_linear_consecutive l5 hr hl⟩

set_option maxRecDepth 1000000 in
/-- C18 (failing input): `sample_tail` is well-formed, its `is_linear` flag is
set and its 15 elements sit at the consecutive indices 46 .. 60 in list order.
Erasing the last element, the active index 60, keeps the flag (the successor
is 0) and leaves the elements at 46 .. 59, but the shrink check that ends
`erase_element` asks `resize_list` for 32 nodes: every index that
`element_by_number` yields, 46 for the first element, lies outside that array,
the walk of the free chain starts at `nodes[60]`, and `erase_element` has no
defined result. -/
theorem erase_linear_fault :
    WF sample_tail (List.range' 46 15) ((List.range' 1 45).reverse ++ [61, 62, 63]) ∧
      sample_tail.is_linear = true ∧ indices sample_tail = .ok (List.range' 46 15) ∧
      is_active sample_tail 60 ∧
      (∃ l0, erase_core sample_tail 60 = .ok l0 ∧ l0.is_linear = true ∧
        indices l0 = .ok (List.range' 46 14) ∧ l0.free = 60 ∧
        element_by_number l0 0 = .ok 46 ∧ shrink_size l0 = .ok (some 32) ∧
        rd (reallocarray l0.nodes 32) 60 = .oob) ∧
      Op.run sample_tail (Op.erase_element 60) = .oob := by
  refine ⟨by decide, rfl, by decide, by decide,
    ⟨_, rfl, by decide, by decide, by decide, by decide, by decide, by decide⟩, by decide⟩

/-! ## The number of swaps of the placing pass -/

theorem place_log_fst (i : Nat) : ∀ (F : Nat) (N : List node),
    (place_log N F i).bind (fun r => .ok r.1) = place N F i
  | 0, _ => rfl
  | F + 1, N => by
    unfold place_log place
    cases hr : rd N i with
    | oob => rfl
    | diverge => rfl
    | ok n =>
      simp only [Res.bind_ok]
      by_cases hc : n.is_free = false ∧ n.prev ≠ i
      · rw [if_pos hc, if_pos hc]
        cases hm : memswap N i n.prev with
        | oob => rfl
        | diverge => rfl
        | ok ns1 =>
          simp only [Res.bind_ok]
          rw [← place_log_fst i F ns1]
          cases place_log ns1 F i <;> rfl
      · rw [if_neg hc, if_neg hc]; rfl

theorem place_pass_log_fst : ∀ (cnt i : Nat) (s : List node × List swap_rec),
    (for_range (fun i s => (place_log s.1 (s.1.length + 1) i).bind
        fun r => .ok (r.1, s.2 ++ r.2)) i cnt s).bind (fun r => .ok r.1) =
      for_range (fun i N => place N (N.length + 1) i) i cnt s.1
  | 0, _, _ => rfl
  | cnt + 1, i, s => by
    simp only [for_range]
    rw [← place_log_fst i (s.1.length + 1) s.1]
    cases hp : place_log s.1 (s.1.length + 1) i with
    | oob => rfl
    | diverge => rfl
    | ok r =>
      simp only [Res.bind_ok]
      exact place_pass_log_fst cnt (i + 1) (r.1, s.2 ++ r.2)

/-- One swap of the placing loop at index `i`: the node at `i` is an element
node whose rank `p` differs from `i`; it goes to index `p`, the invariant is
kept and one more rank is at its index. -/
theorem swap_step {n cap : Nat} {val : Nat → element_t} (hn : n < cap) {M : List node}
    {pos : Nat → Nat} {i : Nat} (hi1 : 1 ≤ i) (hic : i < cap) (hP : Placing n cap val M pos)
    {n0 : node} (hg0 : M[i]? = some n0) (hcond : n0.is_free = false ∧ n0.prev ≠ i) :
    ∃ ms1 pos1, memswap M i n0.prev = .ok ms1 ∧ Placing n cap val ms1 pos1 ∧
      misplaced n pos1 < misplaced n pos ∧ 1 ≤ n0.prev ∧ n0.prev ≤ n ∧
      ms1[n0.prev]? = some n0 ∧ (∀ j, j ≠ n0.prev → j ≠ i → ms1[j]? = M[j]?) ∧
      (∀ j, fl M j = some false → pv M j = some j → 1 ≤ j → j < cap → j ≠ n0.prev) := by
  obtain ⟨hlen, hb, hc⟩ := hP
  obtain ⟨n1, hg1, hr, -, hpv, hfl, -⟩ := rd_ok (N := M) (i := i) (by rw [hlen]; exact hic)
  rw [hg0] at hg1
  have e01 : n0 = n1 := Option.some.inj hg1
  subst e01
  have hex : ∃ r, 1 ≤ r ∧ r ≤ n ∧ pos r = i := by
    by_contra hno
    have := hc i hi1 hic (fun r h1 h2 e => hno ⟨r, h1, h2, e⟩)
    rw [hfl, hcond.1] at this
    simp at this
  obtain ⟨p, hp1, hpn, hpi⟩ := hex
  have hbp := hb p hp1 hpn
  rw [hpi] at hbp
  have hprev : n0.prev = p := by
    have := hbp.2.2.2.1
    rw [hpv] at this
    exact Option.some.inj this
  have hne : i ≠ p := fun e => hcond.2 (by rw [hprev]; exact e.symm)
  have hpc : p < cap := by omega
  obtain ⟨ms1, e1, l1, g1⟩ := memswap_ok (N := M) (i := i) (p := p)
    (by rw [hlen]; exact hic) (by rw [hlen]; exact hpc) hne
  have hgp : ms1[p]? = M[i]? := by rw [g1, if_pos rfl]
  have hgi : ms1[i]? = M[p]? := by rw [g1, if_neg hne, if_pos rfl]
  have hgo : ∀ j, j ≠ p → j ≠ i → ms1[j]? = M[j]? := fun j h1 h2 => by
    rw [g1, if_neg h1, if_neg h2]
  have hinj : ∀ r, 1 ≤ r → r ≤ n → pos r = i → r = p := by
    intro r h1 h2 e
    have := (hb r h1 h2).2.2.2.1
    rw [e, hbp.2.2.2.1] at this
    exact (Option.some.inj this).symm
  let pos1 : Nat → Nat := fun r => if r = p then p else if pos r = p then i else pos r
  have hP1 : Placing n cap val ms1 pos1 := by
    refine ⟨by rw [l1, hlen], ?_, ?_⟩
    · intro r h1 h2
      by_cases hrp : r = p
      · subst hrp
        have e : pos1 r = r := if_pos rfl
        rw [e]
        obtain ⟨v1, v2, v3, v4⟩ := views_of_get hgp
        exact ⟨hp1, hpc, by rw [v3]; exact hbp.2.2.1, by rw [v2]; exact hbp.2.2.2.1,
          by rw [v4]; exact hbp.2.2.2.2⟩
      · by_cases hrq : pos r = p
        · have e : pos1 r = i := by
            show (if r = p then p else if pos r = p then i else pos r) = i
            rw [if_neg hrp, if_pos hrq]
          rw [e]
          obtain ⟨v1, v2, v3, v4⟩ := views_of_get hgi
          have hbr := hb r h1 h2
          rw [hrq] at hbr
          exact ⟨hi1, hic, by rw [v3]; exact hbr.2.2.1, by rw [v2]; exact hbr.2.2.2.1,
            by rw [v4]; exact hbr.2.2.2.2⟩
        · have e : pos1 r = pos r := by
            show (if r = p then p else if pos r = p then i else pos r) = pos r
            rw [if_neg hrp, if_neg hrq]
          rw [e]
          have hri : pos r ≠ i := fun e2 => hrp (hinj r h1 h2 e2)
          obtain ⟨v1, v2, v3, v4⟩ := views_of_get (hgo (pos r) hrq hri)
          have hbr := hb r h1 h2
          exact ⟨hbr.1, hbr.2.1, by rw [v3]; exact hbr.2.2.1, by rw [v2]; exact hbr.2.2.2.1,
            by rw [v4]; exact hbr.2.2.2.2⟩
    · intro j hj1 hjc hno
      have hjp : j ≠ p := fun e => hno p hp1 hpn (by
        show (if p = p then p else if pos p = p then i else pos p) = j
        rw [if_pos rfl]; exact e.symm)
      by_cases hji : j = i
      · subst hji
        rw [(views_of_get hgi).2.2.1]
        refine hc p hp1 hpc ?_
        intro r h1 h2 e
        have hrp : r ≠ p := by
          intro e2
          rw [e2, hpi] at e
          exact hne e
        refine hno r h1 h2 ?_
        show (if r = p then p else if pos r = p then j else pos r) = j
        rw [if_neg hrp, if_pos e]
      · rw [(views_of_get (hgo j hjp hji)).2.2.1]
        refine hc j hj1 hjc ?_
        intro r h1 h2 e
        by_cases hrp : r = p
        · rw [hrp, hpi] at e
          exact hji e.symm
        · refine hno r h1 h2 ?_
          show (if r = p then p else if pos r = p then i else pos r) = j
          rw [if_neg hrp, if_neg (by rw [e]; exact hjp), e]
  have hm1 : misplaced n pos1 < misplaced n pos := by
    refine countP_lt_of_imp (List.range' 1 n) p ?_ ?_ ?_ ?_
    · intro r _ h2
      simp only [decide_eq_true_eq] at h2 ⊢
      by_cases hrp : r = p
      · exfalso; apply h2
        show (if r = p then p else if pos r = p then i else pos r) = r
        rw [if_pos hrp, hrp]
      · by_cases hrq : pos r = p
        · rw [hrq]; exact fun e => hrp e.symm
        · have e : pos1 r = pos r := by
            show (if r = p then p else if pos r = p then i else pos r) = pos r
            rw [if_neg hrp, if_neg hrq]
          rw [← e]; exact h2
    · rw [List.mem_range'_1]; omega
    · simp only [decide_eq_true_eq]
      rw [hpi]; exact hne
    · simp only [decide_eq_false_iff_not, not_not]
      show (if p = p then p else if pos p = p then i else pos p) = p
      rw [if_pos rfl]
  rw [hprev]
  refine ⟨ms1, pos1, e1, hP1, hm1, hp1, hpn, by rw [hgp, hg0], hgo, ?_⟩
  intro j hf hp hj1 hjc e
  subst e
  have hex : ∃ r, 1 ≤ r ∧ r ≤ n ∧ pos r = j := by
    by_contra hno
    have := hc j hj1 hjc (fun r h1 h2 e => hno ⟨r, h1, h2, e⟩)
    rw [hf] at this
    simp at this
  obtain ⟨r, hr1, hrn, hrj⟩ := hex
  have h4 := (hb r hr1 hrn).2.2.2.1
  rw [hrj, hp] at h4
  have hrj2 : j = r := Option.some.inj h4
  rw [← hrj2, hpi] at hrj
  exact hne hrj

/-- The `while` loop of `linearize` at index `i`, with its log: it ends within
`misplaced + 1` rounds, every swap takes one rank off the misplaced ones, and
the nodes placed by the swaps logged so far stay where they are. -/
theorem place_log_spec {n cap : Nat} {val : Nat → element_t} (hn : n < cap) :
    ∀ (F : Nat) (M : List node) (pos : Nat → Nat) (i : Nat) (log0 : List swap_rec),
    1 ≤ i → i < cap → Placing n cap val M pos → misplaced n pos < F →
    Placed n M log0 → Undisturbed log0 →
    ∃ ms1 pos1 lg, place_log M F i = .ok (ms1, lg) ∧ Placing n cap val ms1 pos1 ∧
      lg.length + misplaced n pos1 ≤ misplaced n pos ∧
      Placed n ms1 (log0 ++ lg) ∧ Undisturbed (log0 ++ lg)
  | 0, _, _, _, _, _, _, _, hm, _, _ => by omega
  | F + 1, M, pos, i, log0, hi1, hic, hP, hm, hL, hU => by
    have hlen := hP.1
    obtain ⟨n0, hg0, hr, -, hpv, hfl, -⟩ := rd_ok (N := M) (i := i) (by rw [hlen]; exact hic)
    by_cases hcond : n0.is_free = false ∧ n0.prev ≠ i
    · obtain ⟨ms1, pos1, e1, hP1, hm1, hp1, hpn, hgp, hgo, hhome⟩ :=
        swap_step hn hi1 hic hP hg0 hcond
      have hold : ∀ e ∈ log0, e.target ≠ n0.prev ∧ e.target ≠ i := by
        intro e he
        obtain ⟨a1, a2, a3, a4, a5, a6⟩ := hL e he
        have hv := views_of_get (N := M) (M := M) (j := e.target) (k := e.target) rfl
        have hfe : fl M e.target = some false := by
          simp only [fl, a6, Option.map_some', a1]
        have hpe : pv M e.target = some e.target := by
          simp only [pv, a6, Option.map_some', a2]
        refine ⟨hhome e.target hfe hpe a4 (by omega), ?_⟩
        intro e2
        rw [e2, hg0] at a6
        have e3 : n0 = e.moved := Option.some.inj a6
        apply hcond.2
        rw [e3, a2, e2]
      have hL1 : Placed n ms1 (log0 ++ [swap_rec.mk i n0.prev n0]) := by
        intro e he
        rcases List.mem_append.mp he with he | he
        · obtain ⟨a1, a2, a3, a4, a5, a6⟩ := hL e he
          obtain ⟨b1, b2⟩ := hold e he
          exact ⟨a1, a2, a3, a4, a5, by rw [hgo e.target b1 b2]; exact a6⟩
        · rw [List.mem_singleton] at he
          subst he
          exact ⟨hcond.1, rfl, hcond.2, hp1, hpn, hgp⟩
      have hU1 : Undisturbed (log0 ++ [swap_rec.mk i n0.prev n0]) := by
        unfold Undisturbed
        rw [List.pairwise_append]
        refine ⟨hU, List.pairwise_singleton _ _, ?_⟩
        intro a ha b hb
        rw [List.mem_singleton] at hb
        subst hb
        obtain ⟨b1, b2⟩ := hold a ha
        exact ⟨fun e => b1 e.symm, fun e => b2 e.symm⟩
      obtain ⟨ms2, pos2, lg, e2, hP2, hm2, hL2, hU2⟩ :=
        place_log_spec hn F ms1 pos1 i _ hi1 hic hP1 (by omega) hL1 hU1
      refine ⟨ms2, pos2, swap_rec.mk i n0.prev n0 :: lg, ?_, hP2, ?_, ?_, ?_⟩
      · unfold place_log
        simp only [hr, Res.bind_ok]
        rw [if_pos hcond]
        simp only [e1, Res.bind_ok, e2]
      · simp only [List.length_cons]; omega
      · have e : log0 ++ swap_rec.mk i n0.prev n0 :: lg =
            (log0 ++ [swap_rec.mk i n0.prev n0]) ++ lg := by simp
        rw [e]; exact hL2
      · have e : log0 ++ swap_rec.mk i n0.prev n0 :: lg =
            (log0 ++ [swap_rec.mk i n0.prev n0]) ++ lg := by simp
        rw [e]; exact hU2
    · refine ⟨M, pos, [], ?_, hP, by simp, by rw [List.append_nil]; exact hL,
        by rw [List.append_nil]; exact hU⟩
      unfold place_log
      simp only [hr, Res.bind_ok]
      rw [if_neg hcond]

/-- The second loop of `linearize` with its log: it ends, and the number of
swaps logged plus the number of misplaced ranks does not grow. -/
theorem place_pass_log_spec {n cap : Nat} {val : Nat → element_t} (hn : n < cap) :
    ∀ (cnt i : Nat) (M : List node) (pos : Nat → Nat) (log0 : List swap_rec), 1 ≤ i →
    i + cnt = cap → Placing n cap val M pos → Placed n M log0 → Undisturbed log0 →
    ∃ ms1 pos1 log1,
      for_range (fun i s => (place_log s.1 (s.1.length + 1) i).bind
        fun r => .ok (r.1, s.2 ++ r.2)) i cnt (M, log0) = .ok (ms1, log1) ∧
      Placing n cap val ms1 pos1 ∧
      log1.length + misplaced n pos1 ≤ log0.length + misplaced n pos ∧
      Placed n ms1 log1 ∧ Undisturbed log1
  | 0, i, M, pos, log0, _, _, hP, hL, hU => ⟨M, pos, log0, rfl, hP, Nat.le_refl _, hL, hU⟩
  | cnt + 1, i, M, pos, log0, hi1, hic, hP, hL, hU => by
    have hm := misplaced_le n pos
    obtain ⟨ms1, pos1, lg, e1, hP1, hm1, hL1, hU1⟩ :=
      place_log_spec hn (M.length + 1) M pos i log0 hi1 (by omega) hP (by rw [hP.1]; omega) hL hU
    obtain ⟨ms2, pos2, log2, e2, hP2, hm2, hL2, hU2⟩ :=
      place_pass_log_spec hn cnt (i + 1) ms1 pos1 (log0 ++ lg) (by omega) (by omega) hP1 hL1 hU1
    refine ⟨ms2, pos2, log2, ?_, hP2, ?_, hL2, hU2⟩
    · simp only [for_range, e1, Res.bind_ok, e2]
    · rw [List.length_append] at hm2; omega

/-- The stamping pass of `linearize` on a well-formed list: it ends, the
`prev` field of the element of rank `k + 1` holds `k + 1`, and the placing
invariant holds with every element at its old index. -/
theorem stamp_placing {l : compact_list} {act fr : List Nat} (h : WF l act fr) :
    ∃ ms0, stamp l.nodes (l.nodes.length + 1) (hd act 0) 1 = .ok ms0 ∧
      (∀ (k x : Nat), act[k]? = some x → pv ms0 x = some (k + 1)) ∧
      (∀ j, fl ms0 j = fl l.nodes j) ∧
      Placing l.size l.capacity (fun r => (vl l.nodes (act.getD (r - 1) 0)).getD POISON) ms0
        (fun r => act.getD (r - 1) 0) := by
  obtain ⟨hsh, hfree, hcap2⟩ := h
  have hnd := hsh.nodup
  have hact_ok := hsh.act_ok
  have hcover := fun x hx => hsh.cover (x := x) hx
  have h0 := hsh.zero_not_mem
  obtain ⟨hlen, hsz, hperm, hseg, hact, hfl, hfc⟩ := hsh
  have hnd_act : act.Nodup := by
    have h3 : (0 :: act ++ fr).Nodup := by simpa using hnd
    exact (List.nodup_cons.mp (List.nodup_append.mp h3).1).2
  obtain ⟨ms0, e0, l0, n0, f0, v0, p0, -⟩ := stamp_chain act l.nodes (hd act 0) 1
    (l.nodes.length + 1) (seg_fchain hseg) (fun e => h0 (by simp [e])) hnd_act
    (by have h1 := hsz; have h2 := hlen; omega)
  refine ⟨ms0, e0, fun k x hk => by rw [p0 k x hk, Nat.add_comm], f0, ?_⟩
  refine ⟨by rw [l0, hlen], ?_, ?_⟩
  · intro r h1 h2
    have hk : r - 1 < act.length := by rw [hsz]; omega
    have hg := getElem?_getD_of_lt hk
    have hm : act.getD (r - 1) 0 ∈ act := List.getElem?_mem hg
    obtain ⟨hx0, hxl⟩ := hact_ok _ hm
    obtain ⟨nd, -, -, -, -, -, hv⟩ := rd_ok hxl
    refine ⟨Nat.pos_of_ne_zero hx0, by rw [← hlen]; exact hxl, ?_, ?_, ?_⟩
    · rw [f0]; exact hact _ (List.mem_cons_of_mem _ hm)
    · rw [p0 (r - 1) _ hg]; congr 1; omega
    · rw [v0]
      show _ = some ((vl l.nodes (act.getD (r - 1) 0)).getD POISON)
      rw [hv]; rfl
  · intro j h1 h2 hno
    rw [f0]
    apply hfl
    have hm := hcover j h2
    simp only [List.mem_cons, List.mem_append] at hm
    rcases hm with e | e | e
    · omega
    · exfalso
      obtain ⟨k, hk, hkj⟩ := List.getElem_of_mem e
      refine hno (k + 1) (by omega) (by rw [← hsz]; omega) ?_
      show act.getD (k + 1 - 1) 0 = j
      rw [Nat.add_sub_cancel, List.getD_eq_getElem?_getD, List.getElem?_eq_getElem hk, hkj]
      rfl
    · exact e

/-- C16: on every well-formed list the rank-stamping pass of `linearize` ends
with the rank of every element in its `prev` field, and the swap loop over
`i` in `1 .. capacity - 1` that follows ends (within the fuel, with the array
that the unlogged loop of `linearize_core` computes).  Every swap moves an
element node to the index equal to its stamped rank, an index in `1 .. size`
other than the loop index; no later swap has that index as loop index or as
target, and the node is still there when the loop ends; the number of swaps
is at most `size`. -/
theorem swap_pass_bounded (l : compact_list) (act fr : List Nat) (h : WF l act fr) :
    ∃ b ns1 ns2 log, list_begin l = .ok b ∧
      stamp l.nodes (l.nodes.length + 1) b 1 = .ok ns1 ∧
      (∀ (k x : Nat), act[k]? = some x → pv ns1 x = some (k + 1) ∧ fl ns1 x = some false) ∧
      place_pass_log l.capacity ns1 = .ok (ns2, log) ∧
      for_range (fun i ns => place ns (ns.length + 1) i) 1 (l.capacity - 1) ns1 = .ok ns2 ∧
      log.length ≤ l.size ∧
      (∀ e ∈ log, e.moved.is_free = false ∧ e.moved.prev = e.target ∧ e.target ≠ e.idx ∧
        1 ≤ e.target ∧ e.target ≤ l.size ∧ ns2[e.target]? = some e.moved) ∧
      log.Pairwise (fun e e2 => e2.target ≠ e.target ∧ e2.idx ≠ e.target) := by
  obtain ⟨ms0, e0, hp0, hf0, hP0⟩ := stamp_placing h
  have hnc : l.size < l.capacity := by have := h.2.2; omega
  have hcp : 1 + (l.capacity - 1) = l.capacity := by omega
  obtain ⟨ms2, pos2, log, e2, hP2, hm2, hL2, hU2⟩ :=
    place_pass_log_spec hnc (l.capacity - 1) 1 ms0 _ [] (Nat.le_refl _) hcp hP0
      (fun e he => absurd he (List.not_mem_nil _)) List.Pairwise.nil
  have hm := misplaced_le l.size (fun r => act.getD (r - 1) 0)
  have hfst := place_pass_log_fst (l.capacity - 1) 1 (ms0, [])
  rw [e2] at hfst
  refine ⟨hd act 0, ms0, ms2, log, h.1.begin_eq, e0, ?_, e2, hfst.symm, ?_, ?_, hU2⟩
  · intro k x hk
    refine ⟨hp0 k x hk, ?_⟩
    rw [hf0]
    exact h.1.2.2.2.2.1 x (List.mem_cons_of_mem _ (List.getElem?_mem hk))
  · simp only [List.length_nil, Nat.zero_add] at hm2
    omega
  · exact hL2

/-- Witness for C16: the list 10, 30, 40 stored at the indices 1, 3, 2; the
loop makes one swap, at index 2 with target 3. -/
theorem swap_pass_bounded_witness :
    WF sample_mixed [1, 3, 2] (List.range' 4 12) ∧
      (∃ ns1 r, stamp sample_mixed.nodes 17 1 1 = .ok ns1 ∧
        place_pass_log 16 ns1 = .ok r ∧ r.2.map (fun e => (e.idx, e.target)) = [(2, 3)]) ∧
      ∃ b ns1 ns2 log, list_begin sample_mixed = .ok b ∧
        stamp sample_mixed.nodes (sample_mixed.nodes.length + 1) b 1 = .ok ns1 ∧
        (∀ (k x : Nat), [1, 3, 2][k]? = some x →
          pv ns1 x = some (k + 1) ∧ fl ns1 x = some false) ∧
        place_pass_log sample_mixed.capacity ns1 = .ok (ns2, log) ∧
        for_range (fun i ns => place ns (ns.length + 1) i) 1 (sample_mixed.capacity - 1) ns1
          = .ok ns2 ∧
        log.length ≤ sample_mixed.size ∧
        (∀ e ∈ log, e.moved.is_free = false ∧ e.moved.prev = e.target ∧ e.target ≠ e.idx ∧
          1 ≤ e.target ∧ e.target ≤ sample_mixed.size ∧ ns2[e.target]? = some e.moved) ∧
        log.Pairwise (fun e e2 => e2.target ≠ e.target ∧ e2.idx ≠ e.target) :=
  ⟨by decide, ⟨_, _, rfl, rfl, by decide⟩,
    swap_pass_bounded sample_mixed [1, 3, 2] (List.range' 4 12) (by decide)⟩

/-! ## Growth of the arena -/

end CompactList
